import Mathlib

/-!
# Verification of the wikifunc_labelize rewriting pipeline

A shallow embedding of the `wikifunc_labelize` service (Rust) in Lean 4.

The repository ships two generations of the pipeline:

* `src/main.rs` contains a self-contained binary with its own data
  model (`LabelledNode`, `StringType`, `SimpleValue`, `Type`,
  `IntermediateForm`, `CompactKey`, `CompactValue`), the conversions
  between these forms, the passes `compress_monolingual` and
  `drop_array_item_types`, and the HTTP routes (`compactify_route`).
* the module files `simple_value.rs`, `typed_form.rs`,
  `intermediate_form.rs`, `compact_key.rs`, `compact_value.rs` and
  `labelize.rs` contain a newer tower (with `TypedForm`, an enlarged
  `IntermediateForm`, a `CompactKey` carrying a *list* of type
  annotations) and the five passes `compress_reference`,
  `compress_string`, `compress_monolingual`, `drop_array_item_types`
  and `compress_simple_classes`.

Both towers are embedded below.  Rust `BTreeSet`/`BTreeMap` values are
modelled as sorted, deduplicated lists together with an explicit
comparator mirroring Rust's `#[derive(Ord)]` (variant order first, then
fields left-to-right, lexicographic lists, byte-lexicographic strings
— which agrees with the codepoint order of Lean's `String`).
Panicking branches (`todo!`, `unwrap`, `expect`, out-of-bounds
indexing) are modelled by `Option`, `none` standing for a panic.
-/

/-! ## Generic ordered-set machinery (model of `BTreeSet` / `BTreeMap`) -/

/-- Comparator for strings, matching Rust's `Ord for String`
(byte-lexicographic, which coincides with codepoint-lexicographic). -/
def cmpStr (a b : String) : Ordering :=
  if a < b then .lt else if a = b then .eq else .gt

/-- Comparator for naturals (used for variant tags of encoded trees). -/
def cmpNat (a b : Nat) : Ordering :=
  if a < b then .lt else if a = b then .eq else .gt

/-- The three laws a comparator modelling a Rust `Ord` instance enjoys. -/
structure IsLawfulCmp {α : Type} (cmp : α → α → Ordering) : Prop where
  eq_iff : ∀ a b, cmp a b = .eq ↔ a = b
  swap_eq : ∀ a b, (cmp a b).swap = cmp b a
  lt_trans : ∀ {a b c}, cmp a b = .lt → cmp b c = .lt → cmp a c = .lt

theorem cmpStr_lawful : IsLawfulCmp cmpStr := by
  refine ⟨?_, ?_, ?_⟩
  · intro a b
    unfold cmpStr
    split
    · simp only [reduceCtorEq, false_iff]
      intro h; subst h; exact lt_irrefl _ ‹a < a›
    · split
      · simpa
      · simp only [reduceCtorEq, false_iff]
        intro h; exact ‹¬ a = b› h
  · intro a b
    unfold cmpStr
    rcases lt_trichotomy a b with h | h | h
    · rw [if_pos h, if_neg (not_lt.2 h.le), if_neg (fun hx => (hx ▸ h).false)]
      rfl
    · subst h
      rw [if_neg (lt_irrefl a), if_pos rfl]
      rfl
    · rw [if_neg (not_lt.2 h.le), if_neg (fun hx => (hx ▸ h).false), if_pos h]
      rfl
  · intro a b c hab hbc
    unfold cmpStr at *
    split at hab
    · split at hbc
      · exact if_pos (lt_trans ‹a < b› ‹b < c›)
      · split at hbc
        · exact absurd hbc (by simp)
        · exact absurd hbc (by simp)
    · split at hab
      · exact absurd hab (by simp)
      · exact absurd hab (by simp)

theorem cmpNat_lawful : IsLawfulCmp cmpNat := by
  refine ⟨?_, ?_, ?_⟩
  · intro a b
    unfold cmpNat
    split
    · simp only [reduceCtorEq, false_iff]
      intro h; subst h; exact lt_irrefl _ ‹a < a›
    · split
      · simpa
      · simp only [reduceCtorEq, false_iff]
        intro h; exact ‹¬ a = b› h
  · intro a b
    unfold cmpNat
    rcases lt_trichotomy a b with h | h | h
    · rw [if_pos h, if_neg (not_lt.2 h.le), if_neg (fun hx => (hx ▸ h).false)]
      rfl
    · subst h
      rw [if_neg (lt_irrefl a), if_pos rfl]
      rfl
    · rw [if_neg (not_lt.2 h.le), if_neg (fun hx => (hx ▸ h).false), if_pos h]
      rfl
  · intro a b c hab hbc
    unfold cmpNat at *
    split at hab
    · split at hbc
      · exact if_pos (lt_trans ‹a < b› ‹b < c›)
      · split at hbc
        · exact absurd hbc (by simp)
        · exact absurd hbc (by simp)
    · split at hab
      · exact absurd hab (by simp)
      · exact absurd hab (by simp)

section SetOf

variable {α : Type} (cmp : α → α → Ordering)

/-- Insertion into a sorted list without duplicates; on an `.eq` hit the
existing element is kept, mirroring `BTreeSet::insert` on an already
present key. -/
def insertSorted (x : α) : List α → List α
  | [] => [x]
  | y :: ys =>
    match cmp x y with
    | .lt => x :: y :: ys
    | .eq => y :: ys
    | .gt => y :: insertSorted x ys

/-- Model of collecting an iterator into a `BTreeSet`: fold the elements
into a sorted deduplicated list. -/
def setOf' (l : List α) : List α :=
  l.foldl (fun acc x => insertSorted cmp x acc) []

/-- Strictly-sorted (by `cmp`) check for a list. -/
def sortedB : List α → Bool
  | [] => true
  | [_] => true
  | a :: b :: t =>
    match cmp a b with
    | .lt => sortedB (b :: t)
    | _ => false

theorem mem_insertSorted {x z : α} :
    ∀ {l : List α}, z ∈ insertSorted cmp x l → z = x ∨ z ∈ l := by
  intro l
  induction l with
  | nil => intro h; simp [insertSorted] at h; exact Or.inl h
  | cons y ys ih =>
    intro h
    unfold insertSorted at h
    rcases hc : cmp x y with _ | _ | _ <;> rw [hc] at h
    · rcases List.mem_cons.1 h with h | h
      · exact Or.inl h
      · exact Or.inr h
    · exact Or.inr h
    · rcases List.mem_cons.1 h with h | h
      · exact Or.inr (by simp [h])
      · rcases ih h with h' | h'
        · exact Or.inl h'
        · exact Or.inr (List.mem_cons_of_mem _ h')

theorem mem_setOf'_aux {z : α} :
    ∀ (l acc : List α), z ∈ l.foldl (fun acc x => insertSorted cmp x acc) acc →
      z ∈ acc ∨ z ∈ l := by
  intro l
  induction l with
  | nil => intro acc h; exact Or.inl h
  | cons x xs ih =>
    intro acc h
    rcases ih (insertSorted cmp x acc) h with h' | h'
    · rcases mem_insertSorted cmp h' with h'' | h''
      · exact Or.inr (by simp [h''])
      · exact Or.inl h''
    · exact Or.inr (List.mem_cons_of_mem _ h')

theorem mem_setOf' {z : α} {l : List α} (h : z ∈ setOf' cmp l) : z ∈ l := by
  rcases mem_setOf'_aux cmp l [] h with h' | h'
  · simp at h'
  · exact h'

theorem sortedB_tail {a : α} {l : List α} (h : sortedB cmp (a :: l) = true) :
    sortedB cmp l = true := by
  cases l with
  | nil => rfl
  | cons b t =>
    unfold sortedB at h
    rcases hc : cmp a b with _ | _ | _ <;> rw [hc] at h
    · exact h
    · exact absurd h (by simp)
    · exact absurd h (by simp)

theorem sortedB_head {a b : α} {l : List α} (h : sortedB cmp (a :: b :: l) = true) :
    cmp a b = .lt := by
  unfold sortedB at h
  rcases hc : cmp a b with _ | _ | _ <;> rw [hc] at h
  · exact absurd h (by simp)
  · exact absurd h (by simp)

theorem sortedB_cons {a b : α} {l : List α} (hab : cmp a b = .lt)
    (h : sortedB cmp (b :: l) = true) : sortedB cmp (a :: b :: l) = true := by
  unfold sortedB
  rw [hab]
  exact h

theorem insertSorted_sorted (hl : IsLawfulCmp cmp) (x : α) :
    ∀ {l : List α}, sortedB cmp l = true → sortedB cmp (insertSorted cmp x l) = true := by
  intro l
  induction l with
  | nil => intro _; rfl
  | cons y ys ih =>
    intro hs
    unfold insertSorted
    rcases hc : cmp x y with _ | _ | _
    · exact sortedB_cons cmp hc hs
    · exact hs
    · have hyx : cmp y x = .lt := by
        have := hl.swap_eq x y
        rw [hc] at this
        exact this.symm
      have hys : sortedB cmp ys = true := sortedB_tail cmp hs
      have hrec := ih hys
      -- head of insertSorted x ys is either x or head of ys
      cases ys with
      | nil => exact sortedB_cons cmp hyx (by rfl)
      | cons z zs =>
        unfold insertSorted
        rcases hcz : cmp x z with _ | _ | _
        · exact sortedB_cons cmp hyx (sortedB_cons cmp hcz hys)
        · exact hs
        · have hyz : cmp y z = .lt := sortedB_head cmp hs
          have : sortedB cmp (insertSorted cmp x (z :: zs)) = true := hrec
          unfold insertSorted at this
          rw [hcz] at this
          exact sortedB_cons cmp hyz this

theorem setOf'_sorted (hl : IsLawfulCmp cmp) (l : List α) :
    sortedB cmp (setOf' cmp l) = true := by
  have gen : ∀ (l acc : List α), sortedB cmp acc = true →
      sortedB cmp (l.foldl (fun acc x => insertSorted cmp x acc) acc) = true := by
    intro l
    induction l with
    | nil => intro acc h; exact h
    | cons x xs ih =>
      intro acc h
      exact ih _ (insertSorted_sorted cmp hl x h)
  exact gen l [] (by rfl)

/-- All elements of `l` are `cmp`-below `x`. -/
def allLtB (x : α) (l : List α) : Prop := ∀ a ∈ l, cmp a x = .lt

theorem sortedB_append_allLt (hl : IsLawfulCmp cmp) :
    ∀ {l₁ : List α} {x : α} {l₂ : List α},
      sortedB cmp (l₁ ++ x :: l₂) = true → allLtB cmp x l₁ := by
  intro l₁
  induction l₁ with
  | nil => intro x l₂ _ a ha; exact absurd ha (List.not_mem_nil a)
  | cons a rest ih =>
    intro x l₂ h b hb
    have htail : sortedB cmp (rest ++ x :: l₂) = true := by
      have hcons : sortedB cmp (a :: (rest ++ x :: l₂)) = true := by simpa using h
      exact sortedB_tail cmp hcons
    rcases List.mem_cons.1 hb with hb | hb
    · subst hb
      cases rest with
      | nil => exact sortedB_head cmp (by simpa using h)
      | cons c cs =>
        have hac : cmp b c = .lt := sortedB_head cmp (by simpa using h)
        have hcx : cmp c x = .lt := ih htail c (List.mem_cons_self c cs)
        exact hl.lt_trans hac hcx
    · exact ih htail b hb

theorem insertSorted_append_of_allLt (hl : IsLawfulCmp cmp) (x : α) :
    ∀ {l : List α}, allLtB cmp x l → insertSorted cmp x l = l ++ [x] := by
  intro l
  induction l with
  | nil => intro _; rfl
  | cons y ys ih =>
    intro hall
    have hyx : cmp y x = .lt := hall y (List.mem_cons_self y ys)
    have hxy : cmp x y = .gt := by
      have := hl.swap_eq y x
      rw [hyx] at this
      exact this.symm
    unfold insertSorted
    rw [hxy]
    rw [ih (fun a ha => hall a (List.mem_cons_of_mem _ ha))]
    rfl

theorem setOf'_eq_self_of_sorted (hl : IsLawfulCmp cmp) :
    ∀ {l : List α}, sortedB cmp l = true → setOf' cmp l = l := by
  have gen : ∀ (l acc : List α), sortedB cmp (acc ++ l) = true →
      l.foldl (fun acc x => insertSorted cmp x acc) acc = acc ++ l := by
    intro l
    induction l with
    | nil => intro acc _; simp
    | cons x xs ih =>
      intro acc h
      have hall : allLtB cmp x acc := sortedB_append_allLt cmp hl h
      have hins : insertSorted cmp x acc = acc ++ [x] :=
        insertSorted_append_of_allLt cmp hl x hall
      show xs.foldl (fun acc x => insertSorted cmp x acc) (insertSorted cmp x acc) = acc ++ x :: xs
      rw [hins]
      have := ih (acc ++ [x]) (by simpa using h)
      rw [this]
      simp
  intro l h
  exact gen l [] (by simpa using h)

theorem setOf'_idem (hl : IsLawfulCmp cmp) (l : List α) :
    setOf' cmp (setOf' cmp l) = setOf' cmp l :=
  setOf'_eq_self_of_sorted cmp hl (setOf'_sorted cmp hl l)

/-- Elementwise-fixed maps act as the identity. -/
theorem map_id_of_mem (f : α → α) :
    ∀ {l : List α}, (∀ a ∈ l, f a = a) → l.map f = l := by
  intro l
  induction l with
  | nil => intro _; rfl
  | cons a t ih =>
    intro h
    simp only [List.map_cons]
    rw [h a (List.mem_cons_self a t), ih (fun b hb => h b (List.mem_cons_of_mem _ hb))]

/-- Weight of a list of elements under an element weight. -/
def sumW (w : α → Nat) : List α → Nat
  | [] => 0
  | a :: t => w a + sumW w t

theorem sumW_insertSorted_le (w : α → Nat) (x : α) :
    ∀ (l : List α), sumW w (insertSorted cmp x l) ≤ w x + sumW w l := by
  intro l
  induction l with
  | nil => simp [insertSorted, sumW]
  | cons y ys ih =>
    unfold insertSorted
    rcases cmp x y with _ | _ | _
    · simp only [sumW]
      omega
    · simp only [sumW]
      omega
    · simp only [sumW]
      have := ih
      omega

theorem sumW_setOf'_le (w : α → Nat) (l : List α) :
    sumW w (setOf' cmp l) ≤ sumW w l := by
  have gen : ∀ (l acc : List α),
      sumW w (l.foldl (fun acc x => insertSorted cmp x acc) acc) ≤ sumW w acc + sumW w l := by
    intro l
    induction l with
    | nil => intro acc; simp [sumW]
    | cons x xs ih =>
      intro acc
      calc sumW w (xs.foldl (fun acc x => insertSorted cmp x acc) (insertSorted cmp x acc))
          ≤ sumW w (insertSorted cmp x acc) + sumW w xs := ih _
        _ ≤ (w x + sumW w acc) + sumW w xs := by
            have := sumW_insertSorted_le cmp w x acc
            omega
        _ = sumW w acc + sumW w (x :: xs) := by simp [sumW]; omega
  have := gen l []
  simpa [sumW] using this

end SetOf

/-! ### Keyed insertion: model of `BTreeMap<String, β>` collection -/

section MapCollect

variable {β : Type}

/-- `BTreeMap::insert` keyed by a string: replaces the value on an equal
key (the later entry of an iterator wins on `collect`). -/
def mapInsert (p : String × β) : List (String × β) → List (String × β)
  | [] => [p]
  | q :: t =>
    match cmpStr p.1 q.1 with
    | .lt => p :: q :: t
    | .eq => p :: t
    | .gt => q :: mapInsert p t

/-- Model of collecting an iterator of pairs into a `BTreeMap<String, β>`. -/
def mapCollect (l : List (String × β)) : List (String × β) :=
  l.foldl (fun acc p => mapInsert p acc) []

/-- Keys of an association list: strictly sorted. -/
def keySortedB : List (String × β) → Bool
  | [] => true
  | [_] => true
  | a :: b :: t =>
    match cmpStr a.1 b.1 with
    | .lt => keySortedB (b :: t)
    | _ => false

theorem keySortedB_cons {a b : String × β} {l : List (String × β)}
    (hab : cmpStr a.1 b.1 = .lt) (h : keySortedB (b :: l) = true) :
    keySortedB (a :: b :: l) = true := by
  unfold keySortedB
  rw [hab]
  exact h

theorem keySortedB_tail {a : String × β} {l : List (String × β)}
    (h : keySortedB (a :: l) = true) : keySortedB l = true := by
  cases l with
  | nil => rfl
  | cons b t =>
    unfold keySortedB at h
    rcases hc : cmpStr a.1 b.1 with _ | _ | _ <;> rw [hc] at h
    · exact h
    · exact absurd h (by simp)
    · exact absurd h (by simp)

theorem keySortedB_head {a b : String × β} {l : List (String × β)}
    (h : keySortedB (a :: b :: l) = true) : cmpStr a.1 b.1 = .lt := by
  unfold keySortedB at h
  rcases hc : cmpStr a.1 b.1 with _ | _ | _ <;> rw [hc] at h
  · exact absurd h (by simp)
  · exact absurd h (by simp)

theorem mapInsert_keySorted (p : String × β) :
    ∀ {l : List (String × β)}, keySortedB l = true →
      keySortedB (mapInsert p l) = true := by
  intro l
  induction l with
  | nil => intro _; rfl
  | cons q t ih =>
    intro hs
    unfold mapInsert
    rcases hc : cmpStr p.1 q.1 with _ | _ | _
    · exact keySortedB_cons hc hs
    · -- replace head: key equal so p.1 = q.1
      have hpq : p.1 = q.1 := (cmpStr_lawful.eq_iff _ _).1 hc
      cases t with
      | nil => rfl
      | cons r rs =>
        have hqr : cmpStr q.1 r.1 = .lt := keySortedB_head hs
        exact keySortedB_cons (by rw [hpq]; exact hqr) (keySortedB_tail hs)
    · have hqp : cmpStr q.1 p.1 = .lt := by
        have := cmpStr_lawful.swap_eq p.1 q.1
        rw [hc] at this
        exact this.symm
      have ht : keySortedB t = true := keySortedB_tail hs
      have hrec := ih ht
      cases t with
      | nil => exact keySortedB_cons hqp (by rfl)
      | cons r rs =>
        unfold mapInsert
        rcases hcr : cmpStr p.1 r.1 with _ | _ | _
        · exact keySortedB_cons hqp (keySortedB_cons hcr ht)
        · have hpr : p.1 = r.1 := (cmpStr_lawful.eq_iff _ _).1 hcr
          have hqr : cmpStr q.1 r.1 = .lt := keySortedB_head hs
          exact keySortedB_cons (by rw [hpr] at hqp ⊢; exact hqp)
            (by
              have := keySortedB_tail (keySortedB_tail hs)
              cases rs with
              | nil => rfl
              | cons u us =>
                have hru : cmpStr r.1 u.1 = .lt := keySortedB_head (keySortedB_tail hs)
                exact keySortedB_cons (by rw [hpr]; exact hru) this)
        · have hqr : cmpStr q.1 r.1 = .lt := keySortedB_head hs
          have : keySortedB (mapInsert p (r :: rs)) = true := hrec
          unfold mapInsert at this
          rw [hcr] at this
          exact keySortedB_cons hqr this

theorem mapCollect_keySorted (l : List (String × β)) :
    keySortedB (mapCollect l) = true := by
  have gen : ∀ (l acc : List (String × β)), keySortedB acc = true →
      keySortedB (l.foldl (fun acc p => mapInsert p acc) acc) = true := by
    intro l
    induction l with
    | nil => intro acc h; exact h
    | cons p ps ih =>
      intro acc h
      exact ih _ (mapInsert_keySorted p h)
  exact gen l [] (by rfl)

theorem mem_mapInsert {p z : String × β} :
    ∀ {l : List (String × β)}, z ∈ mapInsert p l → z = p ∨ z ∈ l := by
  intro l
  induction l with
  | nil => intro h; simp [mapInsert] at h; exact Or.inl h
  | cons q t ih =>
    intro h
    unfold mapInsert at h
    rcases hc : cmpStr p.1 q.1 with _ | _ | _ <;> rw [hc] at h
    · rcases List.mem_cons.1 h with h | h
      · exact Or.inl h
      · exact Or.inr h
    · rcases List.mem_cons.1 h with h | h
      · exact Or.inl h
      · exact Or.inr (List.mem_cons_of_mem _ h)
    · rcases List.mem_cons.1 h with h | h
      · exact Or.inr (by simp [h])
      · rcases ih h with h' | h'
        · exact Or.inl h'
        · exact Or.inr (List.mem_cons_of_mem _ h')

theorem mem_mapCollect {z : String × β} {l : List (String × β)}
    (h : z ∈ mapCollect l) : z ∈ l := by
  have gen : ∀ (l acc : List (String × β)),
      z ∈ l.foldl (fun acc p => mapInsert p acc) acc → z ∈ acc ∨ z ∈ l := by
    intro l
    induction l with
    | nil => intro acc h; exact Or.inl h
    | cons p ps ih =>
      intro acc h
      rcases ih (mapInsert p acc) h with h' | h'
      · rcases mem_mapInsert h' with h'' | h''
        · exact Or.inr (by simp [h''])
        · exact Or.inl h''
      · exact Or.inr (List.mem_cons_of_mem _ h')
  rcases gen l [] h with h' | h'
  · simp at h'
  · exact h'

end MapCollect

/-- Option-valued mapping over a list (model of iterating a fallible map
and collecting; `none` models a panic inside the closure). -/
def mapOpt {α β : Type} (f : α → Option β) : List α → Option (List β)
  | [] => some []
  | a :: t => do
    let b ← f a
    let bs ← mapOpt f t
    some (b :: bs)

theorem mapOpt_of_fixed {α : Type} (f : α → Option α) :
    ∀ {l : List α}, (∀ a ∈ l, f a = some a) → mapOpt f l = some l := by
  intro l
  induction l with
  | nil => intro _; rfl
  | cons a t ih =>
    intro h
    unfold mapOpt
    rw [h a (List.mem_cons_self a t), ih (fun b hb => h b (List.mem_cons_of_mem _ hb))]
    rfl

/-! ## Encoded trees: a single comparator implementing Rust `#[derive(Ord)]`

Every data type of the repository derives `Ord`; the derived order
compares the variant indices first and then the fields left-to-right
(`Vec`/`BTreeSet`/`BTreeMap` lexicographically, `String`
byte-lexicographically).  We realise all of these orders at once by
injectively encoding each type into `ETree` (variant tag, string
payload, children in field order) and comparing encodings. -/

mutual

inductive ETree : Type where
  | node (tag : Nat) (s : String) (children : EList)

inductive EList : Type where
  | nil
  | cons (t : ETree) (ts : EList)

end

mutual

/-- Lexicographic comparison of encoded trees: tag, then payload, then
children. -/
def cmpE : ETree → ETree → Ordering
  | .node t1 s1 c1, .node t2 s2 c2 =>
    match cmpNat t1 t2 with
    | .lt => .lt
    | .gt => .gt
    | .eq =>
      match cmpStr s1 s2 with
      | .lt => .lt
      | .gt => .gt
      | .eq => cmpEL c1 c2

/-- Lexicographic comparison of encoded forests (`Vec`-style: a strict
prefix is smaller). -/
def cmpEL : EList → EList → Ordering
  | .nil, .nil => .eq
  | .nil, .cons _ _ => .lt
  | .cons _ _, .nil => .gt
  | .cons a as, .cons b bs =>
    match cmpE a b with
    | .eq => cmpEL as bs
    | o => o

end

mutual

theorem cmpE_eq_iff : ∀ a b : ETree, cmpE a b = .eq ↔ a = b
  | .node t1 s1 c1, .node t2 s2 c2 => by
    unfold cmpE
    rcases ht : cmpNat t1 t2 with _ | _ | _
    · simp only [reduceCtorEq, false_iff]
      intro h
      injection h with h1 h2 h3
      rw [h1] at ht
      rw [(cmpNat_lawful.eq_iff t2 t2).2 rfl] at ht
      exact absurd ht (by simp)
    · rcases hs : cmpStr s1 s2 with _ | _ | _
      · simp only [reduceCtorEq, false_iff]
        intro h
        injection h with h1 h2 h3
        rw [h2] at hs
        rw [(cmpStr_lawful.eq_iff s2 s2).2 rfl] at hs
        exact absurd hs (by simp)
      · have ht' := (cmpNat_lawful.eq_iff t1 t2).1 ht
        have hs' := (cmpStr_lawful.eq_iff s1 s2).1 hs
        subst ht'
        subst hs'
        constructor
        · intro h
          rw [(cmpEL_eq_iff c1 c2).1 h]
        · intro h
          injection h with h1 h2 h3
          exact (cmpEL_eq_iff c1 c2).2 h3
      · simp only [reduceCtorEq, false_iff]
        intro h
        injection h with h1 h2 h3
        rw [h2] at hs
        rw [(cmpStr_lawful.eq_iff s2 s2).2 rfl] at hs
        exact absurd hs (by simp)
    · simp only [reduceCtorEq, false_iff]
      intro h
      injection h with h1 h2 h3
      rw [h1] at ht
      rw [(cmpNat_lawful.eq_iff t2 t2).2 rfl] at ht
      exact absurd ht (by simp)

theorem cmpEL_eq_iff : ∀ a b : EList, cmpEL a b = .eq ↔ a = b
  | .nil, .nil => by simp [cmpEL]
  | .nil, .cons _ _ => by simp [cmpEL]
  | .cons _ _, .nil => by simp [cmpEL]
  | .cons a as, .cons b bs => by
    unfold cmpEL
    rcases hc : cmpE a b with _ | _ | _
    · simp only [reduceCtorEq, false_iff]
      intro h
      injection h with h1 h2
      rw [h1] at hc
      rw [(cmpE_eq_iff b b).2 rfl] at hc
      exact absurd hc (by simp)
    · have hab := (cmpE_eq_iff a b).1 hc
      subst hab
      constructor
      · intro h
        rw [(cmpEL_eq_iff as bs).1 h]
      · intro h
        injection h with h1 h2
        exact (cmpEL_eq_iff as bs).2 h2
    · simp only [reduceCtorEq, false_iff]
      intro h
      injection h with h1 h2
      rw [h1] at hc
      rw [(cmpE_eq_iff b b).2 rfl] at hc
      exact absurd hc (by simp)

end

mutual

theorem cmpE_swap : ∀ a b : ETree, (cmpE a b).swap = cmpE b a
  | .node t1 s1 c1, .node t2 s2 c2 => by
    unfold cmpE
    have ht := cmpNat_lawful.swap_eq t1 t2
    have hs := cmpStr_lawful.swap_eq s1 s2
    rcases h1 : cmpNat t1 t2 with _ | _ | _ <;> rw [h1] at ht
    · rw [← ht]
      rfl
    · rw [← ht]
      rcases h2 : cmpStr s1 s2 with _ | _ | _ <;> rw [h2] at hs
      · rw [← hs]
        rfl
      · rw [← hs]
        exact cmpEL_swap c1 c2
      · rw [← hs]
        rfl
    · rw [← ht]
      rfl

theorem cmpEL_swap : ∀ a b : EList, (cmpEL a b).swap = cmpEL b a
  | .nil, .nil => by rfl
  | .nil, .cons _ _ => by rfl
  | .cons _ _, .nil => by rfl
  | .cons a as, .cons b bs => by
    unfold cmpEL
    have hc := cmpE_swap a b
    rcases h1 : cmpE a b with _ | _ | _ <;> rw [h1] at hc
    · rw [← hc]
      rfl
    · rw [← hc]
      exact cmpEL_swap as bs
    · rw [← hc]
      rfl

end

mutual

theorem cmpE_trans : ∀ a b c : ETree, cmpE a b = .lt → cmpE b c = .lt → cmpE a c = .lt
  | .node t1 s1 c1, .node t2 s2 c2, .node t3 s3 c3 => by
    intro hab hbc
    unfold cmpE at hab hbc ⊢
    rcases h12 : cmpNat t1 t2 with _ | _ | _ <;> rw [h12] at hab
    · rcases h23 : cmpNat t2 t3 with _ | _ | _ <;> rw [h23] at hbc
      · rw [cmpNat_lawful.lt_trans h12 h23]
      · have h' := (cmpNat_lawful.eq_iff t2 t3).1 h23
        subst h'
        rw [h12]
      · exact absurd hbc (by simp)
    · have h' := (cmpNat_lawful.eq_iff t1 t2).1 h12
      subst h'
      rcases h23 : cmpNat t1 t3 with _ | _ | _ <;> rw [h23] at hbc
      · rcases hs12 : cmpStr s1 s2 with _ | _ | _ <;> rw [hs12] at hab
        · rcases hs23 : cmpStr s2 s3 with _ | _ | _ <;> rw [hs23] at hbc
          · rw [cmpStr_lawful.lt_trans hs12 hs23]
          · have h' := (cmpStr_lawful.eq_iff s2 s3).1 hs23
            subst h'
            rw [hs12]
          · exact absurd hbc (by simp)
        · have h' := (cmpStr_lawful.eq_iff s1 s2).1 hs12
          subst h'
          rcases hs23 : cmpStr s1 s3 with _ | _ | _ <;> rw [hs23] at hbc
          · exact cmpEL_trans c1 c2 c3 hab hbc
          · exact absurd hbc (by simp)
        · exact absurd hab (by simp)
      · exact absurd hbc (by simp)
    · exact absurd hab (by simp)

theorem cmpEL_trans : ∀ a b c : EList, cmpEL a b = .lt → cmpEL b c = .lt → cmpEL a c = .lt
  | .nil, .nil, _ => by
    intro hab
    exact absurd hab (by simp [cmpEL])
  | .nil, .cons _ _, .nil => by
    intro _ hbc
    exact absurd hbc (by simp [cmpEL])
  | .nil, .cons _ _, .cons _ _ => by
    intro _ _
    rfl
  | .cons _ _, .nil, _ => by
    intro hab
    exact absurd hab (by simp [cmpEL])
  | .cons a as, .cons b bs, .nil => by
    intro _ hbc
    exact absurd hbc (by simp [cmpEL])
  | .cons a as, .cons b bs, .cons c cs => by
    intro hab hbc
    unfold cmpEL at hab hbc ⊢
    rcases h1 : cmpE a b with _ | _ | _ <;> rw [h1] at hab
    · rcases h2 : cmpE b c with _ | _ | _ <;> rw [h2] at hbc
      · rw [cmpE_trans a b c h1 h2]
      · have h' := (cmpE_eq_iff b c).1 h2
        subst h'
        rw [h1]
      · exact absurd hbc (by simp)
    · have h' := (cmpE_eq_iff a b).1 h1
      subst h'
      rcases h2 : cmpE a c with _ | _ | _ <;> rw [h2] at hbc
      · exact cmpEL_trans as bs cs hab hbc
      · exact absurd hbc (by simp)
    · exact absurd hab (by simp)

end

/-- The encoded-tree comparator is lawful. -/
theorem cmpE_lawful : IsLawfulCmp cmpE := by
  refine ⟨cmpE_eq_iff, ?_, ?_⟩
  · exact cmpE_swap
  · intro a b c hab hbc
    exact cmpE_trans a b c hab hbc

/-- Pull a lawful comparator back along an injective encoding. -/
theorem lawful_of_inj {α : Type} (enc : α → ETree)
    (hinj : ∀ a b, enc a = enc b → a = b) :
    IsLawfulCmp (fun a b => cmpE (enc a) (enc b)) := by
  refine ⟨?_, ?_, ?_⟩
  · intro a b
    constructor
    · intro h
      exact hinj a b ((cmpE_eq_iff _ _).1 h)
    · intro h
      subst h
      exact (cmpE_eq_iff _ _).2 rfl
  · intro a b
    exact cmpE_swap _ _
  · intro a b c hab hbc
    exact cmpE_trans _ _ _ hab hbc

/-! ## JSON values (model of `serde_json::Value`)

`Value::Object` is a `BTreeMap<String, Value>`; objects built by the
program are collected through `mapCollect`, while objects received from
the upstream API are arbitrary. -/

inductive JValue : Type where
  | vNull
  | vBool (b : Bool)
  | vNum (n : Int)
  | vStr (s : String)
  | vArr (l : List JValue)
  | vObj (o : List (String × JValue))

namespace JValue

/-- `Value::get(key)`: `None` unless the value is an object holding the key. -/
def get : JValue → String → Option JValue
  | .vObj o, k => (o.find? (fun p => p.1 == k)).map (fun p => p.2)
  | _, _ => none

/-- `Value::as_str`. -/
def as_str : JValue → Option String
  | .vStr s => some s
  | _ => none

/-- `Value::as_array`. -/
def as_array : JValue → Option (List JValue)
  | .vArr l => some l
  | _ => none

/-- `Value::as_object`. -/
def as_object : JValue → Option (List (String × JValue))
  | .vObj o => some o
  | _ => none

/-- `Value::is_object`. -/
def is_object : JValue → Bool
  | .vObj _ => true
  | _ => false

end JValue

/-! ## The shared string model (`simple_value.rs`, also `main.rs`)

`LabelledNode` stores `readable_labels : BTreeMap<String, String>`
(in `main.rs`: `BTreeSet<(String, String)>`) and the identifier
`z_label`; both collections are key-sorted pair lists here, in the
field order of the Rust struct. -/

structure LabelledNode : Type where
  readable_labels : List (String × String)
  z_label : String
deriving DecidableEq

/-- `BTreeMap::get` on a pair-list representation. -/
def lookupMap (m : List (String × String)) (k : String) : Option String :=
  (m.find? (fun p => p.1 == k)).map (fun p => p.2)

/-- `LabelledNode::choose_lang` (simple_value.rs, and the equivalent
code in main.rs): `"{z_label}: {label}"` with the label of the first
matching language, else the first stored label, else `"<no label>"`. -/
def LabelledNode.choose_lang (n : LabelledNode) (langs : List String) : String :=
  n.z_label ++ ": " ++
    (match langs.findSome? (fun lang => lookupMap n.readable_labels lang) with
     | some l => l
     | none =>
       match n.readable_labels with
       | [] => "<no label>"
       | (_, l) :: _ => l)

inductive StringType : Type where
  | String (s : String)
  | LabelledNode (n : LabelledNode)
deriving DecidableEq

/-- A top-level alias for `String`, usable inside namespaces whose
types have a constructor called `String`. -/
abbrev RawStr := String

/-- `StringType::is_labelled`. -/
def StringType.is_labelled : StringType → RawStr → Bool
  | .String s, label => s == label
  | .LabelledNode n, label => n.z_label == label

/-- `StringType::choose_lang`. -/
def StringType.choose_lang : StringType → List RawStr → RawStr
  | .String s, _ => s
  | .LabelledNode n, langs => n.choose_lang langs

/-- Modelled from the spec: `StringType::to_raw` is called by
`compress_string` (intermediate_form.rs) but its definition is not
among the given source files.  Per the surrounding comment ("if the
string is labelled, it should not be, we turn it back to a normal
string") it recovers the raw string, i.e. the original identifier of a
`LabelledNode`. -/
def StringType.to_raw : StringType → RawStr
  | .String s => s
  | .LabelledNode n => n.z_label

inductive SimpleValue : Type where
  | StringType (k : StringType)
  | Array (v : List SimpleValue)
  | Object (o : List (StringType × SimpleValue))

/-! ## The module-file tower (`typed_form.rs`, `intermediate_form.rs`,
`compact_key.rs`, `compact_value.rs`)

`Type` of `typed_form.rs` is called `ZType` here (`Type` is reserved
in Lean). -/

mutual

inductive ZType : Type where
  | Simple (s : StringType)
  | WithArgs (typ : StringType) (args : List (StringType × TypedForm))

inductive TypedForm : Type where
  | StringType (s : StringType)
  | Array (typ : ZType) (items : List TypedForm)
  | Object (o : List (StringType × TypedForm))
  | TypedObject (typ : ZType) (o : List (StringType × TypedForm))

end

structure SimpleType : Type where
  s : StringType
deriving DecidableEq

mutual

inductive IntermediateType : Type where
  | Simple (s : StringType)
  | WithArgs (typ : StringType) (args : List (StringType × IntermediateForm))

inductive IntermediateForm : Type where
  | StringType (s : StringType)
  | LabelledNode (s : StringType) (t : SimpleType)
  | Array (items : List IntermediateForm)
  | TypedArray (typ : IntermediateType) (items : List IntermediateForm)
  | Object (o : List (StringType × IntermediateForm))
  | TypedObject (typ : IntermediateType) (o : List (StringType × IntermediateForm))

end

inductive CompactKey : Type where
  | StringType (s : StringType) (types : List SimpleType)
  | Transient (types : List SimpleType)
deriving DecidableEq

inductive CompactValue : Type where
  | KeyType (k : CompactKey)
  | Array (items : List CompactValue)
  | Object (o : List (CompactKey × CompactValue))

/-! ## Encodings into `ETree` (realising the derived `Ord` instances) -/

def EList.ofList : List ETree → EList
  | [] => .nil
  | t :: ts => .cons t (EList.ofList ts)

/-- Leaf encoding of a string. -/
def eStr (s : String) : ETree := .node 0 s .nil

def encStrPair (p : String × String) : ETree :=
  .node 0 "" (.cons (eStr p.1) (.cons (eStr p.2) .nil))

def encStrPairList (l : List (String × String)) : ETree :=
  .node 0 "" (EList.ofList (l.map encStrPair))

def encLabelledNode (n : LabelledNode) : ETree :=
  .node 0 "" (.cons (encStrPairList n.readable_labels) (.cons (eStr n.z_label) .nil))

def encStringType : StringType → ETree
  | .String s => .node 0 s .nil
  | .LabelledNode n => .node 1 "" (.cons (encLabelledNode n) .nil)

def encSimpleType (t : SimpleType) : ETree :=
  .node 0 "" (.cons (encStringType t.s) .nil)

mutual

def encSimpleValue : SimpleValue → ETree
  | .StringType k => .node 0 "" (.cons (encStringType k) .nil)
  | .Array v => .node 1 "" (encSVList v)
  | .Object o => .node 2 "" (encSVObj o)

def encSVList : List SimpleValue → EList
  | [] => .nil
  | x :: t => .cons (encSimpleValue x) (encSVList t)

def encSVObj : List (StringType × SimpleValue) → EList
  | [] => .nil
  | (k, v) :: t =>
    .cons (.node 0 "" (.cons (encStringType k) (.cons (encSimpleValue v) .nil))) (encSVObj t)

end

mutual

def encZType : ZType → ETree
  | .Simple s => .node 0 "" (.cons (encStringType s) .nil)
  | .WithArgs typ args =>
    .node 1 "" (.cons (encStringType typ) (.cons (.node 0 "" (encTFObj args)) .nil))

def encTypedForm : TypedForm → ETree
  | .StringType s => .node 0 "" (.cons (encStringType s) .nil)
  | .Array typ items =>
    .node 1 "" (.cons (encZType typ) (.cons (.node 0 "" (encTFList items)) .nil))
  | .Object o => .node 2 "" (encTFObj o)
  | .TypedObject typ o =>
    .node 3 "" (.cons (encZType typ) (.cons (.node 0 "" (encTFObj o)) .nil))

def encTFList : List TypedForm → EList
  | [] => .nil
  | x :: t => .cons (encTypedForm x) (encTFList t)

def encTFObj : List (StringType × TypedForm) → EList
  | [] => .nil
  | (k, v) :: t =>
    .cons (.node 0 "" (.cons (encStringType k) (.cons (encTypedForm v) .nil))) (encTFObj t)

end

mutual

def encIntermediateType : IntermediateType → ETree
  | .Simple s => .node 0 "" (.cons (encStringType s) .nil)
  | .WithArgs typ args =>
    .node 1 "" (.cons (encStringType typ) (.cons (.node 0 "" (encIFObj args)) .nil))

def encIntermediateForm : IntermediateForm → ETree
  | .StringType s => .node 0 "" (.cons (encStringType s) .nil)
  | .LabelledNode s t =>
    .node 1 "" (.cons (encStringType s) (.cons (encSimpleType t) .nil))
  | .Array items => .node 2 "" (encIFList items)
  | .TypedArray typ items =>
    .node 3 "" (.cons (encIntermediateType typ) (.cons (.node 0 "" (encIFList items)) .nil))
  | .Object o => .node 4 "" (encIFObj o)
  | .TypedObject typ o =>
    .node 5 "" (.cons (encIntermediateType typ) (.cons (.node 0 "" (encIFObj o)) .nil))

def encIFList : List IntermediateForm → EList
  | [] => .nil
  | x :: t => .cons (encIntermediateForm x) (encIFList t)

def encIFObj : List (StringType × IntermediateForm) → EList
  | [] => .nil
  | (k, v) :: t =>
    .cons (.node 0 "" (.cons (encStringType k) (.cons (encIntermediateForm v) .nil)))
      (encIFObj t)

end

def encSimpleTypeList (l : List SimpleType) : ETree :=
  .node 0 "" (EList.ofList (l.map encSimpleType))

def encCompactKey : CompactKey → ETree
  | .StringType s types =>
    .node 0 "" (.cons (encStringType s) (.cons (encSimpleTypeList types) .nil))
  | .Transient types => .node 1 "" (.cons (encSimpleTypeList types) .nil)

mutual

def encCompactValue : CompactValue → ETree
  | .KeyType k => .node 0 "" (.cons (encCompactKey k) .nil)
  | .Array items => .node 1 "" (encCVList items)
  | .Object o => .node 2 "" (encCVObj o)

def encCVList : List CompactValue → EList
  | [] => .nil
  | x :: t => .cons (encCompactValue x) (encCVList t)

def encCVObj : List (CompactKey × CompactValue) → EList
  | [] => .nil
  | (k, v) :: t =>
    .cons (.node 0 "" (.cons (encCompactKey k) (.cons (encCompactValue v) .nil))) (encCVObj t)

end

/-! ### Comparators for the pair types stored in the `BTreeSet`s -/

/-- The derived order on `(StringType, SimpleValue)` pairs. -/
def cmpSVPair (p q : StringType × SimpleValue) : Ordering :=
  cmpE (.node 0 "" (.cons (encStringType p.1) (.cons (encSimpleValue p.2) .nil)))
    (.node 0 "" (.cons (encStringType q.1) (.cons (encSimpleValue q.2) .nil)))

/-- The derived order on `(StringType, TypedForm)` pairs. -/
def cmpTFPair (p q : StringType × TypedForm) : Ordering :=
  cmpE (.node 0 "" (.cons (encStringType p.1) (.cons (encTypedForm p.2) .nil)))
    (.node 0 "" (.cons (encStringType q.1) (.cons (encTypedForm q.2) .nil)))

/-- The derived order on `(StringType, IntermediateForm)` pairs. -/
def cmpIFPair (p q : StringType × IntermediateForm) : Ordering :=
  cmpE (.node 0 "" (.cons (encStringType p.1) (.cons (encIntermediateForm p.2) .nil)))
    (.node 0 "" (.cons (encStringType q.1) (.cons (encIntermediateForm q.2) .nil)))

/-- The derived order on `(CompactKey, CompactValue)` pairs. -/
def cmpCVPair (p q : CompactKey × CompactValue) : Ordering :=
  cmpE (.node 0 "" (.cons (encCompactKey p.1) (.cons (encCompactValue p.2) .nil)))
    (.node 0 "" (.cons (encCompactKey q.1) (.cons (encCompactValue q.2) .nil)))

/-! ### Injectivity of the encodings (hence lawfulness of the comparators) -/

theorem eStr_inj : Function.Injective eStr := by
  intro a b h
  injection h

theorem EList.ofList_inj : ∀ {l1 l2 : List ETree}, EList.ofList l1 = EList.ofList l2 → l1 = l2
  | [], [], _ => rfl
  | [], _ :: _, h => by simp [EList.ofList] at h
  | _ :: _, [], h => by simp [EList.ofList] at h
  | a :: t1, b :: t2, h => by
    injection h with h1 h2
    rw [h1, EList.ofList_inj h2]

theorem encStrPair_inj : Function.Injective encStrPair := by
  intro a b h
  injection h with h1 h2 h3
  injection h3 with h4 h5
  injection h5 with h6 h7
  exact Prod.ext (eStr_inj h4) (eStr_inj h6)

theorem encStrPairList_inj : Function.Injective encStrPairList := by
  intro a b h
  injection h with h1 h2 h3
  exact (List.map_injective_iff.2 encStrPair_inj) (EList.ofList_inj h3)

theorem encLabelledNode_inj : Function.Injective encLabelledNode := by
  intro a b h
  injection h with h1 h2 h3
  injection h3 with h4 h5
  injection h5 with h6 h7
  cases a
  cases b
  simp only [LabelledNode.mk.injEq]
  exact ⟨encStrPairList_inj h4, eStr_inj h6⟩

theorem encStringType_inj : ∀ a b : StringType, encStringType a = encStringType b → a = b
  | .String s, .String t => by
    intro h
    injection h with h1 h2 h3
    rw [h2]
  | .String s, .LabelledNode n => by
    intro h
    injection h with h1 h2 h3
    exact absurd h1 (by decide)
  | .LabelledNode n, .String t => by
    intro h
    injection h with h1 h2 h3
    exact absurd h1 (by decide)
  | .LabelledNode n, .LabelledNode m => by
    intro h
    injection h with h1 h2 h3
    injection h3 with h4 h5
    rw [encLabelledNode_inj h4]

theorem encSimpleType_inj : ∀ a b : SimpleType, encSimpleType a = encSimpleType b → a = b := by
  intro a b h
  injection h with h1 h2 h3
  injection h3 with h4 h5
  cases a
  cases b
  simp only [SimpleType.mk.injEq]
  exact encStringType_inj _ _ h4

theorem encSimpleTypeList_inj :
    ∀ {a b : List SimpleType}, encSimpleTypeList a = encSimpleTypeList b → a = b := by
  intro a b h
  injection h with h1 h2 h3
  exact (List.map_injective_iff.2 (fun x y hxy => encSimpleType_inj x y hxy)) (EList.ofList_inj h3)

mutual

theorem encIntermediateType_inj :
    ∀ a b : IntermediateType, encIntermediateType a = encIntermediateType b → a = b
  | .Simple s, .Simple t => by
    intro h
    injection h with h1 h2 h3
    injection h3 with h4 h5
    rw [encStringType_inj _ _ h4]
  | .Simple _, .WithArgs _ _ => by
    intro h
    injection h with h1 h2 h3
    exact absurd h1 (by decide)
  | .WithArgs _ _, .Simple _ => by
    intro h
    injection h with h1 h2 h3
    exact absurd h1 (by decide)
  | .WithArgs t1 a1, .WithArgs t2 a2 => by
    intro h
    injection h with h1 h2 h3
    injection h3 with h4 h5
    injection h5 with h6 h7
    injection h6 with h8 h9 h10
    rw [encStringType_inj _ _ h4, encIFObj_inj a1 a2 h10]

theorem encIntermediateForm_inj :
    ∀ a b : IntermediateForm, encIntermediateForm a = encIntermediateForm b → a = b
  | .StringType s, .StringType t => by
    intro h
    injection h with h1 h2 h3
    injection h3 with h4 h5
    rw [encStringType_inj _ _ h4]
  | .StringType _, .LabelledNode _ _ => by
    intro h
    injection h with h1 _ _
    exact absurd h1 (by decide)
  | .StringType _, .Array _ => by
    intro h
    injection h with h1 _ _
    exact absurd h1 (by decide)
  | .StringType _, .TypedArray _ _ => by
    intro h
    injection h with h1 _ _
    exact absurd h1 (by decide)
  | .StringType _, .Object _ => by
    intro h
    injection h with h1 _ _
    exact absurd h1 (by decide)
  | .StringType _, .TypedObject _ _ => by
    intro h
    injection h with h1 _ _
    exact absurd h1 (by decide)
  | .LabelledNode _ _, .StringType _ => by
    intro h
    injection h with h1 _ _
    exact absurd h1 (by decide)
  | .LabelledNode s1 t1, .LabelledNode s2 t2 => by
    intro h
    injection h with h1 h2 h3
    injection h3 with h4 h5
    injection h5 with h6 h7
    rw [encStringType_inj _ _ h4, encSimpleType_inj _ _ h6]
  | .LabelledNode _ _, .Array _ => by
    intro h
    injection h with h1 _ _
    exact absurd h1 (by decide)
  | .LabelledNode _ _, .TypedArray _ _ => by
    intro h
    injection h with h1 _ _
    exact absurd h1 (by decide)
  | .LabelledNode _ _, .Object _ => by
    intro h
    injection h with h1 _ _
    exact absurd h1 (by decide)
  | .LabelledNode _ _, .TypedObject _ _ => by
    intro h
    injection h with h1 _ _
    exact absurd h1 (by decide)
  | .Array _, .StringType _ => by
    intro h
    injection h with h1 _ _
    exact absurd h1 (by decide)
  | .Array _, .LabelledNode _ _ => by
    intro h
    injection h with h1 _ _
    exact absurd h1 (by decide)
  | .Array v1, .Array v2 => by
    intro h
    injection h with h1 h2 h3
    rw [encIFList_inj v1 v2 h3]
  | .Array _, .TypedArray _ _ => by
    intro h
    injection h with h1 _ _
    exact absurd h1 (by decide)
  | .Array _, .Object _ => by
    intro h
    injection h with h1 _ _
    exact absurd h1 (by decide)
  | .Array _, .TypedObject _ _ => by
    intro h
    injection h with h1 _ _
    exact absurd h1 (by decide)
  | .TypedArray _ _, .StringType _ => by
    intro h
    injection h with h1 _ _
    exact absurd h1 (by decide)
  | .TypedArray _ _, .LabelledNode _ _ => by
    intro h
    injection h with h1 _ _
    exact absurd h1 (by decide)
  | .TypedArray _ _, .Array _ => by
    intro h
    injection h with h1 _ _
    exact absurd h1 (by decide)
  | .TypedArray t1 v1, .TypedArray t2 v2 => by
    intro h
    injection h with h1 h2 h3
    injection h3 with h4 h5
    injection h5 with h6 h7
    injection h6 with h8 h9 h10
    rw [encIntermediateType_inj t1 t2 h4, encIFList_inj v1 v2 h10]
  | .TypedArray _ _, .Object _ => by
    intro h
    injection h with h1 _ _
    exact absurd h1 (by decide)
  | .TypedArray _ _, .TypedObject _ _ => by
    intro h
    injection h with h1 _ _
    exact absurd h1 (by decide)
  | .Object _, .StringType _ => by
    intro h
    injection h with h1 _ _
    exact absurd h1 (by decide)
  | .Object _, .LabelledNode _ _ => by
    intro h
    injection h with h1 _ _
    exact absurd h1 (by decide)
  | .Object _, .Array _ => by
    intro h
    injection h with h1 _ _
    exact absurd h1 (by decide)
  | .Object _, .TypedArray _ _ => by
    intro h
    injection h with h1 _ _
    exact absurd h1 (by decide)
  | .Object o1, .Object o2 => by
    intro h
    injection h with h1 h2 h3
    rw [encIFObj_inj o1 o2 h3]
  | .Object _, .TypedObject _ _ => by
    intro h
    injection h with h1 _ _
    exact absurd h1 (by decide)
  | .TypedObject _ _, .StringType _ => by
    intro h
    injection h with h1 _ _
    exact absurd h1 (by decide)
  | .TypedObject _ _, .LabelledNode _ _ => by
    intro h
    injection h with h1 _ _
    exact absurd h1 (by decide)
  | .TypedObject _ _, .Array _ => by
    intro h
    injection h with h1 _ _
    exact absurd h1 (by decide)
  | .TypedObject _ _, .TypedArray _ _ => by
    intro h
    injection h with h1 _ _
    exact absurd h1 (by decide)
  | .TypedObject _ _, .Object _ => by
    intro h
    injection h with h1 _ _
    exact absurd h1 (by decide)
  | .TypedObject t1 o1, .TypedObject t2 o2 => by
    intro h
    injection h with h1 h2 h3
    injection h3 with h4 h5
    injection h5 with h6 h7
    injection h6 with h8 h9 h10
    rw [encIntermediateType_inj t1 t2 h4, encIFObj_inj o1 o2 h10]

theorem encIFList_inj :
    ∀ a b : List IntermediateForm, encIFList a = encIFList b → a = b
  | [], [], _ => rfl
  | [], _ :: _, h => by simp [encIFList] at h
  | _ :: _, [], h => by simp [encIFList] at h
  | a :: t1, b :: t2, h => by
    injection h with h1 h2
    rw [encIntermediateForm_inj a b h1, encIFList_inj t1 t2 h2]

theorem encIFObj_inj :
    ∀ a b : List (StringType × IntermediateForm), encIFObj a = encIFObj b → a = b
  | [], [], _ => rfl
  | [], _ :: _, h => by simp [encIFObj] at h
  | _ :: _, [], h => by simp [encIFObj] at h
  | (k1, v1) :: t1, (k2, v2) :: t2, h => by
    injection h with h1 h2
    injection h1 with h3 h4 h5
    injection h5 with h6 h7
    injection h7 with h8 h9
    rw [encStringType_inj _ _ h6]
    rw [encIntermediateForm_inj v1 v2 h8, encIFObj_inj t1 t2 h2]

end

theorem encCompactKey_inj : ∀ a b : CompactKey, encCompactKey a = encCompactKey b → a = b
  | .StringType s1 l1, .StringType s2 l2 => by
    intro h
    injection h with h1 h2 h3
    injection h3 with h4 h5
    injection h5 with h6 h7
    rw [encStringType_inj _ _ h4, encSimpleTypeList_inj h6]
  | .StringType _ _, .Transient _ => by
    intro h
    injection h with h1 _ _
    exact absurd h1 (by decide)
  | .Transient _, .StringType _ _ => by
    intro h
    injection h with h1 _ _
    exact absurd h1 (by decide)
  | .Transient l1, .Transient l2 => by
    intro h
    injection h with h1 h2 h3
    injection h3 with h4 h5
    rw [encSimpleTypeList_inj h4]

mutual

theorem encCompactValue_inj :
    ∀ a b : CompactValue, encCompactValue a = encCompactValue b → a = b
  | .KeyType k1, .KeyType k2 => by
    intro h
    injection h with h1 h2 h3
    injection h3 with h4 h5
    rw [encCompactKey_inj _ _ h4]
  | .KeyType _, .Array _ => by
    intro h
    injection h with h1 _ _
    exact absurd h1 (by decide)
  | .KeyType _, .Object _ => by
    intro h
    injection h with h1 _ _
    exact absurd h1 (by decide)
  | .Array _, .KeyType _ => by
    intro h
    injection h with h1 _ _
    exact absurd h1 (by decide)
  | .Array v1, .Array v2 => by
    intro h
    injection h with h1 h2 h3
    rw [encCVList_inj v1 v2 h3]
  | .Array _, .Object _ => by
    intro h
    injection h with h1 _ _
    exact absurd h1 (by decide)
  | .Object _, .KeyType _ => by
    intro h
    injection h with h1 _ _
    exact absurd h1 (by decide)
  | .Object _, .Array _ => by
    intro h
    injection h with h1 _ _
    exact absurd h1 (by decide)
  | .Object o1, .Object o2 => by
    intro h
    injection h with h1 h2 h3
    rw [encCVObj_inj o1 o2 h3]

theorem encCVList_inj :
    ∀ a b : List CompactValue, encCVList a = encCVList b → a = b
  | [], [], _ => rfl
  | [], _ :: _, h => by simp [encCVList] at h
  | _ :: _, [], h => by simp [encCVList] at h
  | a :: t1, b :: t2, h => by
    injection h with h1 h2
    rw [encCompactValue_inj a b h1, encCVList_inj t1 t2 h2]

theorem encCVObj_inj :
    ∀ a b : List (CompactKey × CompactValue), encCVObj a = encCVObj b → a = b
  | [], [], _ => rfl
  | [], _ :: _, h => by simp [encCVObj] at h
  | _ :: _, [], h => by simp [encCVObj] at h
  | (k1, v1) :: t1, (k2, v2) :: t2, h => by
    injection h with h1 h2
    injection h1 with h3 h4 h5
    injection h5 with h6 h7
    injection h7 with h8 h9
    rw [encCompactKey_inj _ _ h6]
    rw [encCompactValue_inj v1 v2 h8, encCVObj_inj t1 t2 h2]

end

theorem cmpIFPair_lawful : IsLawfulCmp cmpIFPair := by
  have := lawful_of_inj
    (fun p : StringType × IntermediateForm =>
      ETree.node 0 "" (.cons (encStringType p.1) (.cons (encIntermediateForm p.2) .nil)))
    (by
      intro a b h
      injection h with h1 h2 h3
      injection h3 with h4 h5
      injection h5 with h6 h7
      exact Prod.ext (encStringType_inj _ _ h4) (encIntermediateForm_inj _ _ h6))
  exact this

theorem cmpCVPair_lawful : IsLawfulCmp cmpCVPair := by
  have := lawful_of_inj
    (fun p : CompactKey × CompactValue =>
      ETree.node 0 "" (.cons (encCompactKey p.1) (.cons (encCompactValue p.2) .nil)))
    (by
      intro a b h
      injection h with h1 h2 h3
      injection h3 with h4 h5
      injection h5 with h6 h7
      exact Prod.ext (encCompactKey_inj _ _ h4) (encCompactValue_inj _ _ h6))
  exact this

/-! ### Size measures for the intermediate forms (termination measures) -/

mutual

def sizeIT : IntermediateType → Nat
  | .Simple _ => 1
  | .WithArgs _ args => 1 + sizeIFo args

def sizeIF : IntermediateForm → Nat
  | .StringType _ => 1
  | .LabelledNode _ _ => 1
  | .Array v => 1 + sizeIFl v
  | .TypedArray t v => 2 + sizeIT t + sizeIFl v
  | .Object o => 1 + sizeIFo o
  | .TypedObject t o => 2 + sizeIT t + sizeIFo o

def sizeIFl : List IntermediateForm → Nat
  | [] => 0
  | x :: t => 1 + sizeIF x + sizeIFl t

def sizeIFo : List (StringType × IntermediateForm) → Nat
  | [] => 0
  | (_, v) :: t => 1 + sizeIF v + sizeIFo t

end

/-! ## The rewriting passes of `intermediate_form.rs`

The free functions `drop_array_item_types`/`compress_reference`/… on an
object set (`obj.into_iter().map(|(k,v)| (k, v.pass())).collect()`) are
modelled by an elementwise helper followed by `setOf'` for the
`collect()`.  `todo!()` and `unwrap()` panics are `none`. -/

mutual

def IntermediateType.drop_array_item_types : IntermediateType → IntermediateType
  | .Simple s => .Simple s
  | .WithArgs typ args => .WithArgs typ (setOf' cmpIFPair (dropObjRaw args))
termination_by t => sizeIT t
decreasing_by all_goals (simp only [sizeIT, sizeIF, sizeIFl, sizeIFo]; omega)

def IntermediateForm.drop_array_item_types : IntermediateForm → IntermediateForm
  | .TypedArray typ v => .TypedArray typ (dropItems v)
  | .Array arr => .Array (dropList arr)
  | .Object obj => .Object (setOf' cmpIFPair (dropObjRaw obj))
  | .TypedObject t o =>
    .TypedObject t.drop_array_item_types (setOf' cmpIFPair (dropObjRaw o))
  | .StringType s => .StringType s
  | .LabelledNode s t => .LabelledNode s t
termination_by x => sizeIF x
decreasing_by all_goals (simp only [sizeIT, sizeIF, sizeIFl, sizeIFo]; omega)

/-- The per-item rewrite inside `TypedArray`: a `TypedObject` item loses
its type. -/
def dropItems : List IntermediateForm → List IntermediateForm
  | [] => []
  | .TypedObject _typ obj :: rest =>
    (IntermediateForm.Object obj).drop_array_item_types :: dropItems rest
  | x :: rest => x.drop_array_item_types :: dropItems rest
termination_by l => sizeIFl l
decreasing_by all_goals (simp only [sizeIT, sizeIF, sizeIFl, sizeIFo]; omega)

def dropList : List IntermediateForm → List IntermediateForm
  | [] => []
  | x :: rest => x.drop_array_item_types :: dropList rest
termination_by l => sizeIFl l
decreasing_by all_goals (simp only [sizeIT, sizeIF, sizeIFl, sizeIFo]; omega)

def dropObjRaw :
    List (StringType × IntermediateForm) → List (StringType × IntermediateForm)
  | [] => []
  | (k, v) :: rest => (k, v.drop_array_item_types) :: dropObjRaw rest
termination_by l => sizeIFo l
decreasing_by all_goals (simp only [sizeIT, sizeIF, sizeIFl, sizeIFo]; omega)

end

mutual

def IntermediateType.compress_reference : IntermediateType → Option IntermediateType
  | .Simple s => some (.Simple s)
  | .WithArgs typ args =>
    if typ.is_labelled "Z9" then
      match args.find? (fun p => p.1.is_labelled "Z9K1") with
      | some (_, .StringType s) => some (.Simple s)
      | some (_, _) => none
      | none =>
        match args.find? (fun p => p.1.is_labelled "Z1K1") with
        | some (_, .Object obj) =>
          (match obj.find? (fun p => p.1.is_labelled "Z9K1") with
           | some (_, .StringType s) =>
             some (.WithArgs s
               (setOf' cmpIFPair (args.filter (fun p => !(p.1.is_labelled "Z1K1")))))
           | some (_, _) => none
           | none => none)
        | some (_, _) => none
        | none => none
    else
      (crObjRaw args).map (fun o => .WithArgs typ (setOf' cmpIFPair o))

def IntermediateForm.compress_reference : IntermediateForm → Option IntermediateForm
  | .TypedObject (.Simple typ) obj =>
    if typ.is_labelled "Z9" then
      match obj.find? (fun p => p.1.is_labelled "Z9K1") with
      | some (_, .StringType s) => some (.StringType s)
      | some (_, _) => none
      | none => none
    else
      (crObjRaw obj).map (fun o => .TypedObject (.Simple typ) (setOf' cmpIFPair o))
  | .TypedObject (.WithArgs t args) obj => do
    let typ ← IntermediateType.compress_reference (.WithArgs t args)
    let o ← crObjRaw obj
    some (.TypedObject typ (setOf' cmpIFPair o))
  | .StringType s => some (.StringType s)
  | .LabelledNode s t => some (.LabelledNode s t)
  | .Array v => (crList v).map .Array
  | .TypedArray typ v => do
    let typ' ← typ.compress_reference
    let items ← crList v
    some (.TypedArray typ' items)
  | .Object obj => (crObjRaw obj).map (fun o => .Object (setOf' cmpIFPair o))

def crList : List IntermediateForm → Option (List IntermediateForm)
  | [] => some []
  | x :: t => do
    let y ← x.compress_reference
    let ys ← crList t
    some (y :: ys)

def crObjRaw :
    List (StringType × IntermediateForm) → Option (List (StringType × IntermediateForm))
  | [] => some []
  | (k, v) :: t => do
    let w ← v.compress_reference
    let ws ← crObjRaw t
    some ((k, w) :: ws)

end

mutual

def IntermediateType.compress_string : IntermediateType → Option IntermediateType
  | .Simple s => some (.Simple s)
  | .WithArgs typ args =>
    if typ.is_labelled "Z6" then
      match args.find? (fun p => p.1.is_labelled "Z6K1") with
      | some (_, .StringType s) => some (.Simple s)
      | some (_, _) => none
      | none => none
    else
      -- source: recurses via `compress_reference(args)` here (the
      -- copy-paste noted in the spec's open questions)
      (crObjRaw args).map (fun o => .WithArgs typ (setOf' cmpIFPair o))

def IntermediateForm.compress_string : IntermediateForm → Option IntermediateForm
  | .TypedObject (.Simple typ) obj =>
    if typ.is_labelled "Z6" then
      match obj.find? (fun p => p.1.is_labelled "Z6K1") with
      | some (_, .StringType s) => some (.StringType (.String s.to_raw))
      | some (_, _) => none
      | none => none
    else
      (csObjRaw obj).map (fun o => .TypedObject (.Simple typ) (setOf' cmpIFPair o))
  | .TypedObject (.WithArgs t args) obj => do
    let typ ← IntermediateType.compress_string (.WithArgs t args)
    let o ← csObjRaw obj
    some (.TypedObject typ (setOf' cmpIFPair o))
  | .StringType s => some (.StringType s)
  | .LabelledNode s t => some (.LabelledNode s t)
  | .Array v => (csList v).map .Array
  | .TypedArray typ v => do
    let typ' ← typ.compress_string
    let items ← csList v
    some (.TypedArray typ' items)
  | .Object obj => (csObjRaw obj).map (fun o => .Object (setOf' cmpIFPair o))

def csList : List IntermediateForm → Option (List IntermediateForm)
  | [] => some []
  | x :: t => do
    let y ← x.compress_string
    let ys ← csList t
    some (y :: ys)

def csObjRaw :
    List (StringType × IntermediateForm) → Option (List (StringType × IntermediateForm))
  | [] => some []
  | (k, v) :: t => do
    let w ← v.compress_string
    let ws ← csObjRaw t
    some ((k, w) :: ws)

end

mutual

def IntermediateType.compress_monolingual : IntermediateType → Option IntermediateType
  | .Simple s => some (.Simple s)
  | .WithArgs typ args =>
    (cmObjRaw args).map (fun o => .WithArgs typ (setOf' cmpIFPair o))

def IntermediateForm.compress_monolingual : IntermediateForm → Option IntermediateForm
  | .TypedObject (.Simple typ) obj =>
    if typ.is_labelled "Z11" then
      match obj.find? (fun p => p.1.is_labelled "Z11K2") with
      | some (_, .StringType s) =>
        (match obj.find? (fun p => p.1.is_labelled "Z11K1") with
         | some (_, .StringType s') => some (.LabelledNode s ⟨s'⟩)
         | some (_, _) => none
         | none => none)
      | some (_, _) => none
      | none => none
    else
      (cmObjRaw obj).map (fun o => .TypedObject (.Simple typ) (setOf' cmpIFPair o))
  | .TypedObject (.WithArgs t args) obj => do
    let typ ← IntermediateType.compress_monolingual (.WithArgs t args)
    let o ← cmObjRaw obj
    some (.TypedObject typ (setOf' cmpIFPair o))
  | .StringType s => some (.StringType s)
  | .LabelledNode s t => some (.LabelledNode s t)
  | .Array v => (cmList v).map .Array
  | .TypedArray typ v => do
    let typ' ← typ.compress_monolingual
    let items ← cmList v
    some (.TypedArray typ' items)
  | .Object obj => (cmObjRaw obj).map (fun o => .Object (setOf' cmpIFPair o))

def cmList : List IntermediateForm → Option (List IntermediateForm)
  | [] => some []
  | x :: t => do
    let y ← x.compress_monolingual
    let ys ← cmList t
    some (y :: ys)

def cmObjRaw :
    List (StringType × IntermediateForm) → Option (List (StringType × IntermediateForm))
  | [] => some []
  | (k, v) :: t => do
    let w ← v.compress_monolingual
    let ws ← cmObjRaw t
    some ((k, w) :: ws)

end

/-! ### Panic-freedom domains of the compress passes (for C3)

Each `ok…` predicate states, structurally, that the corresponding
compress pass reaches no `unwrap`/`todo!` branch: every `Z9`- (resp.
`Z6`-, `Z11`-) typed object encountered carries the key the pass
unwraps, with a `StringType` value.  `okStrT`'s else branch follows the
source, which recurses into type arguments via `compress_reference`
there. -/

mutual

def okRefT : IntermediateType → Bool
  | .Simple _ => true
  | .WithArgs typ args =>
    if typ.is_labelled "Z9" then
      match args.find? (fun p => p.1.is_labelled "Z9K1") with
      | some (_, .StringType _) => true
      | some (_, _) => false
      | none =>
        match args.find? (fun p => p.1.is_labelled "Z1K1") with
        | some (_, .Object obj) =>
          (match obj.find? (fun p => p.1.is_labelled "Z9K1") with
           | some (_, .StringType _) => true
           | _ => false)
        | _ => false
    else okRefO args

termination_by t => sizeIT t
decreasing_by all_goals (simp only [sizeIT, sizeIF, sizeIFl, sizeIFo]; omega)
def okRefF : IntermediateForm → Bool
  | .TypedObject (.Simple typ) obj =>
    if typ.is_labelled "Z9" then
      match obj.find? (fun p => p.1.is_labelled "Z9K1") with
      | some (_, .StringType _) => true
      | _ => false
    else okRefO obj
  | .TypedObject (.WithArgs t args) obj =>
    okRefT (.WithArgs t args) && okRefO obj
  | .StringType _ => true
  | .LabelledNode _ _ => true
  | .Array v => okRefL v
  | .TypedArray typ v => okRefT typ && okRefL v
  | .Object obj => okRefO obj

termination_by x => sizeIF x
decreasing_by all_goals (simp only [sizeIT, sizeIF, sizeIFl, sizeIFo]; omega)
def okRefL : List IntermediateForm → Bool
  | [] => true
  | x :: t => okRefF x && okRefL t

termination_by l => sizeIFl l
decreasing_by all_goals (simp only [sizeIT, sizeIF, sizeIFl, sizeIFo]; omega)
def okRefO : List (StringType × IntermediateForm) → Bool
  | [] => true
  | (_, v) :: t => okRefF v && okRefO t

termination_by l => sizeIFo l
decreasing_by all_goals (simp only [sizeIT, sizeIF, sizeIFl, sizeIFo]; omega)
end

mutual

def okStrT : IntermediateType → Bool
  | .Simple _ => true
  | .WithArgs typ args =>
    if typ.is_labelled "Z6" then
      match args.find? (fun p => p.1.is_labelled "Z6K1") with
      | some (_, .StringType _) => true
      | _ => false
    else okRefO args

termination_by t => sizeIT t
decreasing_by all_goals (simp only [sizeIT, sizeIF, sizeIFl, sizeIFo]; omega)
def okStrF : IntermediateForm → Bool
  | .TypedObject (.Simple typ) obj =>
    if typ.is_labelled "Z6" then
      match obj.find? (fun p => p.1.is_labelled "Z6K1") with
      | some (_, .StringType _) => true
      | _ => false
    else okStrO obj
  | .TypedObject (.WithArgs t args) obj =>
    okStrT (.WithArgs t args) && okStrO obj
  | .StringType _ => true
  | .LabelledNode _ _ => true
  | .Array v => okStrL v
  | .TypedArray typ v => okStrT typ && okStrL v
  | .Object obj => okStrO obj

termination_by x => sizeIF x
decreasing_by all_goals (simp only [sizeIT, sizeIF, sizeIFl, sizeIFo]; omega)
def okStrL : List IntermediateForm → Bool
  | [] => true
  | x :: t => okStrF x && okStrL t

termination_by l => sizeIFl l
decreasing_by all_goals (simp only [sizeIT, sizeIF, sizeIFl, sizeIFo]; omega)
def okStrO : List (StringType × IntermediateForm) → Bool
  | [] => true
  | (_, v) :: t => okStrF v && okStrO t

termination_by l => sizeIFo l
decreasing_by all_goals (simp only [sizeIT, sizeIF, sizeIFl, sizeIFo]; omega)
end

mutual

def okMonoT : IntermediateType → Bool
  | .Simple _ => true
  | .WithArgs _ args => okMonoO args

termination_by t => sizeIT t
decreasing_by all_goals (simp only [sizeIT, sizeIF, sizeIFl, sizeIFo]; omega)
def okMonoF : IntermediateForm → Bool
  | .TypedObject (.Simple typ) obj =>
    if typ.is_labelled "Z11" then
      match obj.find? (fun p => p.1.is_labelled "Z11K2") with
      | some (_, .StringType _) =>
        (match obj.find? (fun p => p.1.is_labelled "Z11K1") with
         | some (_, .StringType _) => true
         | _ => false)
      | _ => false
    else okMonoO obj
  | .TypedObject (.WithArgs t args) obj =>
    okMonoT (.WithArgs t args) && okMonoO obj
  | .StringType _ => true
  | .LabelledNode _ _ => true
  | .Array v => okMonoL v
  | .TypedArray typ v => okMonoT typ && okMonoL v
  | .Object obj => okMonoO obj

termination_by x => sizeIF x
decreasing_by all_goals (simp only [sizeIT, sizeIF, sizeIFl, sizeIFo]; omega)
def okMonoL : List IntermediateForm → Bool
  | [] => true
  | x :: t => okMonoF x && okMonoL t

termination_by l => sizeIFl l
decreasing_by all_goals (simp only [sizeIT, sizeIF, sizeIFl, sizeIFo]; omega)
def okMonoO : List (StringType × IntermediateForm) → Bool
  | [] => true
  | (_, v) :: t => okMonoF v && okMonoO t

termination_by l => sizeIFo l
decreasing_by all_goals (simp only [sizeIT, sizeIF, sizeIFl, sizeIFo]; omega)
end

/-! ### Size measures for `SimpleValue` -/

mutual

def sizeSV : SimpleValue → Nat
  | .StringType _ => 1
  | .Array v => 1 + sizeSVl v
  | .Object o => 1 + sizeSVo o

def sizeSVl : List SimpleValue → Nat
  | [] => 0
  | x :: t => 1 + sizeSV x + sizeSVl t

def sizeSVo : List (StringType × SimpleValue) → Nat
  | [] => 0
  | (_, v) :: t => 1 + sizeSV v + sizeSVo t

end

theorem sizeSV_le_of_mem {k : StringType} {v : SimpleValue} :
    ∀ {o : List (StringType × SimpleValue)}, (k, v) ∈ o → sizeSV v ≤ sizeSVo o := by
  intro o
  induction o with
  | nil => intro h; exact absurd h (List.not_mem_nil _)
  | cons p t ih =>
    intro h
    rcases List.mem_cons.1 h with h | h
    · cases p
      injection h with h1 h2
      subst h2
      simp only [sizeSVo]
      omega
    · have := ih h
      cases p
      simp only [sizeSVo]
      omega

theorem sizeSVo_filter_le (f : StringType × SimpleValue → Bool) :
    ∀ (o : List (StringType × SimpleValue)), sizeSVo (o.filter f) ≤ sizeSVo o := by
  intro o
  induction o with
  | nil => simp [List.filter]
  | cons p t ih =>
    cases p with
    | mk k v =>
      by_cases hf : f (k, v) = true
      · rw [List.filter_cons_of_pos hf]
        simp only [sizeSVo]
        omega
      · rw [List.filter_cons_of_neg (by simpa using hf)]
        simp only [sizeSVo]
        omega

/-! ## Conversions of the module tower

`TryFrom<SimpleValue> for Type` returns `Result<Type, ()>`; both its
`Err` and the panics inside the conversions (`expect`, `unwrap`,
element conversions) abort the conversion, so `Option` models them
uniformly. -/

mutual

def ZType.try_from : SimpleValue → Option ZType
  | .StringType k => some (.Simple k)
  | .Array _ => none
  | .Object o =>
    match h : o.find? (fun p => p.1.is_labelled "Z1K1") with
    | none => none
    | some (z1k1, v) =>
      match ZType.try_from v with
      | none => none
      | some (.Simple s) =>
        (tfObjConv (o.filter (fun p => !(p.1.is_labelled "Z1K1")))).map
          (fun fields => .WithArgs s (setOf' cmpTFPair fields))
      | some (.WithArgs typ args) =>
        (tfObjConv (o.filter (fun p => !(p.1.is_labelled "Z1K1")))).map
          (fun fields => .WithArgs typ (setOf' cmpTFPair (fields ++
            [(z1k1, TypedForm.Object
              (setOf' cmpTFPair (args.filter (fun p => !(p.1.is_labelled "Z1K1")))))])))
termination_by v => sizeSV v
decreasing_by
  all_goals simp only [sizeSV, sizeSVl, sizeSVo]
  all_goals
    first
    | omega
    | (have hm := List.mem_of_find?_eq_some h
       have := sizeSV_le_of_mem hm
       omega)
    | (have hfl := sizeSVo_filter_le (fun p => !(p.1.is_labelled "Z1K1")) o
       omega)

/-- `From<SimpleValue> for TypedForm` (typed_form.rs).  `v[0]` of an
empty array panics; `Type::try_from(v[0]).expect(…)` and
`typ.try_into().unwrap()` panic on `Err`. -/
def TypedForm.fromSimple : SimpleValue → Option TypedForm
  | .StringType s => some (.StringType s)
  | .Array v =>
    match v with
    | [] => none
    | v0 :: rest =>
      match ZType.try_from v0 with
      | none => none
      | some typ => (tfListConv rest).map (fun items => .Array typ items)
  | .Object o =>
    match h : o.find? (fun p => p.1.is_labelled "Z1K1") with
    | some (_z1k1, typ) =>
      match ZType.try_from typ with
      | none => none
      | some t =>
        (tfObjConv (o.filter (fun p => !(p.1.is_labelled "Z1K1")))).map
          (fun fields => .TypedObject t (setOf' cmpTFPair fields))
    | none => (tfObjConv o).map (fun fields => .Object (setOf' cmpTFPair fields))
termination_by v => sizeSV v
decreasing_by
  all_goals simp only [sizeSV, sizeSVl, sizeSVo]
  all_goals
    first
    | omega
    | (have hm := List.mem_of_find?_eq_some h
       have := sizeSV_le_of_mem hm
       omega)
    | (have hfl := sizeSVo_filter_le (fun p => !(p.1.is_labelled "Z1K1")) o
       omega)

def tfListConv : List SimpleValue → Option (List TypedForm)
  | [] => some []
  | x :: t => do
    let y ← TypedForm.fromSimple x
    let ys ← tfListConv t
    some (y :: ys)
termination_by l => sizeSVl l
decreasing_by all_goals (simp only [sizeSV, sizeSVl, sizeSVo]; omega)

def tfObjConv : List (StringType × SimpleValue) → Option (List (StringType × TypedForm))
  | [] => some []
  | (k, v) :: t => do
    let w ← TypedForm.fromSimple v
    let ws ← tfObjConv t
    some ((k, w) :: ws)
termination_by l => sizeSVo l
decreasing_by all_goals (simp only [sizeSV, sizeSVl, sizeSVo]; omega)

end

/-! `From<TypedForm> for IntermediateForm` (intermediate_form.rs)
matches on `TypedForm::Array(arr)` and `TypedForm::TypedArray(typ, arr)`
— variants that do not exist on the `TypedForm` declared in
`typed_form.rs` (whose only array variant is `Array(Type, Vec)`); the
module files do not compile together as given.  Modelled from the spec:
§4.5 calls this conversion "a one-to-one re-tagging" in which the type
is "threaded into a parallel `IntermediateType`" and "objects and
arrays map through directly", so the typed `Array(typ, items)` is sent
to `IntermediateForm::TypedArray`. -/

mutual

def IntermediateType.fromZType : ZType → IntermediateType
  | .Simple s => .Simple s
  | .WithArgs typ args => .WithArgs typ (setOf' cmpIFPair (ifObjFromTF args))

def IntermediateForm.fromTypedForm : TypedForm → IntermediateForm
  | .StringType s => .StringType s
  | .Array typ arr =>
    .TypedArray (IntermediateType.fromZType typ) (ifListFromTF arr)
  | .Object obj => .Object (setOf' cmpIFPair (ifObjFromTF obj))
  | .TypedObject typ obj =>
    .TypedObject (IntermediateType.fromZType typ) (setOf' cmpIFPair (ifObjFromTF obj))

def ifListFromTF : List TypedForm → List IntermediateForm
  | [] => []
  | x :: t => IntermediateForm.fromTypedForm x :: ifListFromTF t

def ifObjFromTF : List (StringType × TypedForm) → List (StringType × IntermediateForm)
  | [] => []
  | (k, v) :: t => (k, IntermediateForm.fromTypedForm v) :: ifObjFromTF t

end

/-! ### `From<IntermediateForm> for CompactValue` (compact_value.rs) -/

mutual

/-- The helper `rebuild_obj_with_type_args`: converts the object and the
type arguments, then chains one synthetic entry under the literal key
`"!Z1K1"`.  The `unreachable!()` arm of the source cannot fire because
the conversion of an `Object` is an `Object` by definition; it is the
final catch-all here. -/
def rebuild_obj_with_type_args
    (obj type_args : List (StringType × IntermediateForm)) : CompactValue :=
  match CompactValue.fromIntermediate (.Object obj),
      CompactValue.fromIntermediate (.Object type_args) with
  | .Object co, .Object ca =>
    .Object (setOf' cmpCVPair
      (co ++ [(CompactKey.StringType (.String "!Z1K1") [], CompactValue.Object ca)]))
  | _, _ => .Object []
termination_by 2 + sizeIFo obj + sizeIFo type_args
decreasing_by all_goals (simp only [sizeIT, sizeIF, sizeIFl, sizeIFo]; omega)

def CompactValue.fromIntermediate : IntermediateForm → CompactValue
  | .StringType s => .KeyType (.StringType s [])
  | .LabelledNode s t => .KeyType (.StringType s [t])
  | .Array v => .Array (cvListConv v)
  | .TypedArray (.Simple _) v => .Array (cvListConv v)
  | .TypedArray (.WithArgs _typ type_args) v =>
    .Array (CompactValue.fromIntermediate (.Object type_args) :: cvListConv v)
  | .Object o => .Object (setOf' cmpCVPair (cvObjFields o))
  | .TypedObject (.Simple typ) obj =>
    .Object [(.Transient [⟨typ⟩], CompactValue.fromIntermediate (.Object obj))]
  | .TypedObject (.WithArgs typ type_args) obj =>
    .Object [(.Transient [⟨typ⟩], rebuild_obj_with_type_args obj type_args)]
termination_by x => sizeIF x
decreasing_by all_goals (simp only [sizeIT, sizeIF, sizeIFl, sizeIFo]; omega)

def cvListConv : List IntermediateForm → List CompactValue
  | [] => []
  | x :: t => CompactValue.fromIntermediate x :: cvListConv t
termination_by l => sizeIFl l
decreasing_by all_goals (simp only [sizeIT, sizeIF, sizeIFl, sizeIFo]; omega)

/-- The field-by-field rewrite of the `Object` case: the type of a typed
child is pulled outward into the key. -/
def cvObjFields :
    List (StringType × IntermediateForm) → List (CompactKey × CompactValue)
  | [] => []
  | (k, .TypedObject (.Simple typ) obj) :: rest =>
    (CompactKey.StringType k [⟨typ⟩], CompactValue.fromIntermediate (.Object obj)) ::
      cvObjFields rest
  | (k, .TypedObject (.WithArgs typ type_args) obj) :: rest =>
    (CompactKey.StringType k [⟨typ⟩], rebuild_obj_with_type_args obj type_args) ::
      cvObjFields rest
  | (k, .TypedArray (.Simple typ) items) :: rest =>
    (CompactKey.StringType k [⟨typ⟩], CompactValue.Array (cvListConv items)) ::
      cvObjFields rest
  | (k, .TypedArray (.WithArgs typ type_args) items) :: rest =>
    (CompactKey.StringType k [⟨typ⟩], CompactValue.Array
      (CompactValue.fromIntermediate (.Object type_args) :: cvListConv items)) ::
      cvObjFields rest
  | (k, v) :: rest =>
    (CompactKey.StringType k [], CompactValue.fromIntermediate v) :: cvObjFields rest
termination_by l => sizeIFo l
decreasing_by all_goals (simp only [sizeIT, sizeIF, sizeIFl, sizeIFo]; omega)

end

/-! ## `compress_simple_classes` (compact_value.rs)

The source recursion re-compresses an already-compressed object in its
`else` branch (`CompactValue::Object(inner_obj).compress_simple_classes()`
where `inner_obj` came out of `v.compress_simple_classes()`), so the
recursion is not structural.  It is modelled with explicit fuel
(`none` = fuel exhausted); `sizeC x + 1` fuel is proven sufficient
below, and `compress_simple_classes` runs with that fuel. -/

mutual

def sizeC : CompactValue → Nat
  | .KeyType _ => 1
  | .Array v => 1 + sizeCl v
  | .Object o => 1 + sizeCo o

def sizeCl : List CompactValue → Nat
  | [] => 0
  | x :: t => 1 + sizeC x + sizeCl t

def sizeCo : List (CompactKey × CompactValue) → Nat
  | [] => 0
  | (_, v) :: t => 1 + sizeC v + sizeCo t

end

mutual

def cscFuel : Nat → CompactValue → Option CompactValue
  | 0, _ => none
  | _ + 1, .KeyType k => some (.KeyType k)
  | n + 1, .Array arr => (cscArr n arr).map .Array
  | n + 1, .Object obj => do
    let step ← cscStage1 n obj
    let step2 ← cscStage2 n step
    some (.Object (setOf' cmpCVPair step2))

def cscArr : Nat → List CompactValue → Option (List CompactValue)
  | _, [] => some []
  | n, x :: t => do
    let y ← cscFuel n x
    let ys ← cscArr n t
    some (y :: ys)

/-- First `map` of the source: compress every field value. -/
def cscStage1 :
    Nat → List (CompactKey × CompactValue) → Option (List (CompactKey × CompactValue))
  | _, [] => some []
  | n, (k, v) :: t => do
    let w ← cscFuel n v
    let ws ← cscStage1 n t
    some ((k, w) :: ws)

/-- Second `map` of the source: merge single-entry object values into
the key's annotation list. -/
def cscStage2 :
    Nat → List (CompactKey × CompactValue) → Option (List (CompactKey × CompactValue))
  | _, [] => some []
  | n, (key, val) :: t => do
    let p ←
      match val with
      | .KeyType _ => some (key, val)
      | .Array _ => some (key, val)
      | .Object inner_obj =>
        if inner_obj.length == 1 then
          match inner_obj with
          | [(innerK, innerV)] =>
            let innerAnns : List SimpleType :=
              match innerK with
              | .StringType k2 t2 => ⟨k2⟩ :: t2
              | .Transient t2 => t2
            match key with
            | .StringType k0 t0 => some (CompactKey.StringType k0 (t0 ++ innerAnns), innerV)
            | .Transient t0 => some (CompactKey.Transient (t0 ++ innerAnns), innerV)
          | _ => none
        else
          (cscFuel n (.Object inner_obj)).map (fun w => (key, w))
    let ps ← cscStage2 n t
    some (p :: ps)

end

/-- `CompactValue::compress_simple_classes`, run with sufficient fuel. -/
def CompactValue.compress_simple_classes (x : CompactValue) : CompactValue :=
  (cscFuel (sizeC x + 1) x).getD x

/-! ## `choose_lang` of the module tower -/

/-- `CompactKey::choose_lang` (compact_key.rs). -/
def CompactKey.choose_lang : CompactKey → List RawStr → RawStr
  | .StringType key types, langs =>
    if types.length == 0 then key.choose_lang langs
    else
      key.choose_lang langs ++ " [" ++
        String.intercalate ", " (types.map (fun t => t.s.choose_lang langs)) ++ "]"
  | .Transient types, langs =>
    "[" ++ String.intercalate ", " (types.map (fun t => t.s.choose_lang langs)) ++ "]"

mutual

/-- `CompactValue::choose_lang` (compact_value.rs); objects are collected
into a `serde_json::Map`, i.e. a `BTreeMap<String, Value>`. -/
def CompactValue.choose_lang : CompactValue → List RawStr → JValue
  | .KeyType k, langs => .vStr (k.choose_lang langs)
  | .Array v, langs => .vArr (cvChooseList v langs)
  | .Object o, langs => .vObj (mapCollect (cvChooseObj o langs))

def cvChooseList : List CompactValue → List RawStr → List JValue
  | [], _ => []
  | x :: t, langs => x.choose_lang langs :: cvChooseList t langs

def cvChooseObj : List (CompactKey × CompactValue) → List RawStr → List (RawStr × JValue)
  | [], _ => []
  | (k, v) :: t, langs => (k.choose_lang langs, v.choose_lang langs) :: cvChooseObj t langs

end

mutual

/-- `SimpleValue::choose_lang` (simple_value.rs). -/
def SimpleValue.choose_lang : SimpleValue → List RawStr → JValue
  | .StringType s, langs => .vStr (s.choose_lang langs)
  | .Array v, langs => .vArr (svChooseList v langs)
  | .Object o, langs => .vObj (mapCollect (svChooseObj o langs))

def svChooseList : List SimpleValue → List RawStr → List JValue
  | [], _ => []
  | x :: t, langs => x.choose_lang langs :: svChooseList t langs

def svChooseObj : List (StringType × SimpleValue) → List RawStr → List (RawStr × JValue)
  | [], _ => []
  | (k, v) :: t, langs => (k.choose_lang langs, v.choose_lang langs) :: svChooseObj t langs

end

/-! ## The `main.rs` tower

`main.rs` is a self-contained binary: its own `LabelledNode` stores a
`BTreeSet<(String, String)>` (the same sorted pair list as the module's
`BTreeMap`), and its forms differ from the module tower: `Type` keeps
`SimpleValue` arguments, `IntermediateForm` has a `KeyType` variant and
a single typed `Array`, `CompactKey` carries at most one annotation.
Names carry an `M` suffix to separate them from the module tower. -/

inductive TypeM : Type where
  | Simple (s : StringType)
  | WithArgs (typ : StringType) (args : List (StringType × SimpleValue))

inductive CompactKeyM : Type where
  | StringType (s : StringType)
  | TypedLabelledNode (key : StringType) (typ : SimpleType)
  | Transient (typ : SimpleType)

inductive IntermediateFormM : Type where
  | KeyType (k : CompactKeyM)
  | Array (typ : TypeM) (items : List IntermediateFormM)
  | Object (o : List (StringType × IntermediateFormM))
  | TypedObject (typ : TypeM) (o : List (StringType × IntermediateFormM))

inductive CompactValueM : Type where
  | KeyType (k : CompactKeyM)
  | Array (items : List CompactValueM)
  | Object (o : List (CompactKeyM × CompactValueM))

/-! ### Encodings and comparators for the `main.rs` tower -/

def encTypeM : TypeM → ETree
  | .Simple s => .node 0 "" (.cons (encStringType s) .nil)
  | .WithArgs typ args =>
    .node 1 "" (.cons (encStringType typ) (.cons (.node 0 "" (encSVObj args)) .nil))

def encCompactKeyM : CompactKeyM → ETree
  | .StringType s => .node 0 "" (.cons (encStringType s) .nil)
  | .TypedLabelledNode key typ =>
    .node 1 "" (.cons (encStringType key) (.cons (encSimpleType typ) .nil))
  | .Transient typ => .node 2 "" (.cons (encSimpleType typ) .nil)

mutual

def encIntermediateFormM : IntermediateFormM → ETree
  | .KeyType k => .node 0 "" (.cons (encCompactKeyM k) .nil)
  | .Array typ items =>
    .node 1 "" (.cons (encTypeM typ) (.cons (.node 0 "" (encIFMList items)) .nil))
  | .Object o => .node 2 "" (encIFMObj o)
  | .TypedObject typ o =>
    .node 3 "" (.cons (encTypeM typ) (.cons (.node 0 "" (encIFMObj o)) .nil))

def encIFMList : List IntermediateFormM → EList
  | [] => .nil
  | x :: t => .cons (encIntermediateFormM x) (encIFMList t)

def encIFMObj : List (StringType × IntermediateFormM) → EList
  | [] => .nil
  | (k, v) :: t =>
    .cons (.node 0 "" (.cons (encStringType k) (.cons (encIntermediateFormM v) .nil)))
      (encIFMObj t)

end

mutual

def encCompactValueM : CompactValueM → ETree
  | .KeyType k => .node 0 "" (.cons (encCompactKeyM k) .nil)
  | .Array items => .node 1 "" (encCVMList items)
  | .Object o => .node 2 "" (encCVMObj o)

def encCVMList : List CompactValueM → EList
  | [] => .nil
  | x :: t => .cons (encCompactValueM x) (encCVMList t)

def encCVMObj : List (CompactKeyM × CompactValueM) → EList
  | [] => .nil
  | (k, v) :: t =>
    .cons (.node 0 "" (.cons (encCompactKeyM k) (.cons (encCompactValueM v) .nil)))
      (encCVMObj t)

end

def cmpIFMPair (p q : StringType × IntermediateFormM) : Ordering :=
  cmpE (.node 0 "" (.cons (encStringType p.1) (.cons (encIntermediateFormM p.2) .nil)))
    (.node 0 "" (.cons (encStringType q.1) (.cons (encIntermediateFormM q.2) .nil)))

def cmpCVMPair (p q : CompactKeyM × CompactValueM) : Ordering :=
  cmpE (.node 0 "" (.cons (encCompactKeyM p.1) (.cons (encCompactValueM p.2) .nil)))
    (.node 0 "" (.cons (encCompactKeyM q.1) (.cons (encCompactValueM q.2) .nil)))

/-! ### `main.rs` `choose_lang` -/

/-- `LabelledNode::choose_lang` of main.rs: picks the whole `(lang,
label)` pair and projects the label, with fallback pair
`("", "<no label>")`. -/
def LabelledNode.choose_lang_main (n : LabelledNode) (langs : List String) : String :=
  n.z_label ++ ": " ++
    (match langs.findSome?
        (fun lang => n.readable_labels.find? (fun label => label.1 == lang)) with
     | some pair => pair.2
     | none =>
       match n.readable_labels with
       | [] => "<no label>"
       | pair :: _ => pair.2)

/-- `StringType::choose_lang` of main.rs. -/
def StringType.choose_lang_main : StringType → List RawStr → RawStr
  | .String s, _ => s
  | .LabelledNode n, langs => n.choose_lang_main langs

/-- `CompactKey::choose_lang` of main.rs. -/
def CompactKeyM.choose_lang : CompactKeyM → List RawStr → RawStr
  | .StringType n, langs => n.choose_lang_main langs
  | .TypedLabelledNode key typ, langs =>
    key.choose_lang_main langs ++ " [" ++ typ.s.choose_lang_main langs ++ "]"
  | .Transient typ, langs => "[" ++ typ.s.choose_lang_main langs ++ "]"

mutual

/-- `CompactValue::choose_lang` of main.rs. -/
def CompactValueM.choose_lang : CompactValueM → List RawStr → JValue
  | .KeyType k, langs => .vStr (k.choose_lang langs)
  | .Array v, langs => .vArr (cvmChooseList v langs)
  | .Object o, langs => .vObj (mapCollect (cvmChooseObj o langs))

def cvmChooseList : List CompactValueM → List RawStr → List JValue
  | [], _ => []
  | x :: t, langs => x.choose_lang langs :: cvmChooseList t langs

def cvmChooseObj : List (CompactKeyM × CompactValueM) → List RawStr → List (RawStr × JValue)
  | [], _ => []
  | (k, v) :: t, langs => (k.choose_lang langs, v.choose_lang langs) :: cvmChooseObj t langs

end

/-! ### `main.rs` conversions and passes -/

/-- `TryFrom<SimpleValue> for Type` of main.rs: the `WithArgs` argument
sets keep `SimpleValue` values. -/
def TypeM.try_from : SimpleValue → Option TypeM
  | .StringType k => some (.Simple k)
  | .Array _ => none
  | .Object o =>
    match h : o.find? (fun p => p.1.is_labelled "Z1K1") with
    | none => none
    | some (z1k1, v) =>
      match TypeM.try_from v with
      | none => none
      | some (.Simple s) =>
        some (.WithArgs s
          (setOf' cmpSVPair (o.filter (fun p => !(p.1.is_labelled "Z1K1")))))
      | some (.WithArgs typ args) =>
        some (.WithArgs typ
          (setOf' cmpSVPair ((o.filter (fun p => !(p.1.is_labelled "Z1K1"))) ++
            [(z1k1, SimpleValue.Object
              (setOf' cmpSVPair (args.filter (fun p => !(p.1.is_labelled "Z1K1")))))])))
termination_by v => sizeSV v
decreasing_by
  all_goals simp only [sizeSV, sizeSVl, sizeSVo]
  all_goals
    first
    | omega
    | (have hm := List.mem_of_find?_eq_some h
       have := sizeSV_le_of_mem hm
       omega)

/-! ### Sizes of `IntermediateFormM` -/

mutual

def sizeTM : TypeM → Nat
  | .Simple _ => 1
  | .WithArgs _ args => 1 + 2 * sizeSVo args

def sizeIFM : IntermediateFormM → Nat
  | .KeyType _ => 1
  | .Array t v => 2 + sizeTM t + sizeIFMl v
  | .Object o => 1 + sizeIFMo o
  | .TypedObject t o => 2 + sizeTM t + sizeIFMo o

def sizeIFMl : List IntermediateFormM → Nat
  | [] => 0
  | x :: t => 1 + sizeIFM x + sizeIFMl t

def sizeIFMo : List (StringType × IntermediateFormM) → Nat
  | [] => 0
  | (_, v) :: t => 1 + sizeIFM v + sizeIFMo t

end

mutual

/-- `From<SimpleValue> for IntermediateForm` of main.rs.  `v[0]` of an
empty array panics, `expect`/`unwrap` on a failed `try_from` panic,
and an array-valued `Z1K1` is `todo!()`. -/
def IntermediateFormM.fromSimple : SimpleValue → Option IntermediateFormM
  | .StringType k => some (.KeyType (.StringType k))
  | .Array v =>
    match v with
    | [] => none
    | v0 :: rest =>
      match TypeM.try_from v0 with
      | none => none
      | some typ => (imList rest).map (fun items => .Array typ items)
  | .Object o =>
    match h : o.find? (fun p => p.1.is_labelled "Z1K1") with
    | some (_z1k1_key, .StringType typ) =>
      (imObj (o.filter (fun p => !(p.1.is_labelled "Z1K1")))).map
        (fun fields => .TypedObject (.Simple typ) (setOf' cmpIFMPair fields))
    | some (_z1k1_key, .Array _typ) => none
    | some (_z1k1_key, .Object typ) =>
      match TypeM.try_from (.Object typ) with
      | none => none
      | some converted_type =>
        (imObj (o.filter (fun p => !(p.1.is_labelled "Z1K1")))).map
          (fun fields => .TypedObject converted_type (setOf' cmpIFMPair fields))
    | none => (imObj o).map (fun fields => .Object (setOf' cmpIFMPair fields))
termination_by v => sizeSV v
decreasing_by
  all_goals simp only [sizeSV, sizeSVl, sizeSVo]
  all_goals
    first
    | omega
    | (have hm := List.mem_of_find?_eq_some h
       have := sizeSV_le_of_mem hm
       simp only [sizeSV] at this
       omega)
    | (have hfl := sizeSVo_filter_le (fun p => !(p.1.is_labelled "Z1K1")) o
       omega)

def imList : List SimpleValue → Option (List IntermediateFormM)
  | [] => some []
  | x :: t => do
    let y ← IntermediateFormM.fromSimple x
    let ys ← imList t
    some (y :: ys)
termination_by l => sizeSVl l
decreasing_by all_goals (simp only [sizeSV, sizeSVl, sizeSVo]; omega)

def imObj : List (StringType × SimpleValue) → Option (List (StringType × IntermediateFormM))
  | [] => some []
  | (k, v) :: t => do
    let w ← IntermediateFormM.fromSimple v
    let ws ← imObj t
    some ((k, w) :: ws)
termination_by l => sizeSVo l
decreasing_by all_goals (simp only [sizeSV, sizeSVl, sizeSVo]; omega)

end

mutual

/-- `IntermediateForm::drop_array_item_types` of main.rs (total; the
array's own type is untouched in this version). -/
def IntermediateFormM.drop_array_item_types : IntermediateFormM → IntermediateFormM
  | .Array typ v => .Array typ (dropItemsM v)
  | .Object o => .Object (setOf' cmpIFMPair (dropObjM o))
  | .TypedObject t o => .TypedObject t (setOf' cmpIFMPair (dropObjM o))
  | .KeyType k => .KeyType k
termination_by x => sizeIFM x
decreasing_by all_goals (simp only [sizeTM, sizeIFM, sizeIFMl, sizeIFMo]; omega)

def dropItemsM : List IntermediateFormM → List IntermediateFormM
  | [] => []
  | .TypedObject _typ obj :: rest =>
    (IntermediateFormM.Object obj).drop_array_item_types :: dropItemsM rest
  | x :: rest => x.drop_array_item_types :: dropItemsM rest
termination_by l => sizeIFMl l
decreasing_by all_goals (simp only [sizeTM, sizeIFM, sizeIFMl, sizeIFMo]; omega)

def dropObjM :
    List (StringType × IntermediateFormM) → List (StringType × IntermediateFormM)
  | [] => []
  | (k, v) :: rest => (k, v.drop_array_item_types) :: dropObjM rest
termination_by l => sizeIFMo l
decreasing_by all_goals (simp only [sizeTM, sizeIFM, sizeIFMl, sizeIFMo]; omega)

end

mutual

/-- `IntermediateForm::compress_monolingual` of main.rs.  Note: the
values in a `Z11` object are `KeyType(CompactKey::StringType(k))` here;
other shapes are `todo!()`.  The type of a `TypedObject`/`Array` is not
recursed into in this version. -/
def IntermediateFormM.compress_monolingual : IntermediateFormM → Option IntermediateFormM
  | .TypedObject (.Simple typ) val =>
    if typ.is_labelled "Z11" then
      match val.find? (fun p => p.1.is_labelled "Z11K2") with
      | some (_, .KeyType (.StringType k)) =>
        (match val.find? (fun p => p.1.is_labelled "Z11K1") with
         | some (_, .KeyType (.StringType k')) =>
           some (.KeyType (.TypedLabelledNode k ⟨k'⟩))
         | some (_, _) => none
         | none => none)
      | some (_, _) => none
      | none => none
    else
      (monoObjM val).map (fun o => .TypedObject (.Simple typ) (setOf' cmpIFMPair o))
  | .TypedObject (.WithArgs t args) val =>
    (monoObjM val).map (fun o => .TypedObject (.WithArgs t args) (setOf' cmpIFMPair o))
  | .KeyType k => some (.KeyType k)
  | .Array typ v => (monoListM v).map (fun items => .Array typ items)
  | .Object obj => (monoObjM obj).map (fun o => .Object (setOf' cmpIFMPair o))
termination_by x => sizeIFM x
decreasing_by all_goals (simp only [sizeTM, sizeIFM, sizeIFMl, sizeIFMo]; omega)

def monoListM : List IntermediateFormM → Option (List IntermediateFormM)
  | [] => some []
  | x :: t => do
    let y ← x.compress_monolingual
    let ys ← monoListM t
    some (y :: ys)
termination_by l => sizeIFMl l
decreasing_by all_goals (simp only [sizeTM, sizeIFM, sizeIFMl, sizeIFMo]; omega)

def monoObjM :
    List (StringType × IntermediateFormM) → Option (List (StringType × IntermediateFormM))
  | [] => some []
  | (k, v) :: t => do
    let w ← v.compress_monolingual
    let ws ← monoObjM t
    some ((k, w) :: ws)
termination_by l => sizeIFMo l
decreasing_by all_goals (simp only [sizeTM, sizeIFM, sizeIFMl, sizeIFMo]; omega)

end

mutual

/-- `From<SimpleValue> for CompactValue` of main.rs (total). -/
def CompactValueM.fromSimple : SimpleValue → CompactValueM
  | .StringType k => .KeyType (.StringType k)
  | .Array a => .Array (svcvList a)
  | .Object o => .Object (setOf' cmpCVMPair (svcvObj o))

def svcvList : List SimpleValue → List CompactValueM
  | [] => []
  | x :: t => CompactValueM.fromSimple x :: svcvList t

def svcvObj : List (StringType × SimpleValue) → List (CompactKeyM × CompactValueM)
  | [] => []
  | (k, v) :: t => (CompactKeyM.StringType k, CompactValueM.fromSimple v) :: svcvObj t

end


/-! ### Size bounds for the `main.rs` conversions (termination support) -/

theorem sizeSVo_eq_sumW :
    ∀ l : List (StringType × SimpleValue), sizeSVo l = sumW (fun p => 1 + sizeSV p.2) l := by
  intro l
  induction l with
  | nil => rfl
  | cons p t ih =>
    cases p
    simp only [sizeSVo, sumW]
    omega

theorem sizeSVo_setOf'_le (l : List (StringType × SimpleValue)) :
    sizeSVo (setOf' cmpSVPair l) ≤ sizeSVo l := by
  rw [sizeSVo_eq_sumW, sizeSVo_eq_sumW]
  exact sumW_setOf'_le cmpSVPair _ l

theorem sizeSVo_append (a b : List (StringType × SimpleValue)) :
    sizeSVo (a ++ b) = sizeSVo a + sizeSVo b := by
  induction a with
  | nil => simp [sizeSVo]
  | cons p t ih =>
    cases p
    simp only [List.cons_append, List.append_eq, sizeSVo]
    rw [ih]
    omega

theorem sizeSVo_filter_drop {f : StringType × SimpleValue → Bool}
    {p : StringType × SimpleValue} :
    ∀ {o : List (StringType × SimpleValue)}, p ∈ o → f p = false →
      sizeSVo (o.filter f) + 1 + sizeSV p.2 ≤ sizeSVo o := by
  intro o
  induction o with
  | nil => intro h; exact absurd h (List.not_mem_nil _)
  | cons q t ih =>
    intro hmem hf
    rcases List.mem_cons.1 hmem with h | h
    · subst h
      rw [List.filter_cons_of_neg (by simp [hf])]
      cases p
      simp only [sizeSVo]
      have := sizeSVo_filter_le f t
      omega
    · by_cases hq : f q = true
      · rw [List.filter_cons_of_pos hq]
        cases q
        simp only [sizeSVo]
        have := ih h hf
        omega
      · rw [List.filter_cons_of_neg (by simpa using hq)]
        cases q
        simp only [sizeSVo]
        have := ih h hf
        omega


/-- Unfolding of `TypeM.try_from` on objects as a plain match. -/
theorem TypeM.try_from_object_eq (o : List (StringType × SimpleValue)) :
    TypeM.try_from (SimpleValue.Object o) =
      match o.find? (fun p => p.1.is_labelled "Z1K1") with
      | none => none
      | some (z1k1, v) =>
        match TypeM.try_from v with
        | none => none
        | some (.Simple s) =>
          some (.WithArgs s
            (setOf' cmpSVPair (o.filter (fun p => !(p.1.is_labelled "Z1K1")))))
        | some (.WithArgs typ args) =>
          some (.WithArgs typ
            (setOf' cmpSVPair ((o.filter (fun p => !(p.1.is_labelled "Z1K1"))) ++
              [(z1k1, SimpleValue.Object
                (setOf' cmpSVPair (args.filter (fun p => !(p.1.is_labelled "Z1K1")))))]))) := by
  rw [TypeM.try_from]
  split
  · rename_i heq
    rw [heq]
  · rename_i z1k1 v heq
    rw [heq]

/-- `Type::try_from` of main.rs produces a type descriptor of bounded
(inflated) size. -/
theorem sizeTM_try_from_le :
    ∀ {v : SimpleValue} {t : TypeM}, TypeM.try_from v = some t → sizeTM t ≤ 2 * sizeSV v := by
  intro v
  induction v using TypeM.try_from.induct with
  | case1 k =>
    intro t h
    simp only [TypeM.try_from] at h
    injection h with h1
    subst h1
    simp [sizeTM, sizeSV]
  | case2 v =>
    intro t h
    simp only [TypeM.try_from] at h
    exact absurd h (by simp)
  | case3 o hfind =>
    intro t h
    rw [TypeM.try_from_object_eq, hfind] at h
    exact absurd h (by simp)
  | case4 o z1k1 v hfind hrec ih =>
    intro t h
    rw [TypeM.try_from_object_eq, hfind] at h
    simp only [hrec] at h
    exact absurd h (by simp)
  | case5 o z1k1 v hfind s hrec ih =>
    intro t h
    rw [TypeM.try_from_object_eq, hfind] at h
    simp only [hrec] at h
    injection h with h1
    subst h1
    have h1 := sizeSVo_setOf'_le (o.filter (fun p => !(p.1.is_labelled "Z1K1")))
    have h2 := sizeSVo_filter_le (fun p => !(p.1.is_labelled "Z1K1")) o
    simp only [sizeTM, sizeSV]
    omega
  | case6 o z1k1 v hfind typ args hrec ih =>
    intro t h
    rw [TypeM.try_from_object_eq, hfind] at h
    simp only [hrec] at h
    injection h with h1
    subst h1
    have hmem := List.mem_of_find?_eq_some hfind
    have hpred := List.find?_some hfind
    have hbound := ih hrec
    simp only [sizeTM] at hbound
    have hdrop : sizeSVo (o.filter (fun p => !(p.1.is_labelled "Z1K1"))) + 1 + sizeSV v ≤
        sizeSVo o := by
      refine sizeSVo_filter_drop hmem ?_
      simp only at hpred ⊢
      rw [hpred]
      rfl
    have h1 := sizeSVo_setOf'_le ((o.filter (fun p => !(p.1.is_labelled "Z1K1"))) ++
      [(z1k1, SimpleValue.Object
        (setOf' cmpSVPair (args.filter (fun p => !(p.1.is_labelled "Z1K1")))))])
    rw [sizeSVo_append] at h1
    have h2 := sizeSVo_setOf'_le (args.filter (fun p => !(p.1.is_labelled "Z1K1")))
    have h3 := sizeSVo_filter_le (fun p => !(p.1.is_labelled "Z1K1")) args
    simp only [sizeTM, sizeSV, sizeSVo] at *
    omega

/-- Unfolding of `IntermediateFormM.fromSimple` on objects as a plain match. -/
theorem IntermediateFormM.fromSimple_object_eq (o : List (StringType × SimpleValue)) :
    IntermediateFormM.fromSimple (SimpleValue.Object o) =
      match o.find? (fun p => p.1.is_labelled "Z1K1") with
      | some (_z1k1_key, .StringType typ) =>
        (imObj (o.filter (fun p => !(p.1.is_labelled "Z1K1")))).map
          (fun fields =>
            IntermediateFormM.TypedObject (.Simple typ) (setOf' cmpIFMPair fields))
      | some (_z1k1_key, .Array _typ) => none
      | some (_z1k1_key, .Object typ) =>
        match TypeM.try_from (.Object typ) with
        | none => none
        | some converted_type =>
          (imObj (o.filter (fun p => !(p.1.is_labelled "Z1K1")))).map
            (fun fields =>
              IntermediateFormM.TypedObject converted_type (setOf' cmpIFMPair fields))
      | none => (imObj o).map (fun fields => .Object (setOf' cmpIFMPair fields)) := by
  rw [IntermediateFormM.fromSimple]
  split
  · rename_i heq
    rw [heq]
  · rename_i heq
    rw [heq]
  · rename_i heq
    rw [heq]
  · rename_i heq
    rw [heq]

theorem sizeIFMo_eq_sumW :
    ∀ l : List (StringType × IntermediateFormM),
      sizeIFMo l = sumW (fun p => 1 + sizeIFM p.2) l := by
  intro l
  induction l with
  | nil => rfl
  | cons p t ih =>
    cases p
    simp only [sizeIFMo, sumW]
    omega

theorem sizeIFMo_setOf'_le (l : List (StringType × IntermediateFormM)) :
    sizeIFMo (setOf' cmpIFMPair l) ≤ sizeIFMo l := by
  rw [sizeIFMo_eq_sumW, sizeIFMo_eq_sumW]
  exact sumW_setOf'_le cmpIFMPair _ l

/-- `From<SimpleValue> for IntermediateForm` of main.rs produces forms of
size bounded by twice the input size (with the helpers for object and
array entries). -/
theorem sizeIFM_fromSimple_le :
    ∀ v : SimpleValue, ∀ i, IntermediateFormM.fromSimple v = some i →
      sizeIFM i ≤ 2 * sizeSV v := by
  refine IntermediateFormM.fromSimple.induct
    (fun v => ∀ i, IntermediateFormM.fromSimple v = some i → sizeIFM i ≤ 2 * sizeSV v)
    (fun l => ∀ fs, imObj l = some fs → sizeIFMo fs ≤ 2 * sizeSVo l)
    (fun l => ∀ is0, imList l = some is0 → sizeIFMl is0 ≤ 2 * sizeSVl l)
    ?_ ?_ ?_ ?_ ?_ ?_ ?_ ?_ ?_ ?_ ?_ ?_ ?_
  · intro k i h
    simp only [IntermediateFormM.fromSimple] at h
    injection h with h1
    subst h1
    simp [sizeIFM, sizeSV]
  · intro i h
    simp only [IntermediateFormM.fromSimple] at h
    exact absurd h (by simp)
  · intro x t htf i h
    simp only [IntermediateFormM.fromSimple, htf] at h
    exact absurd h (by simp)
  · intro x t typ htf ih i h
    simp only [IntermediateFormM.fromSimple, htf] at h
    rcases hl : imList t with _ | items
    · rw [hl] at h
      exact absurd h (by simp)
    · rw [hl] at h
      simp only [Option.map] at h
      injection h with h1
      subst h1
      have h1 := sizeTM_try_from_le htf
      have h2 := ih items hl
      simp only [sizeIFM, sizeSV, sizeSVl]
      omega
  · intro o _z1k1_key typ hfind ih i h
    rw [IntermediateFormM.fromSimple_object_eq, hfind] at h
    rcases hl : imObj (o.filter (fun p => !(p.1.is_labelled "Z1K1"))) with _ | fields
    · rw [hl] at h
      exact absurd h (by simp)
    · rw [hl] at h
      simp only [Option.map] at h
      injection h with h1
      subst h1
      have hmem := List.mem_of_find?_eq_some hfind
      have hpred := List.find?_some hfind
      have hdrop : sizeSVo (o.filter (fun p => !(p.1.is_labelled "Z1K1"))) + 1 +
          sizeSV (.StringType typ) ≤ sizeSVo o := by
        refine sizeSVo_filter_drop hmem ?_
        simp only at hpred ⊢
        rw [hpred]
        rfl
      have h2 := ih fields hl
      have h3 := sizeIFMo_setOf'_le fields
      simp only [sizeIFM, sizeTM, sizeSV, sizeSVo] at *
      omega
  · intro o _z1k1_key _typ hfind i h
    rw [IntermediateFormM.fromSimple_object_eq, hfind] at h
    simp at h
  · intro o _z1k1_key typ hfind htf i h
    rw [IntermediateFormM.fromSimple_object_eq, hfind] at h
    simp only [htf] at h
    exact absurd h (by simp)
  · intro o _z1k1_key typ hfind ct htf ih i h
    rw [IntermediateFormM.fromSimple_object_eq, hfind] at h
    simp only [htf] at h
    rcases hl : imObj (o.filter (fun p => !(p.1.is_labelled "Z1K1"))) with _ | fields
    · rw [hl] at h
      exact absurd h (by simp)
    · rw [hl] at h
      simp only [Option.map] at h
      injection h with h1
      subst h1
      have hmem := List.mem_of_find?_eq_some hfind
      have hpred := List.find?_some hfind
      have hdrop : sizeSVo (o.filter (fun p => !(p.1.is_labelled "Z1K1"))) + 1 +
          sizeSV (.Object typ) ≤ sizeSVo o := by
        refine sizeSVo_filter_drop hmem ?_
        simp only at hpred ⊢
        rw [hpred]
        rfl
      have h1 := sizeTM_try_from_le htf
      have h2 := ih fields hl
      have h3 := sizeIFMo_setOf'_le fields
      simp only [sizeIFM, sizeTM, sizeSV, sizeSVo] at *
      omega
  · intro o hfind ih i h
    rw [IntermediateFormM.fromSimple_object_eq, hfind] at h
    rcases hl : imObj o with _ | fields
    · rw [hl] at h
      exact absurd h (by simp)
    · rw [hl] at h
      simp only [Option.map] at h
      injection h with h1
      subst h1
      have h2 := ih fields hl
      have h3 := sizeIFMo_setOf'_le fields
      simp only [sizeIFM, sizeSV] at *
      omega
  · intro fs h
    simp only [imObj] at h
    injection h with h1
    subst h1
    simp [sizeIFMo, sizeSVo]
  · intro k v t ih1 ih2 fs h
    simp only [imObj] at h
    rcases hv : IntermediateFormM.fromSimple v with _ | w
    · rw [hv] at h
      exact absurd h (by simp)
    · rw [hv] at h
      rcases ht : imObj t with _ | ws
      · rw [ht] at h
        exact absurd h (by simp)
      · rw [ht] at h
        injection h with h1
        subst h1
        have h1 := ih1 w hv
        have h2 := ih2 ws ht
        simp only [sizeIFMo, sizeSVo]
        omega
  · intro is0 h
    simp only [imList] at h
    injection h with h1
    subst h1
    simp [sizeIFMl, sizeSVl]
  · intro x t ih1 ih2 is0 h
    simp only [imList] at h
    rcases hv : IntermediateFormM.fromSimple x with _ | y
    · rw [hv] at h
      exact absurd h (by simp)
    · rw [hv] at h
      rcases ht : imList t with _ | ys
      · rw [ht] at h
        exact absurd h (by simp)
      · rw [ht] at h
        injection h with h1
        subst h1
        have h1 := ih1 y hv
        have h2 := ih2 ys ht
        simp only [sizeIFMl, sizeSVl]
        omega

mutual

/-- `rebuild_obj_with_type_args` of main.rs: the synthetic key is the
literal `"Z1K1"` in this version. -/
def rebuildM (obj : List (StringType × IntermediateFormM))
    (type_args : List (StringType × SimpleValue)) : Option CompactValueM :=
  match CompactValueM.fromIntermediateM (.Object obj) with
  | none => none
  | some (.Object converted_obj) =>
    some (.Object (setOf' cmpCVMPair (converted_obj ++
      [(CompactKeyM.StringType (.String "Z1K1"),
        CompactValueM.Object (setOf' cmpCVMPair (svcvObj type_args)))])))
  | some _ => some (.Object [])
termination_by 2 + sizeIFMo obj
decreasing_by all_goals (simp only [sizeTM, sizeIFM, sizeIFMl, sizeIFMo]; omega)

/-- `From<IntermediateForm> for CompactValue` of main.rs.  The
`Array(WithArgs…)` cases route the type-argument object through
`IntermediateForm::from(SimpleValue)` (which can panic) and back into
`CompactValue`. -/
def CompactValueM.fromIntermediateM : IntermediateFormM → Option CompactValueM
  | .KeyType k => some (.KeyType k)
  | .Array (.Simple _) v => (cvmList v).map (fun items => .Array items)
  | .Array (.WithArgs _typ type_args) v =>
    match h0 : IntermediateFormM.fromSimple (.Object type_args) with
    | none => none
    | some first0 => do
      let first ← CompactValueM.fromIntermediateM first0
      let items ← cvmList v
      some (.Array (first :: items))
  | .Object o => (cvmObjFields o).map (fun fields => .Object (setOf' cmpCVMPair fields))
  | .TypedObject (.Simple typ) obj =>
    (CompactValueM.fromIntermediateM (.Object obj)).map
      (fun w => .Object [(CompactKeyM.Transient ⟨typ⟩, w)])
  | .TypedObject (.WithArgs typ type_args) obj =>
    (rebuildM obj type_args).map
      (fun w => .Object [(CompactKeyM.Transient ⟨typ⟩, w)])
termination_by x => sizeIFM x
decreasing_by
  all_goals simp only [sizeTM, sizeIFM, sizeIFMl, sizeIFMo]
  all_goals
    first
    | omega
    | (have hb := sizeIFM_fromSimple_le _ _ h0
       simp only [sizeSV] at hb
       omega)

def cvmList : List IntermediateFormM → Option (List CompactValueM)
  | [] => some []
  | x :: t => do
    let y ← CompactValueM.fromIntermediateM x
    let ys ← cvmList t
    some (y :: ys)
termination_by l => sizeIFMl l
decreasing_by all_goals (simp only [sizeTM, sizeIFM, sizeIFMl, sizeIFMo]; omega)

def cvmObjFields :
    List (StringType × IntermediateFormM) → Option (List (CompactKeyM × CompactValueM))
  | [] => some []
  | (k, .TypedObject (.Simple typ) obj) :: rest => do
    let w ← CompactValueM.fromIntermediateM (.Object obj)
    let ws ← cvmObjFields rest
    some ((CompactKeyM.TypedLabelledNode k ⟨typ⟩, w) :: ws)
  | (k, .TypedObject (.WithArgs typ type_args) obj) :: rest => do
    let w ← rebuildM obj type_args
    let ws ← cvmObjFields rest
    some ((CompactKeyM.TypedLabelledNode k ⟨typ⟩, w) :: ws)
  | (k, .Array (.Simple typ) v) :: rest => do
    let items ← cvmList v
    let ws ← cvmObjFields rest
    some ((CompactKeyM.TypedLabelledNode k ⟨typ⟩, CompactValueM.Array items) :: ws)
  | (k, .Array (.WithArgs typ type_args) v) :: rest =>
    match h0 : IntermediateFormM.fromSimple (.Object type_args) with
    | none => none
    | some first0 => do
      let first ← CompactValueM.fromIntermediateM first0
      let items ← cvmList v
      let ws ← cvmObjFields rest
      some ((CompactKeyM.TypedLabelledNode k ⟨typ⟩,
        CompactValueM.Array (first :: items)) :: ws)
  | (k, v) :: rest => do
    let w ← CompactValueM.fromIntermediateM v
    let ws ← cvmObjFields rest
    some ((CompactKeyM.StringType k, w) :: ws)
termination_by l => sizeIFMo l
decreasing_by
  all_goals simp only [sizeTM, sizeIFM, sizeIFMl, sizeIFMo]
  all_goals
    first
    | omega
    | (have hb := sizeIFM_fromSimple_le _ _ h0
       simp only [sizeSV] at hb
       omega)

end

/-! ## The `/compactify` route (main.rs) and the spec's claimed pipeline -/

/-- The pure tail of `compactify_route` (main.rs lines 806–818):
everything after the parallel labeler, operating on the labeled
`SimpleValue`. -/
def compactifyCore (v : SimpleValue) (langs : List String) : Option JValue := do
  let val ← IntermediateFormM.fromSimple v
  let val ← val.compress_monolingual
  let val := val.drop_array_item_types
  let val ← CompactValueM.fromIntermediateM val
  some (val.choose_lang langs)

/-- The pass sequence the spec's §2 control-flow describes for
`/compactify`, built from the module-file tower: `SimpleValue →
TypedForm → IntermediateForm → compress_reference → compress_string →
compress_monolingual → drop_array_item_types → CompactValue →
compress_simple_classes → choose_lang`. -/
def claimedPipeline (v : SimpleValue) (langs : List String) : Option JValue := do
  let tf ← TypedForm.fromSimple v
  let i := IntermediateForm.fromTypedForm tf
  let i ← i.compress_reference
  let i ← i.compress_string
  let i ← i.compress_monolingual
  let i := i.drop_array_item_types
  let c := CompactValue.fromIntermediate i
  some ((c.compress_simple_classes).choose_lang langs)

/-! ## The label resolver (`labelize.rs`)

`fetch` is abstracted as an oracle `String → Except MyError JValue`
(section 4.1's upstream fetch, cache aside).  `_labelize` returns
`Option (Except MyError StringType)` where the outer `none` is a panic
(`unwrap` on a failed search) and `Except.error` a swallowed error. -/

inductive MyError : Type where
  | NetworkError (s : String)
  | SchemaError (s : String)
deriving DecidableEq

/-- `^Z\d+$` on a string. -/
def isZNum (s : String) : Bool :=
  match s.data with
  | 'Z' :: rest => !rest.isEmpty && rest.all Char.isDigit
  | _ => false

/-- `^Z\d+K\d+$` on a string. -/
def isZKNum (s : String) : Bool :=
  match s.data with
  | 'Z' :: rest =>
    let d1 := rest.takeWhile Char.isDigit
    (match rest.drop d1.length with
     | 'K' :: d2 => !d1.isEmpty && !d2.isEmpty && d2.all Char.isDigit
     | _ => false)
  | _ => false

/-- `s.split('K')` first component: the characters before the first `K`. -/
def zPartBeforeK (s : String) : String :=
  String.mk (s.data.takeWhile (fun c => c ≠ 'K'))

/-- Shared extraction of `(Z11K1, Z11K2)` pairs from the tail of a
`Z12K1` array; for global keys the label text is quoted
(`format!("'{}'", …)`). -/
def extractLabelPairs (quoted : Bool) :
    List JValue → Except MyError (List (String × String))
  | [] => .ok []
  | v :: rest => do
    let lang ← match v.get "Z11K1" with
      | none => .error (.SchemaError "no key Z11K1 in item of Z12K1")
      | some lv =>
        match lv.as_str with
        | none => .error (.SchemaError "value of Z11K1 not a str")
        | some l => .ok l
    let label ← match v.get "Z11K2" with
      | none => .error (.SchemaError "no key Z11K1 in item of Z12K1")
      | some lv =>
        match lv.as_str with
        | none => .error (.SchemaError "value of Z11K2 not a str")
        | some l => .ok (if quoted then "'" ++ l ++ "'" else l)
    let tail ← extractLabelPairs quoted rest
    .ok ((lang, label) :: tail)

/-- The persistent-object path of `_labelize` (`^Z\d+$`): traverse
`data → Z2K3 → Z12K1`, collect `(Z11K1, Z11K2)` of every element after
the first into a `BTreeMap`. -/
def labelizeZ (fetched : Except MyError JValue) (s : String) :
    Except MyError StringType := do
  let data ← fetched
  let z2k3 ← match data.get "Z2K3" with
    | none => .error (.SchemaError
        "wikifunction response is not a Persistent Object, no Z2K3 key ")
    | some v => .ok v
  let z12k1 ← match z2k3.get "Z12K1" with
    | none => .error (.SchemaError "no Z12K1 (Multilingual Text) key in Persistent Object")
    | some v => .ok v
  let arr ← match z12k1.as_array with
    | none => .error (.SchemaError "Z12K1 is not an array")
    | some a => .ok a
  let pairs ← extractLabelPairs false (arr.drop 1)
  .ok (.LabelledNode ⟨mapCollect pairs, s⟩)

/-- The `Z2K2` scan of the global-key path: among the array-valued
fields (length > 1 with an object at index 1), find the first element
object one of whose values is the string `s` directly or inside an
object (one level of indirection). -/
def scanZ2K2 (entries : List (String × JValue)) (s : String) : Option (List (String × JValue)) :=
  ((entries.filterMap (fun p => p.2.as_array)).filter
      (fun v => decide (v.length > 1) && (v.getD 1 .vNull).is_object)).filterMap
    (fun v => (v.filterMap (fun x => x.as_object)).find?
      (fun o => o.any (fun q =>
        match q.2 with
        | .vStr vs => vs == s
        | .vObj vo => vo.any (fun r =>
            match r.2 with
            | .vStr x => x == s
            | _ => false)
        | _ => false)))
    |>.head?

/-- The global-key path of `_labelize` (`^Z\d+K\d+$`).  The two
`unwrap()`s on the scan are panics (`none`). -/
def labelizeZK (fetched : Except MyError JValue) (s : String) :
    Option (Except MyError StringType) :=
  match fetched with
  | .error e => some (.error e)
  | .ok res =>
    match res.get "Z2K2" with
    | none => some (.error (.SchemaError
        "wikifunction response is not a Persistent Object, no Z2K2 key "))
    | some z2k2 =>
      match z2k2.as_object with
      | none => some (.error (.SchemaError "value of Z2K2 is not object"))
      | some entries =>
        match scanZ2K2 entries s with
        | none => none
        | some found =>
          match (found.filterMap (fun p => p.2.as_object)).find?
              (fun ob =>
                match ob.find? (fun q => q.1 == "Z1K1") with
                | some q =>
                  (match q.2 with
                   | .vStr x => x == "Z12"
                   | _ => false)
                | none => false) with
          | none => none
          | some label_val =>
            match (JValue.vObj label_val).get "Z12K1" with
            | none => some (.error (.SchemaError "no \"Z12K1\" key in wikifunction response"))
            | some z12k1 =>
              match z12k1.as_array with
              | none => some (.error (.SchemaError "Z12K1 is not an array"))
              | some arr =>
                match extractLabelPairs true (arr.drop 1) with
                | .error e => some (.error e)
                | .ok pairs => some (.ok (.LabelledNode ⟨mapCollect pairs, s⟩))

/-- `_labelize` (labelize.rs): dispatch on the two identifier regexes,
else return the string unchanged.  The fetch oracle is consulted with
`s` itself (persistent objects) or with `s.split('K')[0]` (global
keys). -/
def labelize' (fetch : String → Except MyError JValue) (s : String) :
    Option (Except MyError StringType) :=
  if isZNum s then some (labelizeZ (fetch s) s)
  else if isZKNum s then labelizeZK (fetch (zPartBeforeK s)) s
  else some (.ok (.String s))

/-- `_labelize_wrapped` (labelize.rs): empty strings short-circuit,
errors are swallowed into `String(s)`, a panic propagates. -/
def labelize_wrapped (fetch : String → Except MyError JValue) (s : String) :
    Option StringType :=
  if s.isEmpty then some (.String s)
  else
    match labelize' fetch s with
    | none => none
    | some (.ok out) => some out
    | some (.error _) => some (.String s)

/-! ## Unfolding lemmas for the module conversions -/

theorem zType_try_from_object_eq (o : List (StringType × SimpleValue)) :
    ZType.try_from (SimpleValue.Object o) =
      match o.find? (fun p => p.1.is_labelled "Z1K1") with
      | none => none
      | some (z1k1, v) =>
        match ZType.try_from v with
        | none => none
        | some (.Simple s) =>
          (tfObjConv (o.filter (fun p => !(p.1.is_labelled "Z1K1")))).map
            (fun fields => .WithArgs s (setOf' cmpTFPair fields))
        | some (.WithArgs typ args) =>
          (tfObjConv (o.filter (fun p => !(p.1.is_labelled "Z1K1")))).map
            (fun fields => .WithArgs typ (setOf' cmpTFPair (fields ++
              [(z1k1, TypedForm.Object
                (setOf' cmpTFPair (args.filter (fun p => !(p.1.is_labelled "Z1K1")))))]))) := by
  rw [ZType.try_from]
  split
  · rename_i heq
    rw [heq]
  · rename_i z1k1 v heq
    rw [heq]

theorem typedForm_fromSimple_object_eq (o : List (StringType × SimpleValue)) :
    TypedForm.fromSimple (SimpleValue.Object o) =
      match o.find? (fun p => p.1.is_labelled "Z1K1") with
      | some (_z1k1, typ) =>
        match ZType.try_from typ with
        | none => none
        | some t =>
          (tfObjConv (o.filter (fun p => !(p.1.is_labelled "Z1K1")))).map
            (fun fields => .TypedObject t (setOf' cmpTFPair fields))
      | none => (tfObjConv o).map (fun fields => .Object (setOf' cmpTFPair fields)) := by
  rw [TypedForm.fromSimple]
  split
  · rename_i heq
    rw [heq]
  · rename_i heq
    rw [heq]

/-! # Claim theorems -/

/-- The counterexample input for claim C1: a plain two-level object with
no type tags. -/
def c1Input : SimpleValue :=
  .Object [(.String "a", .Object [(.String "b", .StringType (.String "c"))])]

/-- C1 counterexample: on the body `{"a": {"b": "c"}}` the `/compactify`
route (main.rs) returns `{"a": {"b": "c"}}`, while the pass sequence the
claim describes (typed form, compress_reference, compress_string,
compress_monolingual, drop_array_item_types, CompactValue,
compress_simple_classes) returns `{"a [b]": "c"}` — in particular the
route never applies `compress_simple_classes`. -/
theorem compactify_route_ne_claimed_pipeline :
    compactifyCore c1Input [] = some (.vObj [("a", .vObj [("b", .vStr "c")])]) ∧
    claimedPipeline c1Input [] = some (.vObj [("a [b]", .vStr "c")]) ∧
    JValue.vObj [("a", .vObj [("b", .vStr "c")])] ≠ .vObj [("a [b]", .vStr "c")] := by
  refine ⟨?_, ?_, ?_⟩
  · simp [compactifyCore, c1Input, IntermediateFormM.fromSimple_object_eq,
      IntermediateFormM.fromSimple, imObj, imList, TypeM.try_from,
      IntermediateFormM.compress_monolingual, monoObjM, monoListM,
      IntermediateFormM.drop_array_item_types, dropObjM, dropItemsM,
      CompactValueM.fromIntermediateM, cvmObjFields, cvmList, rebuildM,
      CompactValueM.choose_lang, cvmChooseObj, cvmChooseList,
      CompactKeyM.choose_lang, StringType.choose_lang_main,
      LabelledNode.choose_lang_main, StringType.is_labelled,
      setOf', insertSorted, mapCollect, mapInsert, cmpStr, cmpNat,
      cmpE, cmpEL, encStringType, encLabelledNode, encStrPairList,
      encStrPair, eStr, EList.ofList, encIntermediateFormM, encIFMObj,
      encIFMList, encTypeM, encCompactKeyM, encSimpleType,
      encCompactValueM, encCVMObj, encCVMList, cmpIFMPair, cmpCVMPair]
  · simp [claimedPipeline, c1Input, typedForm_fromSimple_object_eq,
      TypedForm.fromSimple, tfObjConv, tfListConv, zType_try_from_object_eq,
      ZType.try_from, IntermediateForm.fromTypedForm, ifObjFromTF, ifListFromTF,
      IntermediateType.fromZType,
      IntermediateForm.compress_reference, crObjRaw, crList,
      IntermediateType.compress_reference,
      IntermediateForm.compress_string, csObjRaw, csList,
      IntermediateType.compress_string,
      IntermediateForm.compress_monolingual, cmObjRaw, cmList,
      IntermediateType.compress_monolingual,
      IntermediateForm.drop_array_item_types, dropObjRaw, dropItems, dropList,
      IntermediateType.drop_array_item_types,
      CompactValue.fromIntermediate, cvObjFields, cvListConv,
      rebuild_obj_with_type_args,
      CompactValue.compress_simple_classes, sizeC, sizeCl, sizeCo,
      cscFuel, cscArr, cscStage1, cscStage2,
      CompactValue.choose_lang, cvChooseObj, cvChooseList,
      CompactKey.choose_lang, StringType.choose_lang,
      LabelledNode.choose_lang, StringType.is_labelled, lookupMap,
      setOf', insertSorted, mapCollect, mapInsert, cmpStr, cmpNat,
      cmpE, cmpEL, encStringType, encLabelledNode, encStrPairList,
      encStrPair, eStr, EList.ofList, encIntermediateForm, encIFObj,
      encIFList, encIntermediateType, encCompactKey, encSimpleType,
      encSimpleTypeList, encCompactValue, encCVObj, encCVList,
      cmpIFPair, cmpCVPair]
    decide
  · simp

/-- C1 (amended): the `/compactify` route of main.rs equals exactly this
pass sequence on the labeled value: conversion to main.rs's
`IntermediateForm`, then `compress_monolingual`, then
`drop_array_item_types`, then conversion to `CompactValue`, then
`choose_lang` — with no `compress_reference`, `compress_string` or
`compress_simple_classes` pass. -/
theorem compactify_route_is_mono_drop_pipeline :
    ∀ (v : SimpleValue) (langs : List String),
      compactifyCore v langs =
        (IntermediateFormM.fromSimple v).bind (fun i =>
          (i.compress_monolingual).bind (fun m =>
            (CompactValueM.fromIntermediateM m.drop_array_item_types).bind (fun c =>
              some (c.choose_lang langs)))) := by
  intro v langs
  rfl

/-- C5 (amended): in the `IntermediateForm → CompactValue` conversion of
compact_value.rs, an object field holding a `TypedObject` with a
parameterised type `WithArgs(t, args)` is rewritten by
`rebuild_obj_with_type_args`, which extends the converted field set with
one synthetic key whose name is the literal string `"!Z1K1"` (not
`"Z1K1"`; the duplicate of the conversion inside main.rs does use
`"Z1K1"`), holding the type arguments as an object. -/
theorem rebuild_obj_synthetic_key_is_bang_z1k1 :
    (∀ (k t : StringType) (args obj : List (StringType × IntermediateForm))
        (rest : List (StringType × IntermediateForm)),
      cvObjFields ((k, .TypedObject (.WithArgs t args) obj) :: rest) =
        (CompactKey.StringType k [⟨t⟩], rebuild_obj_with_type_args obj args) ::
          cvObjFields rest) ∧
    (∀ obj args : List (StringType × IntermediateForm),
      rebuild_obj_with_type_args obj args =
        .Object (setOf' cmpCVPair (setOf' cmpCVPair (cvObjFields obj) ++
          [(CompactKey.StringType (.String "!Z1K1") [],
            CompactValue.Object (setOf' cmpCVPair (cvObjFields args)))]))) := by
  constructor
  · intro k t args obj rest
    simp [cvObjFields]
  · intro obj args
    rw [rebuild_obj_with_type_args]
    simp [CompactValue.fromIntermediate]

/-- C5 counterexample: the synthetic key produced by the compact_value.rs
conversion is `"!Z1K1"`, which differs from the literal `"Z1K1"` the
claim states. -/
theorem rebuild_obj_synthetic_key_not_z1k1 :
    CompactValue.fromIntermediate
      (.Object [(.String "k", .TypedObject (.WithArgs (.String "t") []) [])]) =
      CompactValue.Object [(CompactKey.StringType (.String "k") [⟨.String "t"⟩],
        .Object [(CompactKey.StringType (.String "!Z1K1") [], .Object [])])] ∧
    CompactKey.StringType (StringType.String "!Z1K1") [] ≠
      CompactKey.StringType (StringType.String "Z1K1") [] := by
  constructor
  · simp [CompactValue.fromIntermediate, cvObjFields, cvListConv,
      rebuild_obj_with_type_args, setOf', insertSorted]
  · decide

/-- C8: in the `SimpleValue → TypedForm` conversion (typed_form.rs), the
first array element is the element-type descriptor, the rest are the
items; an uninterpretable `v[0]` is fatal and the empty array panics on
the `v[0]` index. -/
theorem typed_form_array_head_is_type :
    TypedForm.fromSimple (.Array []) = none ∧
    (∀ (v0 : SimpleValue) (rest : List SimpleValue),
      ZType.try_from v0 = none → TypedForm.fromSimple (.Array (v0 :: rest)) = none) ∧
    (∀ (v0 : SimpleValue) (rest : List SimpleValue) (t : ZType),
      ZType.try_from v0 = some t →
        TypedForm.fromSimple (.Array (v0 :: rest)) =
          (tfListConv rest).map (fun items => TypedForm.Array t items)) := by
  refine ⟨?_, ?_, ?_⟩
  · simp [TypedForm.fromSimple]
  · intro v0 rest h
    simp [TypedForm.fromSimple, h]
  · intro v0 rest t h
    simp [TypedForm.fromSimple, h]

/-- C8 witness: a concrete failing head (an array cannot be a type) and
a concrete succeeding typed array `["Z6", "a"]`. -/
theorem typed_form_array_head_is_type_witness :
    TypedForm.fromSimple (.Array [SimpleValue.Array []]) = none ∧
    TypedForm.fromSimple (.Array [SimpleValue.StringType (.String "Z6"),
        SimpleValue.StringType (.String "a")]) =
      some (.Array (.Simple (.String "Z6")) [.StringType (.String "a")]) := by
  constructor
  · exact typed_form_array_head_is_type.2.1 (SimpleValue.Array []) []
      (by simp [ZType.try_from])
  · rw [typed_form_array_head_is_type.2.2 (SimpleValue.StringType (.String "Z6"))
      [SimpleValue.StringType (.String "a")] (.Simple (.String "Z6"))
      (by simp [ZType.try_from])]
    simp [tfListConv, TypedForm.fromSimple]

/-! ## Support for C6/C7: orders on strings and sorted maps -/

theorem cmpStr_lt_iff (a b : String) : cmpStr a b = .lt ↔ a < b := by
  unfold cmpStr
  split
  · rename_i h
    exact ⟨fun _ => h, fun _ => rfl⟩
  · split
    · simp only [reduceCtorEq, false_iff]
      rename_i h1 h2
      subst h2
      exact h1
    · simp only [reduceCtorEq, false_iff]
      rename_i h1 _
      exact h1

/-- The first pair of the canonical (key-sorted) order; spec-side
definition of "the first label in canonical (sorted) order". -/
def minPair : List (String × String) → Option (String × String)
  | [] => none
  | p :: t =>
    some (match minPair t with
      | none => p
      | some q => if p.1 ≤ q.1 then p else q)

theorem minPair_of_keySorted :
    ∀ {l : List (String × String)}, keySortedB l = true → minPair l = l.head? := by
  intro l
  induction l with
  | nil => intro _; rfl
  | cons p t ih =>
    intro hs
    unfold minPair
    cases t with
    | nil => rfl
    | cons q t' =>
      have hpq : cmpStr p.1 q.1 = .lt := keySortedB_head hs
      have hlt : p.1 < q.1 := (cmpStr_lt_iff _ _).1 hpq
      have ht := ih (keySortedB_tail hs)
      rw [ht]
      simp only [List.head?, if_pos hlt.le]

/-- Spec-side label selection for C7: the first language of `langs`
present in the map; else the label of the minimal key; else
`"<no label>"`. -/
def specChooseLabel (n : LabelledNode) (langs : List String) : String :=
  match langs.findSome? (fun lang => lookupMap n.readable_labels lang) with
  | some l => l
  | none =>
    match minPair n.readable_labels with
    | none => "<no label>"
    | some p => p.2

/-- C7: `LabelledNode::choose_lang` (simple_value.rs) renders
`"{z_label}: {label}"` with the label chosen as the spec describes, and
the result is never empty.  The hypothesis is the `BTreeMap` invariant:
the stored label map is key-sorted. -/
theorem labelled_node_choose_lang_spec :
    ∀ (n : LabelledNode) (langs : List String),
      keySortedB n.readable_labels = true →
        n.choose_lang langs = n.z_label ++ ": " ++ specChooseLabel n langs ∧
        0 < (n.choose_lang langs).length := by
  intro n langs hs
  have heq : n.choose_lang langs = n.z_label ++ ": " ++ specChooseLabel n langs := by
    unfold LabelledNode.choose_lang specChooseLabel
    rcases hf : langs.findSome? (fun lang => lookupMap n.readable_labels lang) with _ | l
    · rw [minPair_of_keySorted hs]
      rcases hl : n.readable_labels with _ | ⟨p, t⟩
      · rfl
      · rfl
    · rfl
  refine ⟨heq, ?_⟩
  rw [heq]
  simp only [String.length_append]
  have h2 : (": " : String).length = 2 := rfl
  omega

/-- C7 witness: a concrete labelled node. -/
theorem labelled_node_choose_lang_spec_witness :
    keySortedB [("Z1002", "Monolingual text")] = true ∧
    LabelledNode.choose_lang ⟨[("Z1002", "Monolingual text")], "Z11"⟩ ["Z1002"] =
      "Z11" ++ ": " ++ specChooseLabel ⟨[("Z1002", "Monolingual text")], "Z11"⟩ ["Z1002"] ∧
    0 < (LabelledNode.choose_lang ⟨[("Z1002", "Monolingual text")], "Z11"⟩ ["Z1002"]).length := by
  have h := labelled_node_choose_lang_spec ⟨[("Z1002", "Monolingual text")], "Z11"⟩
    ["Z1002"] (by decide)
  exact ⟨by decide, h.1, h.2⟩

/-! ## Support for C6: every rendered object is key-sorted -/

mutual

def jsonKeysSorted : JValue → Bool
  | .vObj o => keySortedB o && jsonKeysSortedO o
  | .vArr l => jsonKeysSortedL l
  | _ => true

def jsonKeysSortedL : List JValue → Bool
  | [] => true
  | x :: t => jsonKeysSorted x && jsonKeysSortedL t

def jsonKeysSortedO : List (String × JValue) → Bool
  | [] => true
  | (_, v) :: t => jsonKeysSorted v && jsonKeysSortedO t

end

theorem jsonKeysSortedO_iff :
    ∀ {l : List (String × JValue)},
      jsonKeysSortedO l = true ↔ ∀ p ∈ l, jsonKeysSorted p.2 = true := by
  intro l
  induction l with
  | nil => simp [jsonKeysSortedO]
  | cons p t ih =>
    cases p
    simp only [jsonKeysSortedO, Bool.and_eq_true, ih, List.mem_cons]
    constructor
    · rintro ⟨h1, h2⟩ q hq
      rcases hq with hq | hq
      · subst hq
        exact h1
      · exact h2 q hq
    · intro h
      exact ⟨h _ (Or.inl rfl), fun q hq => h q (Or.inr hq)⟩

theorem jsonKeysSortedL_iff :
    ∀ {l : List JValue},
      jsonKeysSortedL l = true ↔ ∀ x ∈ l, jsonKeysSorted x = true := by
  intro l
  induction l with
  | nil => simp [jsonKeysSortedL]
  | cons x t ih =>
    simp only [jsonKeysSortedL, Bool.and_eq_true, ih, List.mem_cons]
    constructor
    · rintro ⟨h1, h2⟩ q hq
      rcases hq with hq | hq
      · subst hq
        exact h1
      · exact h2 q hq
    · intro h
      exact ⟨h _ (Or.inl rfl), fun q hq => h q (Or.inr hq)⟩

theorem jsonKeysSortedO_mapCollect {l : List (String × JValue)}
    (h : ∀ p ∈ l, jsonKeysSorted p.2 = true) :
    jsonKeysSortedO (mapCollect l) = true := by
  rw [jsonKeysSortedO_iff]
  intro p hp
  exact h p (mem_mapCollect hp)

theorem mem_svChooseList {x : JValue} {langs : List String} :
    ∀ {l : List SimpleValue}, x ∈ svChooseList l langs →
      ∃ y ∈ l, x = y.choose_lang langs := by
  intro l
  induction l with
  | nil => intro h; simp [svChooseList] at h
  | cons a t ih =>
    intro h
    simp only [svChooseList, List.mem_cons] at h
    rcases h with h | h
    · exact ⟨a, by simp, h⟩
    · rcases ih h with ⟨y, hy, hxy⟩
      exact ⟨y, by simp [hy], hxy⟩

theorem mem_svChooseObj {p : String × JValue} {langs : List String} :
    ∀ {o : List (StringType × SimpleValue)}, p ∈ svChooseObj o langs →
      ∃ q ∈ o, p = (q.1.choose_lang langs, q.2.choose_lang langs) := by
  intro o
  induction o with
  | nil => intro h; simp [svChooseObj] at h
  | cons a t ih =>
    intro h
    rcases a with ⟨k2, v2⟩
    simp only [svChooseObj, List.mem_cons] at h
    rcases h with h | h
    · exact ⟨(k2, v2), by simp, h⟩
    · rcases ih h with ⟨q, hq, hpq⟩
      exact ⟨q, by simp [hq], hpq⟩

theorem sizeSVl_mem_le {y : SimpleValue} :
    ∀ {l : List SimpleValue}, y ∈ l → 1 + sizeSV y ≤ sizeSVl l := by
  intro l
  induction l with
  | nil => intro h; simp at h
  | cons a t ih =>
    intro h
    rcases List.mem_cons.1 h with h | h
    · subst h
      simp only [sizeSVl]
      omega
    · have := ih h
      simp only [sizeSVl]
      omega

theorem sizeSVo_mem_le {q : StringType × SimpleValue} :
    ∀ {o : List (StringType × SimpleValue)}, q ∈ o → 1 + sizeSV q.2 ≤ sizeSVo o := by
  intro o
  induction o with
  | nil => intro h; simp at h
  | cons a t ih =>
    intro h
    rcases List.mem_cons.1 h with h | h
    · subst h
      rcases q with ⟨k2, v2⟩
      simp only [sizeSVo]
      omega
    · have := ih h
      rcases a with ⟨k3, v3⟩
      simp only [sizeSVo]
      omega

/-- C6: for every labeled value and language preference, every object in
the JSON produced by `SimpleValue::choose_lang` (simple_value.rs) has
its keys in strictly sorted order — the rendered key strings are the
`BTreeMap` keys of the collected `serde_json` map, so re-parsing yields
objects sorted by the rendering of each key. -/
theorem choose_lang_objects_key_sorted :
    ∀ (v : SimpleValue) (langs : List String),
      jsonKeysSorted (v.choose_lang langs) = true := by
  have key : ∀ (n : Nat) (v : SimpleValue) (langs : List String), sizeSV v ≤ n →
      jsonKeysSorted (v.choose_lang langs) = true := by
    intro n
    induction n with
    | zero =>
      intro v langs h
      cases v <;> simp [sizeSV] at h
    | succ n ih =>
      intro v langs hle
      cases v with
      | StringType s => simp [SimpleValue.choose_lang, jsonKeysSorted]
      | Array l =>
        simp only [SimpleValue.choose_lang, jsonKeysSorted]
        rw [jsonKeysSortedL_iff]
        intro x hx
        rcases mem_svChooseList hx with ⟨y, hy, hxy⟩
        subst hxy
        refine ih y langs ?_
        have h1 := sizeSVl_mem_le hy
        simp only [sizeSV] at hle
        omega
      | Object o =>
        simp only [SimpleValue.choose_lang, jsonKeysSorted, Bool.and_eq_true]
        constructor
        · exact mapCollect_keySorted _
        · refine jsonKeysSortedO_mapCollect ?_
          intro p hp
          rcases mem_svChooseObj hp with ⟨q, hq, hpq⟩
          subst hpq
          refine ih q.2 langs ?_
          have h1 := sizeSVo_mem_le hq
          simp only [sizeSV] at hle
          omega
  intro v langs
  exact key (sizeSV v) v langs (le_refl _)

/-! ## Support for C2: the identifier regexes are disjoint -/

theorem takeWhile_eq_self_of_all {p : Char → Bool} :
    ∀ {l : List Char}, l.all p = true → l.takeWhile p = l := by
  intro l
  induction l with
  | nil => intro _; rfl
  | cons c t ih =>
    intro h
    simp only [List.all_cons, Bool.and_eq_true] at h
    simp only [List.takeWhile, h.1, ih h.2]

theorem isZKNum_isZNum_false {s : String} (h : isZKNum s = true) : isZNum s = false := by
  unfold isZNum
  split
  · rename_i rest heq
    unfold isZKNum at h
    rw [heq] at h
    split at h
    · rename_i rest' heq2
      injection heq2 with h1 h2
      subst h2
      by_cases hall : rest.all Char.isDigit = true
      · rw [takeWhile_eq_self_of_all hall] at h
        simp only [List.drop_length] at h
        simp at h
      · have hfalse : rest.all Char.isDigit = false := by
          revert hall
          cases rest.all Char.isDigit <;> simp
        simp [hfalse]
    · rename_i hne
      exact absurd h (by simp)
  · rfl

theorem isZNum_not_empty {s : String} (h : isZNum s = true) : s.isEmpty = false := by
  by_cases he : s.isEmpty = true
  · have : s = "" := (String.isEmpty_iff _).1 he
    subst this
    exact absurd h (by decide)
  · simpa using he

/-- C2 (amended): the label-resolution wrapper swallows every error
value — a fetch `NetworkError`/`SchemaError` and every `SchemaError`
produced by the traversal yield `String(s)` unchanged, and the empty
string short-circuits to `String("")` independently of the fetch
oracle.  (Not every failure is an error value, though: the global-key
scan's `unwrap()`s can panic, which fails the request — see the
counterexample.) -/
theorem labelize_wrapped_swallows_errors :
    (∀ fetch : String → Except MyError JValue,
      labelize_wrapped fetch "" = some (.String "")) ∧
    (∀ (fetch : String → Except MyError JValue) (s : String) (e : MyError),
      labelize' fetch s = some (.error e) → labelize_wrapped fetch s = some (.String s)) ∧
    (∀ (fetch : String → Except MyError JValue) (s : String) (e : MyError),
      isZNum s = true → fetch s = .error e →
        labelize_wrapped fetch s = some (.String s)) ∧
    (∀ (fetch : String → Except MyError JValue) (s : String) (e : MyError),
      isZKNum s = true → fetch (zPartBeforeK s) = .error e →
        labelize_wrapped fetch s = some (.String s)) := by
  have swallow : ∀ (fetch : String → Except MyError JValue) (s : String) (e : MyError),
      labelize' fetch s = some (.error e) → labelize_wrapped fetch s = some (.String s) := by
    intro fetch s e h
    unfold labelize_wrapped
    by_cases he : s.isEmpty = true
    · rw [if_pos he]
    · rw [if_neg he, h]
  refine ⟨?_, swallow, ?_, ?_⟩
  · intro fetch
    rfl
  · intro fetch s e hz hf
    refine swallow fetch s e ?_
    unfold labelize'
    rw [if_pos hz]
    unfold labelizeZ
    rw [hf]
    rfl
  · intro fetch s e hz hf
    refine swallow fetch s e ?_
    unfold labelize'
    rw [if_neg (by simp [isZKNum_isZNum_false hz]), if_pos hz]
    unfold labelizeZK
    rw [hf]

/-- C2 witness: with an upstream that always fails with a
`NetworkError`, the empty string, a persistent-object id and a
global-key id all degrade to plain strings. -/
theorem labelize_wrapped_swallows_errors_witness :
    labelize_wrapped (fun _ => .error (.NetworkError "down")) "" = some (.String "") ∧
    labelize_wrapped (fun _ => .error (.NetworkError "down")) "Z1" = some (.String "Z1") ∧
    labelize_wrapped (fun _ => .error (.NetworkError "down")) "Z1K1" =
      some (.String "Z1K1") := by
  refine ⟨labelize_wrapped_swallows_errors.1 _, ?_, ?_⟩
  · exact labelize_wrapped_swallows_errors.2.2.1 _ "Z1" (.NetworkError "down")
      (by decide) rfl
  · exact labelize_wrapped_swallows_errors.2.2.2 _ "Z1K1" (.NetworkError "down")
      (by decide) rfl

/-- C2 counterexample: label resolution *can* fail the enclosing
request.  For the global key `"Z1K1"` and an upstream response whose
`Z2K2` is an empty object, the scan finds no label container and the
source's `unwrap()` panics (modelled as `none`) instead of returning
`String("Z1K1")`. -/
theorem labelize_wrapped_panics_on_empty_scan :
    labelize_wrapped (fun _ => .ok (.vObj [("Z2K2", .vObj [])])) "Z1K1" = none := by
  rfl

/-! ## Support for C10: annotation-count invariant of the conversion -/

/-- The key carries at most one type annotation. -/
def annOK : CompactKey → Bool
  | .StringType _ t => decide (t.length ≤ 1)
  | .Transient t => decide (t.length ≤ 1)

mutual

def annLE1 : CompactValue → Bool
  | .KeyType k => annOK k
  | .Array v => annLE1L v
  | .Object o => annLE1O o

def annLE1L : List CompactValue → Bool
  | [] => true
  | x :: t => annLE1 x && annLE1L t

def annLE1O : List (CompactKey × CompactValue) → Bool
  | [] => true
  | (k, v) :: t => annOK k && annLE1 v && annLE1O t

end

theorem annLE1O_iff :
    ∀ {l : List (CompactKey × CompactValue)},
      annLE1O l = true ↔ ∀ p ∈ l, annOK p.1 = true ∧ annLE1 p.2 = true := by
  intro l
  induction l with
  | nil => simp [annLE1O]
  | cons p t ih =>
    cases p
    simp only [annLE1O, Bool.and_eq_true, ih, List.mem_cons]
    constructor
    · rintro ⟨⟨h1, h2⟩, h3⟩ q hq
      rcases hq with hq | hq
      · subst hq
        exact ⟨h1, h2⟩
      · exact h3 q hq
    · intro h
      exact ⟨⟨(h _ (Or.inl rfl)).1, (h _ (Or.inl rfl)).2⟩, fun q hq => h q (Or.inr hq)⟩

theorem annLE1O_setOf' {l : List (CompactKey × CompactValue)}
    (h : annLE1O l = true) : annLE1O (setOf' cmpCVPair l) = true := by
  rw [annLE1O_iff] at h ⊢
  intro p hp
  exact h p (mem_setOf' cmpCVPair hp)

theorem annLE1O_append {a b : List (CompactKey × CompactValue)}
    (ha : annLE1O a = true) (hb : annLE1O b = true) : annLE1O (a ++ b) = true := by
  rw [annLE1O_iff] at ha hb ⊢
  intro p hp
  rcases List.mem_append.1 hp with h | h
  · exact ha p h
  · exact hb p h

theorem fromIntermediate_object_eq (o : List (StringType × IntermediateForm)) :
    CompactValue.fromIntermediate (.Object o) =
      .Object (setOf' cmpCVPair (cvObjFields o)) := by
  simp [CompactValue.fromIntermediate]

theorem cvObjFields_catchall {k : StringType} {v : IntermediateForm}
    {rest : List (StringType × IntermediateForm)}
    (h1 : ∀ typ obj, v = .TypedObject (.Simple typ) obj → False)
    (h2 : ∀ typ targs obj, v = .TypedObject (.WithArgs typ targs) obj → False)
    (h3 : ∀ typ items, v = .TypedArray (.Simple typ) items → False)
    (h4 : ∀ typ targs items, v = .TypedArray (.WithArgs typ targs) items → False) :
    cvObjFields ((k, v) :: rest) =
      (CompactKey.StringType k [], CompactValue.fromIntermediate v) :: cvObjFields rest := by
  cases v with
  | StringType s => simp [cvObjFields]
  | LabelledNode s t => simp [cvObjFields]
  | Array items => simp [cvObjFields]
  | TypedArray t items =>
    cases t with
    | Simple s => exact absurd rfl (h3 s items)
    | WithArgs a b => exact absurd rfl (h4 a b items)
  | Object o => simp [cvObjFields]
  | TypedObject t o =>
    cases t with
    | Simple s => exact absurd rfl (h1 s o)
    | WithArgs a b => exact absurd rfl (h2 a b o)

/-- C10: every `CompactKey` created by the `IntermediateForm →
CompactValue` conversion of compact_value.rs (including the keys made
by `rebuild_obj_with_type_args` and the `Transient` key at a typed
root) carries at most one type annotation; and `compress_simple_classes`
can later produce annotation lists of length two. -/
theorem conversion_keys_at_most_one_annotation :
    (∀ i : IntermediateForm, annLE1 (CompactValue.fromIntermediate i) = true) ∧
    CompactValue.compress_simple_classes
      (.Object [(CompactKey.StringType (.String "a") [⟨.String "t"⟩],
        .Object [(CompactKey.StringType (.String "b") [],
          .KeyType (.StringType (.String "c") []))])]) =
      .Object [(CompactKey.StringType (.String "a") [⟨.String "t"⟩, ⟨.String "b"⟩],
        .KeyType (.StringType (.String "c") []))] ∧
    ([⟨.String "t"⟩, ⟨.String "b"⟩] : List SimpleType).length = 2 := by
  refine ⟨?_, ?_, rfl⟩
  · refine CompactValue.fromIntermediate.induct
      (fun obj targs => annLE1 (rebuild_obj_with_type_args obj targs) = true)
      (fun i => annLE1 (CompactValue.fromIntermediate i) = true)
      (fun o => annLE1O (cvObjFields o) = true)
      (fun l => annLE1L (cvListConv l) = true)
      ?_ ?_ ?_ ?_ ?_ ?_ ?_ ?_ ?_ ?_ ?_ ?_ ?_ ?_ ?_ ?_ ?_ ?_
    · intro obj targs co ca hca hco h1 h2
      rw [rebuild_obj_with_type_args, hco, hca]
      simp only [annLE1]
      refine annLE1O_setOf' (annLE1O_append ?_ ?_)
      · rw [hco] at h1
        simpa [annLE1] using h1
      · rw [hca] at h2
        simp only [annLE1O, annLE1, annOK]
        simpa [annLE1] using h2
    · intro obj targs hfalse h1 h2
      exact absurd (And.intro (fromIntermediate_object_eq obj)
        (fromIntermediate_object_eq targs))
        (fun hpair => hfalse _ _ hpair.1 hpair.2)
    · intro s
      simp [CompactValue.fromIntermediate, annLE1, annOK]
    · intro s t
      simp [CompactValue.fromIntermediate, annLE1, annOK]
    · intro v hv
      simp only [CompactValue.fromIntermediate, annLE1]
      exact hv
    · intro s v hv
      simp only [CompactValue.fromIntermediate, annLE1]
      exact hv
    · intro _typ targs v htargs hv
      rw [fromIntermediate_object_eq] at htargs
      simp only [annLE1] at htargs
      simp only [CompactValue.fromIntermediate, annLE1, annLE1L, Bool.and_eq_true]
      exact ⟨htargs, hv⟩
    · intro o ho
      simp only [CompactValue.fromIntermediate, annLE1]
      exact annLE1O_setOf' ho
    · intro typ obj hobj
      rw [fromIntermediate_object_eq] at hobj
      simp only [annLE1] at hobj
      simp only [CompactValue.fromIntermediate, annLE1, annLE1O, annOK, Bool.and_eq_true]
      exact ⟨⟨rfl, hobj⟩, by trivial⟩
    · intro typ targs obj hre
      simp only [CompactValue.fromIntermediate, annLE1, annLE1O, annOK, Bool.and_eq_true]
      exact ⟨⟨rfl, hre⟩, by trivial⟩
    · simp [cvObjFields, annLE1O]
    · intro k typ obj rest hobj hrest
      simp only [cvObjFields, annLE1O, annOK, annLE1, Bool.and_eq_true]
      exact ⟨⟨rfl, hobj⟩, hrest⟩
    · intro k typ targs obj rest hre hrest
      simp only [cvObjFields, annLE1O, annOK, Bool.and_eq_true]
      exact ⟨⟨rfl, hre⟩, hrest⟩
    · intro k typ items rest hitems hrest
      simp only [cvObjFields, annLE1O, annOK, annLE1, Bool.and_eq_true]
      exact ⟨⟨rfl, hitems⟩, hrest⟩
    · intro k typ targs items rest htargs hitems hrest
      simp only [cvObjFields, annLE1O, annOK, annLE1, annLE1L, Bool.and_eq_true]
      exact ⟨⟨rfl, htargs, hitems⟩, hrest⟩
    · intro k v rest hn1 hn2 hn3 hn4 hv hrest
      rw [cvObjFields_catchall hn1 hn2 hn3 hn4]
      simp only [annLE1O, annOK, Bool.and_eq_true]
      exact ⟨⟨rfl, hv⟩, hrest⟩
    · simp [cvListConv, annLE1L]
    · intro x t hx ht
      simp only [cvListConv, annLE1L, Bool.and_eq_true]
      exact ⟨hx, ht⟩
  · simp [CompactValue.compress_simple_classes, sizeC, sizeCl, sizeCo,
      cscFuel, cscArr, cscStage1, cscStage2, setOf', insertSorted, cmpCVPair,
      cmpE, cmpEL, cmpNat, cmpStr, encCompactKey, encCompactValue, encCVObj,
      encCVList, encStringType, encSimpleTypeList, encSimpleType, eStr, EList.ofList]

/-! ## Support for C3: the compress passes are total exactly away from
their panic branches -/

theorem okRef_total :
    ∀ x : IntermediateForm, okRefF x = true →
      (IntermediateForm.compress_reference x).isSome = true := by
  intro x0
  refine okRefF.induct
    (fun t => okRefT t = true → (IntermediateType.compress_reference t).isSome = true)
    (fun l => okRefO l = true → (crObjRaw l).isSome = true)
    (fun x => okRefF x = true → (IntermediateForm.compress_reference x).isSome = true)
    (fun l => okRefL l = true → (crList l).isSome = true)
    ?_ ?_ ?_ ?_ ?_ ?_ ?_ ?_ ?_ ?_ ?_ ?_ ?_ ?_ ?_ ?_ ?_ ?_ ?_ ?_ x0
  · intro s _
    simp [IntermediateType.compress_reference]
  · intro typ args hZ9 fst s hfind _
    simp [IntermediateType.compress_reference, hZ9, hfind]
  · intro typ args hZ9 fst snd hns hfind h
    exfalso
    cases snd <;> first | exact hns _ rfl | simp [okRefT, hZ9, hfind] at h
  · intro typ args hZ9 hfind fst obj hfind1 fst2 s hfind2 _
    simp [IntermediateType.compress_reference, hZ9, hfind, hfind1, hfind2]
  · intro typ args hZ9 hfind fst obj hfind1 hns h
    exfalso
    rcases hf2 : obj.find? (fun p => p.1.is_labelled "Z9K1") with _ | ⟨fst2, v2⟩
    · simp [okRefT, hZ9, hfind, hfind1, hf2] at h
    · cases v2 <;> first | exact hns _ _ hf2 | simp [okRefT, hZ9, hfind, hfind1, hf2] at h
  · intro typ args hZ9 hfind hno h
    exfalso
    rcases hf1 : args.find? (fun p => p.1.is_labelled "Z1K1") with _ | ⟨fst1, v1⟩
    · simp [okRefT, hZ9, hfind, hf1] at h
    · cases v1 <;> first | exact hno _ _ hf1 | simp [okRefT, hZ9, hfind, hf1] at h
  · intro typ args hZ9 ih h
    have h' : okRefO args = true := by simpa [okRefT, hZ9] using h
    obtain ⟨o, ho⟩ := Option.isSome_iff_exists.mp (ih h')
    simp [IntermediateType.compress_reference, hZ9, ho]
  · intro _
    simp [crObjRaw]
  · intro k v t ihv iht h
    simp only [okRefO, Bool.and_eq_true] at h
    obtain ⟨w, hw⟩ := Option.isSome_iff_exists.mp (ihv h.1)
    obtain ⟨ws, hws⟩ := Option.isSome_iff_exists.mp (iht h.2)
    simp [crObjRaw, hw, hws]
  · intro typ obj hZ9 fst s hfind _
    simp [IntermediateForm.compress_reference, hZ9, hfind]
  · intro typ obj hZ9 hns h
    exfalso
    rcases hf : obj.find? (fun p => p.1.is_labelled "Z9K1") with _ | ⟨fst, v⟩
    · simp [okRefF, hZ9, hf] at h
    · cases v <;> first | exact hns _ _ hf | simp [okRefF, hZ9, hf] at h
  · intro typ obj hZ9 ih h
    have h' : okRefO obj = true := by simpa [okRefF, hZ9] using h
    obtain ⟨o, ho⟩ := Option.isSome_iff_exists.mp (ih h')
    simp [IntermediateForm.compress_reference, hZ9, ho]
  · intro t args obj ih1 ih2 h
    simp only [okRefF, Bool.and_eq_true] at h
    obtain ⟨t', ht⟩ := Option.isSome_iff_exists.mp (ih1 h.1)
    obtain ⟨o, ho⟩ := Option.isSome_iff_exists.mp (ih2 h.2)
    simp [IntermediateForm.compress_reference, ht, ho]
  · intro s _
    simp [IntermediateForm.compress_reference]
  · intro s t _
    simp [IntermediateForm.compress_reference]
  · intro v ih h
    obtain ⟨l, hl⟩ := Option.isSome_iff_exists.mp (ih (by simpa [okRefF] using h))
    simp [IntermediateForm.compress_reference, hl]
  · intro typ v ih1 ih2 h
    simp only [okRefF, Bool.and_eq_true] at h
    obtain ⟨t', ht⟩ := Option.isSome_iff_exists.mp (ih1 h.1)
    obtain ⟨l, hl⟩ := Option.isSome_iff_exists.mp (ih2 h.2)
    simp [IntermediateForm.compress_reference, ht, hl]
  · intro obj ih h
    obtain ⟨o, ho⟩ := Option.isSome_iff_exists.mp (ih (by simpa [okRefF] using h))
    simp [IntermediateForm.compress_reference, ho]
  · intro _
    simp [crList]
  · intro x t ih1 ih2 h
    simp only [okRefL, Bool.and_eq_true] at h
    obtain ⟨y, hy⟩ := Option.isSome_iff_exists.mp (ih1 h.1)
    obtain ⟨ys, hys⟩ := Option.isSome_iff_exists.mp (ih2 h.2)
    simp [crList, hy, hys]

theorem okRefO_total {l : List (StringType × IntermediateForm)}
    (h : okRefO l = true) : (crObjRaw l).isSome = true := by
  have h2 := okRef_total (.Object l) (by simpa [okRefF] using h)
  cases hcr : crObjRaw l with
  | none => simp [IntermediateForm.compress_reference, hcr] at h2
  | some o => rfl

theorem okStrT_total (t : IntermediateType) (h : okStrT t = true) :
    (IntermediateType.compress_string t).isSome = true := by
  cases t with
  | Simple s => simp [IntermediateType.compress_string]
  | WithArgs typ args =>
    by_cases hZ6 : typ.is_labelled "Z6" = true
    · rcases hf : args.find? (fun p => p.1.is_labelled "Z6K1") with _ | ⟨fst, v⟩
      · exfalso
        simp [okStrT, hZ6, hf] at h
      · cases v <;>
          first
          | (simp [IntermediateType.compress_string, hZ6, hf]; done)
          | simp [okStrT, hZ6, hf] at h
    · have h' : okRefO args = true := by simpa [okStrT, hZ6] using h
      obtain ⟨o, ho⟩ := Option.isSome_iff_exists.mp (okRefO_total h')
      simp [IntermediateType.compress_string, hZ6, ho]

theorem okStr_total :
    ∀ x : IntermediateForm, okStrF x = true →
      (IntermediateForm.compress_string x).isSome = true := by
  intro x0
  refine okStrF.induct
    (fun x => okStrF x = true → (IntermediateForm.compress_string x).isSome = true)
    (fun l => okStrL l = true → (csList l).isSome = true)
    (fun l => okStrO l = true → (csObjRaw l).isSome = true)
    ?_ ?_ ?_ ?_ ?_ ?_ ?_ ?_ ?_ ?_ ?_ ?_ ?_ x0
  · intro typ obj hZ6 fst s hfind _
    simp [IntermediateForm.compress_string, hZ6, hfind]
  · intro typ obj hZ6 hns h
    exfalso
    rcases hf : obj.find? (fun p => p.1.is_labelled "Z6K1") with _ | ⟨fst, v⟩
    · simp [okStrF, hZ6, hf] at h
    · cases v <;> first | exact hns _ _ hf | simp [okStrF, hZ6, hf] at h
  · intro typ obj hZ6 ih h
    have h' : okStrO obj = true := by simpa [okStrF, hZ6] using h
    obtain ⟨o, ho⟩ := Option.isSome_iff_exists.mp (ih h')
    simp [IntermediateForm.compress_string, hZ6, ho]
  · intro t args obj ih h
    simp only [okStrF, Bool.and_eq_true] at h
    obtain ⟨t', ht⟩ := Option.isSome_iff_exists.mp (okStrT_total _ h.1)
    obtain ⟨o, ho⟩ := Option.isSome_iff_exists.mp (ih h.2)
    simp [IntermediateForm.compress_string, ht, ho]
  · intro s _
    simp [IntermediateForm.compress_string]
  · intro s t _
    simp [IntermediateForm.compress_string]
  · intro v ih h
    obtain ⟨l, hl⟩ := Option.isSome_iff_exists.mp (ih (by simpa [okStrF] using h))
    simp [IntermediateForm.compress_string, hl]
  · intro typ v ih h
    simp only [okStrF, Bool.and_eq_true] at h
    obtain ⟨t', ht⟩ := Option.isSome_iff_exists.mp (okStrT_total _ h.1)
    obtain ⟨l, hl⟩ := Option.isSome_iff_exists.mp (ih h.2)
    simp [IntermediateForm.compress_string, ht, hl]
  · intro obj ih h
    obtain ⟨o, ho⟩ := Option.isSome_iff_exists.mp (ih (by simpa [okStrF] using h))
    simp [IntermediateForm.compress_string, ho]
  · intro _
    simp [csList]
  · intro x t ih1 ih2 h
    simp only [okStrL, Bool.and_eq_true] at h
    obtain ⟨y, hy⟩ := Option.isSome_iff_exists.mp (ih1 h.1)
    obtain ⟨ys, hys⟩ := Option.isSome_iff_exists.mp (ih2 h.2)
    simp [csList, hy, hys]
  · intro _
    simp [csObjRaw]
  · intro k v t ihv iht h
    simp only [okStrO, Bool.and_eq_true] at h
    obtain ⟨w, hw⟩ := Option.isSome_iff_exists.mp (ihv h.1)
    obtain ⟨ws, hws⟩ := Option.isSome_iff_exists.mp (iht h.2)
    simp [csObjRaw, hw, hws]

theorem okMono_total :
    ∀ x : IntermediateForm, okMonoF x = true →
      (IntermediateForm.compress_monolingual x).isSome = true := by
  intro x0
  refine okMonoF.induct
    (fun t => okMonoT t = true → (IntermediateType.compress_monolingual t).isSome = true)
    (fun l => okMonoO l = true → (cmObjRaw l).isSome = true)
    (fun x => okMonoF x = true → (IntermediateForm.compress_monolingual x).isSome = true)
    (fun l => okMonoL l = true → (cmList l).isSome = true)
    ?_ ?_ ?_ ?_ ?_ ?_ ?_ ?_ ?_ ?_ ?_ ?_ ?_ ?_ ?_ ?_ x0
  · intro s _
    simp [IntermediateType.compress_monolingual]
  · intro typ args ih h
    have h' : okMonoO args = true := by simpa [okMonoT] using h
    obtain ⟨o, ho⟩ := Option.isSome_iff_exists.mp (ih h')
    simp [IntermediateType.compress_monolingual, ho]
  · intro _
    simp [cmObjRaw]
  · intro k v t ihv iht h
    simp only [okMonoO, Bool.and_eq_true] at h
    obtain ⟨w, hw⟩ := Option.isSome_iff_exists.mp (ihv h.1)
    obtain ⟨ws, hws⟩ := Option.isSome_iff_exists.mp (iht h.2)
    simp [cmObjRaw, hw, hws]
  · intro typ obj hZ11 fst s hfindK2 fst2 s2 hfindK1 _
    simp [IntermediateForm.compress_monolingual, hZ11, hfindK2, hfindK1]
  · intro typ obj hZ11 fst s hfindK2 hns h
    exfalso
    rcases hf : obj.find? (fun p => p.1.is_labelled "Z11K1") with _ | ⟨fst1, v1⟩
    · simp [okMonoF, hZ11, hfindK2, hf] at h
    · cases v1 <;> first | exact hns _ _ hf | simp [okMonoF, hZ11, hfindK2, hf] at h
  · intro typ obj hZ11 hns h
    exfalso
    rcases hf : obj.find? (fun p => p.1.is_labelled "Z11K2") with _ | ⟨fst2, v2⟩
    · simp [okMonoF, hZ11, hf] at h
    · cases v2 <;> first | exact hns _ _ hf | simp [okMonoF, hZ11, hf] at h
  · intro typ obj hZ11 ih h
    have h' : okMonoO obj = true := by simpa [okMonoF, hZ11] using h
    obtain ⟨o, ho⟩ := Option.isSome_iff_exists.mp (ih h')
    simp [IntermediateForm.compress_monolingual, hZ11, ho]
  · intro t args obj ih1 ih2 h
    simp only [okMonoF, Bool.and_eq_true] at h
    obtain ⟨t', ht⟩ := Option.isSome_iff_exists.mp (ih1 h.1)
    obtain ⟨o, ho⟩ := Option.isSome_iff_exists.mp (ih2 h.2)
    simp [IntermediateForm.compress_monolingual, ht, ho]
  · intro s _
    simp [IntermediateForm.compress_monolingual]
  · intro s t _
    simp [IntermediateForm.compress_monolingual]
  · intro v ih h
    obtain ⟨l, hl⟩ := Option.isSome_iff_exists.mp (ih (by simpa [okMonoF] using h))
    simp [IntermediateForm.compress_monolingual, hl]
  · intro typ v ih1 ih2 h
    simp only [okMonoF, Bool.and_eq_true] at h
    obtain ⟨t', ht⟩ := Option.isSome_iff_exists.mp (ih1 h.1)
    obtain ⟨l, hl⟩ := Option.isSome_iff_exists.mp (ih2 h.2)
    simp [IntermediateForm.compress_monolingual, ht, hl]
  · intro obj ih h
    obtain ⟨o, ho⟩ := Option.isSome_iff_exists.mp (ih (by simpa [okMonoF] using h))
    simp [IntermediateForm.compress_monolingual, ho]
  · intro _
    simp [cmList]
  · intro x t ih1 ih2 h
    simp only [okMonoL, Bool.and_eq_true] at h
    obtain ⟨y, hy⟩ := Option.isSome_iff_exists.mp (ih1 h.1)
    obtain ⟨ys, hys⟩ := Option.isSome_iff_exists.mp (ih2 h.2)
    simp [cmList, hy, hys]

/-! ## Support for C3/C4: `compress_simple_classes` — exactness of the
fuel model, structural invariant of its outputs, and idempotence -/

theorem sizeC_pos : ∀ x : CompactValue, 1 ≤ sizeC x := by
  intro x
  cases x <;> (simp only [sizeC]; omega)

theorem sizeCo_eq_sumW :
    ∀ l : List (CompactKey × CompactValue),
      sizeCo l = sumW (fun p => 1 + sizeC p.2) l := by
  intro l
  induction l with
  | nil => rfl
  | cons p t ih =>
    cases p
    simp only [sizeCo, sumW, ih]

theorem sizeCo_setOf'_le (l : List (CompactKey × CompactValue)) :
    sizeCo (setOf' cmpCVPair l) ≤ sizeCo l := by
  rw [sizeCo_eq_sumW, sizeCo_eq_sumW]
  exact sumW_setOf'_le cmpCVPair _ l

/-- A value that is not an object with exactly one field (the shape the
second map of `compress_simple_classes` merges away). -/
def notSingleObj : CompactValue → Bool
  | .Object (_ :: []) => false
  | _ => true

mutual

/-- The structural invariant of `compress_simple_classes` outputs: all
object field sets are strictly sorted and no field value is a
single-field object. -/
def IsComp : CompactValue → Bool
  | .KeyType _ => true
  | .Array v => IsCompL v
  | .Object o => sortedB cmpCVPair o && IsCompO o
termination_by x => sizeC x
decreasing_by all_goals (simp only [sizeC, sizeCl, sizeCo]; omega)

def IsCompL : List CompactValue → Bool
  | [] => true
  | x :: t => IsComp x && IsCompL t
termination_by l => sizeCl l
decreasing_by all_goals (simp only [sizeC, sizeCl, sizeCo]; omega)

def IsCompO : List (CompactKey × CompactValue) → Bool
  | [] => true
  | (_, v) :: t => IsComp v && notSingleObj v && IsCompO t
termination_by l => sizeCo l
decreasing_by all_goals (simp only [sizeC, sizeCl, sizeCo]; omega)

end

theorem notSingleObj_of_length {o : List (CompactKey × CompactValue)}
    (h : o.length ≠ 1) : notSingleObj (.Object o) = true := by
  cases o with
  | nil => rfl
  | cons a t =>
    cases t with
    | nil => exact absurd rfl h
    | cons b t2 => rfl

theorem IsCompO_iff :
    ∀ {l : List (CompactKey × CompactValue)},
      IsCompO l = true ↔ ∀ p ∈ l, IsComp p.2 = true ∧ notSingleObj p.2 = true := by
  intro l
  induction l with
  | nil => simp [IsCompO]
  | cons p t ih =>
    cases p
    simp only [IsCompO, Bool.and_eq_true, ih, List.mem_cons]
    constructor
    · rintro ⟨⟨h1, h2⟩, h3⟩ q hq
      rcases hq with hq | hq
      · subst hq
        exact ⟨h1, h2⟩
      · exact h3 q hq
    · intro h
      exact ⟨⟨(h _ (Or.inl rfl)).1, (h _ (Or.inl rfl)).2⟩, fun q hq => h q (Or.inr hq)⟩

theorem cscFuel_fixed :
    ∀ (n : Nat) (x y : CompactValue), IsComp x = true → cscFuel n x = some y → y = x := by
  intro n
  induction n with
  | zero =>
    intro x y _ h
    simp [cscFuel] at h
  | succ n ih =>
    have harr : ∀ (l ys : List CompactValue),
        IsCompL l = true → cscArr n l = some ys → ys = l := by
      intro l
      induction l with
      | nil =>
        intro ys _ h
        simp only [cscArr, Option.some.injEq] at h
        exact h.symm
      | cons a t iht =>
        intro ys hc h
        simp only [IsCompL, Bool.and_eq_true] at hc
        simp only [cscArr, Bind.bind, Option.bind_eq_some, Option.some.injEq] at h
        obtain ⟨y, hy, ys', hys', hcons⟩ := h
        rw [← hcons, ih a y hc.1 hy, iht ys' hc.2 hys']
    have hst1 : ∀ (l ys : List (CompactKey × CompactValue)),
        IsCompO l = true → cscStage1 n l = some ys → ys = l := by
      intro l
      induction l with
      | nil =>
        intro ys _ h
        simp only [cscStage1, Option.some.injEq] at h
        exact h.symm
      | cons p t iht =>
        obtain ⟨k, v⟩ := p
        intro ys hc h
        simp only [IsCompO, Bool.and_eq_true] at hc
        simp only [cscStage1, Bind.bind, Option.bind_eq_some, Option.some.injEq] at h
        obtain ⟨w, hw, ws, hws, hcons⟩ := h
        rw [← hcons, ih v w hc.1.1 hw, iht ws hc.2 hws]
    have hst2 : ∀ (l ys : List (CompactKey × CompactValue)),
        IsCompO l = true → cscStage2 n l = some ys → ys = l := by
      intro l
      induction l with
      | nil =>
        intro ys _ h
        simp only [cscStage2, Option.some.injEq] at h
        exact h.symm
      | cons p t iht =>
        obtain ⟨key, val⟩ := p
        intro ys hc h
        simp only [IsCompO, Bool.and_eq_true] at hc
        cases val with
        | KeyType k =>
          simp only [cscStage2, Bind.bind, Option.bind_eq_some, Option.some.injEq] at h
          obtain ⟨p, hp, ps, hps, hcons⟩ := h
          rw [← hcons, ← hp, iht ps hc.2 hps]
        | Array items =>
          simp only [cscStage2, Bind.bind, Option.bind_eq_some, Option.some.injEq] at h
          obtain ⟨p, hp, ps, hps, hcons⟩ := h
          rw [← hcons, ← hp, iht ps hc.2 hps]
        | Object inner =>
          by_cases hlen : (inner.length == 1) = true
          · exfalso
            have hl1 : inner.length = 1 := by simpa using hlen
            cases inner with
            | nil => simp at hl1
            | cons a t2 =>
              cases t2 with
              | nil => simp [notSingleObj] at hc
              | cons b t3 => simp at hl1
          · rcases hw : cscFuel n (CompactValue.Object inner) with _ | w
            · rw [cscStage2.eq_def] at h
              simp [hlen, hw] at h
            · rcases hps : cscStage2 n t with _ | ps
              · rw [cscStage2.eq_def] at h
                simp [hlen, hw, hps] at h
              · rw [cscStage2.eq_def] at h
                simp only [hlen, Bool.false_eq_true, if_false, hw, hps, Option.map_some',
                  Bind.bind, Option.some_bind, Option.some.injEq] at h
                have hwfix : w = .Object inner := ih _ _ hc.1.1 hw
                rw [← h, hwfix, iht ps hc.2 hps]
    intro x y hcx h
    cases x with
    | KeyType k =>
      simp only [cscFuel, Option.some.injEq] at h
      exact h.symm
    | Array v =>
      simp only [cscFuel, Option.map_eq_some'] at h
      obtain ⟨ys, hys, hy⟩ := h
      have he : ys = v := harr v ys (by simpa [IsComp] using hcx) hys
      rw [← hy, he]
    | Object o =>
      simp only [IsComp, Bool.and_eq_true] at hcx
      simp only [cscFuel, Bind.bind, Option.bind_eq_some, Option.some.injEq] at h
      obtain ⟨s1, h1, s2, h2, hy⟩ := h
      have e1 : s1 = o := hst1 o s1 hcx.2 h1
      subst e1
      have e2 : s2 = s1 := hst2 s1 s2 hcx.2 h2
      subst e2
      rw [← hy, setOf'_eq_self_of_sorted cmpCVPair cmpCVPair_lawful hcx.1]

theorem cscFuel_IsComp :
    ∀ (n : Nat) (x y : CompactValue), cscFuel n x = some y → IsComp y = true := by
  intro n
  induction n with
  | zero =>
    intro x y h
    simp [cscFuel] at h
  | succ n ih =>
    have harr : ∀ (l ys : List CompactValue), cscArr n l = some ys → IsCompL ys = true := by
      intro l
      induction l with
      | nil =>
        intro ys h
        simp only [cscArr, Option.some.injEq] at h
        rw [← h]
        simp [IsCompL]
      | cons a t iht =>
        intro ys h
        simp only [cscArr, Bind.bind, Option.bind_eq_some, Option.some.injEq] at h
        obtain ⟨y, hy, ys', hys', hcons⟩ := h
        rw [← hcons]
        simp only [IsCompL, Bool.and_eq_true]
        exact ⟨ih a y hy, iht ys' hys'⟩
    have hst1 : ∀ (l ys : List (CompactKey × CompactValue)),
        cscStage1 n l = some ys → ∀ p ∈ ys, IsComp p.2 = true := by
      intro l
      induction l with
      | nil =>
        intro ys h
        simp only [cscStage1, Option.some.injEq] at h
        rw [← h]
        intro p hp
        exact absurd hp (List.not_mem_nil p)
      | cons q t iht =>
        obtain ⟨k, v⟩ := q
        intro ys h
        simp only [cscStage1, Bind.bind, Option.bind_eq_some, Option.some.injEq] at h
        obtain ⟨w, hw, ws, hws, hcons⟩ := h
        rw [← hcons]
        intro p hp
        rcases List.mem_cons.mp hp with hp | hp
        · rw [hp]
          exact ih v w hw
        · exact iht ws hws p hp
    have hst2 : ∀ (l ys : List (CompactKey × CompactValue)),
        (∀ p ∈ l, IsComp p.2 = true) → cscStage2 n l = some ys →
          ∀ p ∈ ys, IsComp p.2 = true ∧ notSingleObj p.2 = true := by
      intro l
      induction l with
      | nil =>
        intro ys _ h
        simp only [cscStage2, Option.some.injEq] at h
        rw [← h]
        intro p hp
        exact absurd hp (List.not_mem_nil p)
      | cons q t iht =>
        obtain ⟨key, val⟩ := q
        intro ys hvals h
        have hvval : IsComp val = true := hvals _ (List.mem_cons_self _ _)
        have hvt : ∀ p ∈ t, IsComp p.2 = true := fun p hp => hvals p (List.mem_cons_of_mem _ hp)
        cases val with
        | KeyType k =>
          simp only [cscStage2, Bind.bind, Option.bind_eq_some, Option.some.injEq] at h
          obtain ⟨p, hp, ps, hps, hcons⟩ := h
          rw [← hcons]
          intro q hq
          rcases List.mem_cons.mp hq with hq | hq
          · rw [hq, ← hp]
            exact ⟨hvval, rfl⟩
          · exact iht ps hvt hps q hq
        | Array items =>
          simp only [cscStage2, Bind.bind, Option.bind_eq_some, Option.some.injEq] at h
          obtain ⟨p, hp, ps, hps, hcons⟩ := h
          rw [← hcons]
          intro q hq
          rcases List.mem_cons.mp hq with hq | hq
          · rw [hq, ← hp]
            exact ⟨hvval, rfl⟩
          · exact iht ps hvt hps q hq
        | Object inner =>
          by_cases hlen : (inner.length == 1) = true
          · have hl1 : inner.length = 1 := by simpa using hlen
            cases inner with
            | nil => simp at hl1
            | cons a t2 =>
              cases t2 with
              | cons b t3 => simp at hl1
              | nil =>
                obtain ⟨ik, iv⟩ := a
                have hiv : IsComp iv = true ∧ notSingleObj iv = true := by
                  simp only [IsComp, IsCompO, Bool.and_eq_true, Bool.and_true] at hvval
                  exact hvval.2
                rcases hps : cscStage2 n t with _ | ps
                · rw [cscStage2.eq_def] at h
                  cases key <;> simp [hps] at h
                · rw [cscStage2.eq_def] at h
                  cases key with
                  | StringType k0 t0 =>
                    simp only [hps, List.length_cons, List.length_nil, Nat.zero_add,
                      beq_self_eq_true, eq_self_iff_true, if_true, Bind.bind,
                      Option.some_bind, Option.some.injEq] at h
                    rw [← h]
                    intro q hq
                    rcases List.mem_cons.mp hq with hq | hq
                    · rw [hq]
                      exact hiv
                    · exact iht ps hvt hps q hq
                  | Transient t0 =>
                    simp only [hps, List.length_cons, List.length_nil, Nat.zero_add,
                      beq_self_eq_true, eq_self_iff_true, if_true, Bind.bind,
                      Option.some_bind, Option.some.injEq] at h
                    rw [← h]
                    intro q hq
                    rcases List.mem_cons.mp hq with hq | hq
                    · rw [hq]
                      exact hiv
                    · exact iht ps hvt hps q hq
          · rcases hw : cscFuel n (.Object inner) with _ | w
            · rw [cscStage2.eq_def] at h
              simp [hlen, hw] at h
            · rcases hps : cscStage2 n t with _ | ps
              · rw [cscStage2.eq_def] at h
                simp [hlen, hw, hps] at h
              · rw [cscStage2.eq_def] at h
                simp only [hlen, Bool.false_eq_true, if_false, hw, hps, Option.map_some',
                  Bind.bind, Option.some_bind, Option.some.injEq] at h
                rw [← h]
                intro q hq
                rcases List.mem_cons.mp hq with hq | hq
                · rw [hq]
                  refine ⟨ih _ _ hw, ?_⟩
                  have hwfix : w = .Object inner := cscFuel_fixed n _ _ hvval hw
                  rw [hwfix]
                  refine notSingleObj_of_length ?_
                  intro hcontra
                  exact hlen (by simpa using hcontra)
                · exact iht ps hvt hps q hq
    intro x y h
    cases x with
    | KeyType k =>
      simp only [cscFuel, Option.some.injEq] at h
      rw [← h]
      simp [IsComp]
    | Array v =>
      simp only [cscFuel, Option.map_eq_some'] at h
      obtain ⟨ys, hys, hy⟩ := h
      rw [← hy]
      simpa [IsComp] using harr v ys hys
    | Object o =>
      simp only [cscFuel, Bind.bind, Option.bind_eq_some, Option.some.injEq] at h
      obtain ⟨s1, h1, s2, h2, hy⟩ := h
      rw [← hy]
      simp only [IsComp, Bool.and_eq_true]
      refine ⟨setOf'_sorted cmpCVPair cmpCVPair_lawful s2, ?_⟩
      rw [IsCompO_iff]
      intro p hp
      exact hst2 s1 s2 (hst1 o s1 h1) h2 p (mem_setOf' cmpCVPair hp)

theorem cscFuel_size_le :
    ∀ (n : Nat) (x y : CompactValue), cscFuel n x = some y → sizeC y ≤ sizeC x := by
  intro n
  induction n with
  | zero =>
    intro x y h
    simp [cscFuel] at h
  | succ n ih =>
    have harr : ∀ (l ys : List CompactValue), cscArr n l = some ys → sizeCl ys ≤ sizeCl l := by
      intro l
      induction l with
      | nil =>
        intro ys h
        simp only [cscArr, Option.some.injEq] at h
        rw [← h]
      | cons a t iht =>
        intro ys h
        simp only [cscArr, Bind.bind, Option.bind_eq_some, Option.some.injEq] at h
        obtain ⟨y, hy, ys', hys', hcons⟩ := h
        rw [← hcons]
        have h1 := ih a y hy
        have h2 := iht ys' hys'
        simp only [sizeCl]
        omega
    have hst1 : ∀ (l ys : List (CompactKey × CompactValue)),
        cscStage1 n l = some ys → sizeCo ys ≤ sizeCo l := by
      intro l
      induction l with
      | nil =>
        intro ys h
        simp only [cscStage1, Option.some.injEq] at h
        rw [← h]
      | cons q t iht =>
        obtain ⟨k, v⟩ := q
        intro ys h
        simp only [cscStage1, Bind.bind, Option.bind_eq_some, Option.some.injEq] at h
        obtain ⟨w, hw, ws, hws, hcons⟩ := h
        rw [← hcons]
        have h1 := ih v w hw
        have h2 := iht ws hws
        simp only [sizeCo]
        omega
    have hst2 : ∀ (l ys : List (CompactKey × CompactValue)),
        cscStage2 n l = some ys → sizeCo ys ≤ sizeCo l := by
      intro l
      induction l with
      | nil =>
        intro ys h
        simp only [cscStage2, Option.some.injEq] at h
        rw [← h]
      | cons q t iht =>
        obtain ⟨key, val⟩ := q
        intro ys h
        cases val with
        | KeyType k =>
          simp only [cscStage2, Bind.bind, Option.bind_eq_some, Option.some.injEq] at h
          obtain ⟨p, hp, ps, hps, hcons⟩ := h
          rw [← hcons, ← hp]
          have h2 := iht ps hps
          simp only [sizeCo]
          omega
        | Array items =>
          simp only [cscStage2, Bind.bind, Option.bind_eq_some, Option.some.injEq] at h
          obtain ⟨p, hp, ps, hps, hcons⟩ := h
          rw [← hcons, ← hp]
          have h2 := iht ps hps
          simp only [sizeCo]
          omega
        | Object inner =>
          by_cases hlen : (inner.length == 1) = true
          · have hl1 : inner.length = 1 := by simpa using hlen
            cases inner with
            | nil => simp at hl1
            | cons a t2 =>
              cases t2 with
              | cons b t3 => simp at hl1
              | nil =>
                obtain ⟨ik, iv⟩ := a
                rcases hps : cscStage2 n t with _ | ps
                · rw [cscStage2.eq_def] at h
                  cases key <;> simp [hps] at h
                · rw [cscStage2.eq_def] at h
                  have h2 := iht ps hps
                  cases key with
                  | StringType k0 t0 =>
                    simp only [hps, List.length_cons, List.length_nil, Nat.zero_add,
                      beq_self_eq_true, eq_self_iff_true, if_true, Bind.bind,
                      Option.some_bind, Option.some.injEq] at h
                    rw [← h]
                    simp only [sizeCo, sizeC]
                    omega
                  | Transient t0 =>
                    simp only [hps, List.length_cons, List.length_nil, Nat.zero_add,
                      beq_self_eq_true, eq_self_iff_true, if_true, Bind.bind,
                      Option.some_bind, Option.some.injEq] at h
                    rw [← h]
                    simp only [sizeCo, sizeC]
                    omega
          · rcases hw : cscFuel n (.Object inner) with _ | w
            · rw [cscStage2.eq_def] at h
              simp [hlen, hw] at h
            · rcases hps : cscStage2 n t with _ | ps
              · rw [cscStage2.eq_def] at h
                simp [hlen, hw, hps] at h
              · rw [cscStage2.eq_def] at h
                simp only [hlen, Bool.false_eq_true, if_false, hw, hps, Option.map_some',
                  Bind.bind, Option.some_bind, Option.some.injEq] at h
                rw [← h]
                have h1 := ih _ _ hw
                have h2 := iht ps hps
                simp only [sizeCo]
                omega
    intro x y h
    cases x with
    | KeyType k =>
      simp only [cscFuel, Option.some.injEq] at h
      rw [← h]
    | Array v =>
      simp only [cscFuel, Option.map_eq_some'] at h
      obtain ⟨ys, hys, hy⟩ := h
      rw [← hy]
      have h1 := harr v ys hys
      simp only [sizeC]
      omega
    | Object o =>
      simp only [cscFuel, Bind.bind, Option.bind_eq_some, Option.some.injEq] at h
      obtain ⟨s1, h1, s2, h2, hy⟩ := h
      rw [← hy]
      have b1 := hst1 o s1 h1
      have b2 := hst2 s1 s2 h2
      have b3 := sizeCo_setOf'_le s2
      simp only [sizeC]
      omega

theorem cscFuel_total :
    ∀ (n : Nat) (x : CompactValue), sizeC x < n → (cscFuel n x).isSome = true := by
  intro n
  induction n with
  | zero =>
    intro x hx
    exact absurd hx (by omega)
  | succ n ih =>
    have harr : ∀ l : List CompactValue, sizeCl l < n → (cscArr n l).isSome = true := by
      intro l
      induction l with
      | nil => intro _; simp [cscArr]
      | cons a t iht =>
        intro hs
        simp only [sizeCl] at hs
        obtain ⟨y, hy⟩ := Option.isSome_iff_exists.mp (ih a (by omega))
        obtain ⟨ys, hys⟩ := Option.isSome_iff_exists.mp (iht (by omega))
        simp [cscArr, hy, hys]
    have hst1 : ∀ l : List (CompactKey × CompactValue), sizeCo l < n →
        ∃ ys, cscStage1 n l = some ys ∧ sizeCo ys ≤ sizeCo l := by
      intro l
      induction l with
      | nil => intro _; exact ⟨[], by simp [cscStage1], le_refl _⟩
      | cons q t iht =>
        obtain ⟨k, v⟩ := q
        intro hs
        simp only [sizeCo] at hs
        obtain ⟨w, hw⟩ := Option.isSome_iff_exists.mp (ih v (by omega))
        obtain ⟨ws, hws, hb⟩ := iht (by omega)
        refine ⟨(k, w) :: ws, by simp [cscStage1, hw, hws], ?_⟩
        have hwb := cscFuel_size_le n v w hw
        simp only [sizeCo]
        omega
    have hst2 : ∀ l : List (CompactKey × CompactValue), sizeCo l < n →
        (cscStage2 n l).isSome = true := by
      intro l
      induction l with
      | nil => intro _; simp [cscStage2]
      | cons q t iht =>
        obtain ⟨key, val⟩ := q
        intro hs
        simp only [sizeCo] at hs
        obtain ⟨ps, hps⟩ := Option.isSome_iff_exists.mp (iht (by omega))
        cases val with
        | KeyType k => simp [cscStage2, hps]
        | Array items => simp [cscStage2, hps]
        | Object inner =>
          by_cases hlen : (inner.length == 1) = true
          · have hl1 : inner.length = 1 := by simpa using hlen
            cases inner with
            | nil => simp at hl1
            | cons a t2 =>
              cases t2 with
              | cons b t3 => simp at hl1
              | nil =>
                obtain ⟨ik, iv⟩ := a
                rw [cscStage2.eq_def]
                cases key <;> simp [hps]
          · have hsz : sizeC (.Object inner) < n := by
              simp only [sizeC] at hs ⊢
              omega
            obtain ⟨w, hw⟩ := Option.isSome_iff_exists.mp (ih _ hsz)
            rw [cscStage2.eq_def]
            simp [hlen, hw, hps]
    intro x hx
    cases x with
    | KeyType k => simp [cscFuel]
    | Array v =>
      simp only [sizeC] at hx
      obtain ⟨ys, hys⟩ := Option.isSome_iff_exists.mp (harr v (by omega))
      simp [cscFuel, hys]
    | Object o =>
      simp only [sizeC] at hx
      obtain ⟨s1, h1, hb⟩ := hst1 o (by omega)
      obtain ⟨s2, h2⟩ := Option.isSome_iff_exists.mp (hst2 s1 (by omega))
      simp [cscFuel, h1, h2]

theorem csc_idem (x : CompactValue) :
    CompactValue.compress_simple_classes (CompactValue.compress_simple_classes x) =
      CompactValue.compress_simple_classes x := by
  obtain ⟨y, hy⟩ := Option.isSome_iff_exists.mp (cscFuel_total (sizeC x + 1) x (Nat.lt_succ_self _))
  have hx : CompactValue.compress_simple_classes x = y := by
    simp [CompactValue.compress_simple_classes, hy]
  have hyc : IsComp y = true := cscFuel_IsComp _ _ _ hy
  obtain ⟨z, hz⟩ := Option.isSome_iff_exists.mp (cscFuel_total (sizeC y + 1) y (Nat.lt_succ_self _))
  have hzy : z = y := cscFuel_fixed _ _ _ hyc hz
  rw [hx]
  simp [CompactValue.compress_simple_classes, hz, hzy]

/-! ## Support for C4: idempotence of `compress_monolingual` and
`drop_array_item_types` -/

theorem cmObjRaw_of_fixed :
    ∀ {l : List (StringType × IntermediateForm)},
      (∀ p ∈ l, IntermediateForm.compress_monolingual p.2 = some p.2) →
        cmObjRaw l = some l := by
  intro l
  induction l with
  | nil => intro _; rfl
  | cons p t ih =>
    intro h
    obtain ⟨k, v⟩ := p
    have hv := h (k, v) (List.mem_cons_self _ _)
    have ht := ih (fun q hq => h q (List.mem_cons_of_mem _ hq))
    simp only at hv
    simp [cmObjRaw, hv, ht]

theorem cm_idem :
    ∀ (x y : IntermediateForm), IntermediateForm.compress_monolingual x = some y →
      IntermediateForm.compress_monolingual y = some y := by
  intro x0 y0 h0
  refine IntermediateForm.compress_monolingual.induct
    (fun t => ∀ t', IntermediateType.compress_monolingual t = some t' →
      IntermediateType.compress_monolingual t' = some t')
    (fun l => ∀ o, cmObjRaw l = some o →
      ∀ p ∈ o, IntermediateForm.compress_monolingual p.2 = some p.2)
    (fun x => ∀ y, IntermediateForm.compress_monolingual x = some y →
      IntermediateForm.compress_monolingual y = some y)
    (fun l => ∀ l', cmList l = some l' → cmList l' = some l')
    ?_ ?_ ?_ ?_ ?_ ?_ ?_ ?_ ?_ ?_ ?_ ?_ ?_ ?_ ?_ ?_ ?_ ?_ x0 y0 h0
  · intro s t' h
    simp only [IntermediateType.compress_monolingual, Option.some.injEq] at h
    rw [← h]
    simp [IntermediateType.compress_monolingual]
  · intro typ args ih t' h
    rcases ho : cmObjRaw args with _ | o
    · simp [IntermediateType.compress_monolingual, ho] at h
    · simp only [IntermediateType.compress_monolingual, ho, Option.map_some',
        Option.some.injEq] at h
      rw [← h]
      have hfix : ∀ p ∈ setOf' cmpIFPair o, IntermediateForm.compress_monolingual p.2 = some p.2 :=
        fun p hp => ih o ho p (mem_setOf' cmpIFPair hp)
      simp [IntermediateType.compress_monolingual, cmObjRaw_of_fixed hfix,
        setOf'_idem cmpIFPair cmpIFPair_lawful]
  · intro typ obj hZ fst s hK2 fst2 s2 hK1 y h
    simp [IntermediateForm.compress_monolingual, hZ, hK2, hK1] at h
    rw [← h]
    simp [IntermediateForm.compress_monolingual]
  · intro typ obj hZ fst s hK2 fst1 snd hns hK1 y h
    cases snd <;>
      first
      | exact absurd rfl (hns _)
      | simp [IntermediateForm.compress_monolingual, hZ, hK2, hK1] at h
  · intro typ obj hZ fst s hK2 hK1 y h
    simp [IntermediateForm.compress_monolingual, hZ, hK2, hK1] at h
  · intro typ obj hZ fst snd hns hK2 y h
    cases snd <;>
      first
      | exact absurd rfl (hns _)
      | simp [IntermediateForm.compress_monolingual, hZ, hK2] at h
  · intro typ obj hZ hK2 y h
    simp [IntermediateForm.compress_monolingual, hZ, hK2] at h
  · intro typ obj hZ ih y h
    rcases ho : cmObjRaw obj with _ | o
    · simp [IntermediateForm.compress_monolingual, hZ, ho] at h
    · simp [IntermediateForm.compress_monolingual, hZ, ho] at h
      rw [← h]
      have hfix : ∀ p ∈ setOf' cmpIFPair o, IntermediateForm.compress_monolingual p.2 = some p.2 :=
        fun p hp => ih o ho p (mem_setOf' cmpIFPair hp)
      simp [IntermediateForm.compress_monolingual, hZ, cmObjRaw_of_fixed hfix,
        setOf'_idem cmpIFPair cmpIFPair_lawful]
  · intro t args obj ih1 ih2 y h
    rcases htyp0 : IntermediateType.compress_monolingual (.WithArgs t args) with _ | typ'
    · simp [IntermediateForm.compress_monolingual, htyp0] at h
    · rcases ho : cmObjRaw obj with _ | o
      · simp [IntermediateForm.compress_monolingual, htyp0, ho] at h
      · simp [IntermediateForm.compress_monolingual, htyp0, ho] at h
        rw [← h]
        rcases hoargs : cmObjRaw args with _ | oargs
        · simp [IntermediateType.compress_monolingual, hoargs] at htyp0
        · simp only [IntermediateType.compress_monolingual, hoargs, Option.map_some',
            Option.some.injEq] at htyp0
          rw [← htyp0]
          have htfix : IntermediateType.compress_monolingual
              (.WithArgs t (setOf' cmpIFPair oargs)) =
              some (.WithArgs t (setOf' cmpIFPair oargs)) :=
            ih1 _ (by simp [IntermediateType.compress_monolingual, hoargs])
          have hfix : ∀ p ∈ setOf' cmpIFPair o, IntermediateForm.compress_monolingual p.2 = some p.2 :=
            fun p hp => ih2 o ho p (mem_setOf' cmpIFPair hp)
          simp [IntermediateForm.compress_monolingual, htfix, cmObjRaw_of_fixed hfix,
            setOf'_idem cmpIFPair cmpIFPair_lawful]
  · intro s y h
    simp only [IntermediateForm.compress_monolingual, Option.some.injEq] at h
    rw [← h]
    simp [IntermediateForm.compress_monolingual]
  · intro s t y h
    simp only [IntermediateForm.compress_monolingual, Option.some.injEq] at h
    rw [← h]
    simp [IntermediateForm.compress_monolingual]
  · intro v ih y h
    rcases hl : cmList v with _ | l'
    · simp [IntermediateForm.compress_monolingual, hl] at h
    · simp [IntermediateForm.compress_monolingual, hl] at h
      rw [← h]
      simp [IntermediateForm.compress_monolingual, ih l' hl]
  · intro typ v ih1 ih2 y h
    rcases htyp : IntermediateType.compress_monolingual typ with _ | typ'
    · simp [IntermediateForm.compress_monolingual, htyp] at h
    · rcases hitems : cmList v with _ | items'
      · simp [IntermediateForm.compress_monolingual, htyp, hitems] at h
      · simp [IntermediateForm.compress_monolingual, htyp, hitems] at h
        rw [← h]
        simp [IntermediateForm.compress_monolingual, ih1 typ' htyp, ih2 items' hitems]
  · intro obj ih y h
    rcases ho : cmObjRaw obj with _ | o
    · simp [IntermediateForm.compress_monolingual, ho] at h
    · simp [IntermediateForm.compress_monolingual, ho] at h
      rw [← h]
      have hfix : ∀ p ∈ setOf' cmpIFPair o, IntermediateForm.compress_monolingual p.2 = some p.2 :=
        fun p hp => ih o ho p (mem_setOf' cmpIFPair hp)
      simp [IntermediateForm.compress_monolingual, cmObjRaw_of_fixed hfix,
        setOf'_idem cmpIFPair cmpIFPair_lawful]
  · intro o h
    simp only [cmObjRaw, Option.some.injEq] at h
    rw [← h]
    intro p hp
    exact absurd hp (List.not_mem_nil p)
  · intro k v t ihv iht o h
    rcases hw : IntermediateForm.compress_monolingual v with _ | w
    · simp [cmObjRaw, hw] at h
    · rcases hws : cmObjRaw t with _ | ws
      · simp [cmObjRaw, hw, hws] at h
      · simp [cmObjRaw, hw, hws] at h
        rw [← h]
        intro p hp
        rcases List.mem_cons.mp hp with hp | hp
        · rw [hp]
          exact ihv w hw
        · exact iht ws hws p hp
  · intro l' h
    simp only [cmList, Option.some.injEq] at h
    rw [← h]
    simp [cmList]
  · intro x t ihx iht l' h
    rcases hy : IntermediateForm.compress_monolingual x with _ | y
    · simp [cmList, hy] at h
    · rcases hys : cmList t with _ | ys
      · simp [cmList, hy, hys] at h
      · simp [cmList, hy, hys] at h
        rw [← h]
        simp [cmList, ihx y hy, iht ys hys]

theorem dropObjRaw_of_fixed :
    ∀ {l : List (StringType × IntermediateForm)},
      (∀ p ∈ l, IntermediateForm.drop_array_item_types p.2 = p.2) → dropObjRaw l = l := by
  intro l
  induction l with
  | nil => intro _; simp [dropObjRaw]
  | cons p t ih =>
    intro h
    obtain ⟨k, v⟩ := p
    have hv := h (k, v) (List.mem_cons_self _ _)
    simp only at hv
    have ht := ih (fun q hq => h q (List.mem_cons_of_mem _ hq))
    simp [dropObjRaw, hv, ht]

theorem dropItems_not_typed {x : IntermediateForm} {rest : List IntermediateForm}
    (h : ∀ t o, x = IntermediateForm.TypedObject t o → False) :
    dropItems (x :: rest) = x.drop_array_item_types :: dropItems rest := by
  cases x with
  | TypedObject t o => exact absurd rfl (h t o)
  | StringType s => simp [dropItems]
  | LabelledNode s t => simp [dropItems]
  | Array arr => simp [dropItems]
  | TypedArray ty v => simp [dropItems]
  | Object ob => simp [dropItems]

theorem drop_idem :
    ∀ x : IntermediateForm,
      IntermediateForm.drop_array_item_types (IntermediateForm.drop_array_item_types x) =
        IntermediateForm.drop_array_item_types x := by
  intro x0
  refine IntermediateForm.drop_array_item_types.induct
    (fun t => IntermediateType.drop_array_item_types (IntermediateType.drop_array_item_types t) =
      IntermediateType.drop_array_item_types t)
    (fun l => ∀ p ∈ dropObjRaw l, IntermediateForm.drop_array_item_types p.2 = p.2)
    (fun x => IntermediateForm.drop_array_item_types (IntermediateForm.drop_array_item_types x) =
      IntermediateForm.drop_array_item_types x)
    (fun l => dropList (dropList l) = dropList l)
    (fun l => dropItems (dropItems l) = dropItems l)
    ?_ ?_ ?_ ?_ ?_ ?_ ?_ ?_ ?_ ?_ ?_ ?_ ?_ ?_ ?_ x0
  · intro s
    simp [IntermediateType.drop_array_item_types]
  · intro typ args ih
    have hfix : ∀ p ∈ setOf' cmpIFPair (dropObjRaw args),
        IntermediateForm.drop_array_item_types p.2 = p.2 :=
      fun p hp => ih p (mem_setOf' cmpIFPair hp)
    simp [IntermediateType.drop_array_item_types, dropObjRaw_of_fixed hfix,
      setOf'_idem cmpIFPair cmpIFPair_lawful]
  · intro p hp
    simp [dropObjRaw] at hp
  · intro k v t ih3 ih2 p hp
    simp only [dropObjRaw] at hp
    rcases List.mem_cons.mp hp with hp | hp
    · rw [hp]
      exact ih3
    · exact ih2 p hp
  · intro typ v ih5
    simp only [IntermediateForm.drop_array_item_types, ih5]
  · intro arr ih4
    simp only [IntermediateForm.drop_array_item_types, ih4]
  · intro obj ih2
    have hfix : ∀ p ∈ setOf' cmpIFPair (dropObjRaw obj),
        IntermediateForm.drop_array_item_types p.2 = p.2 :=
      fun p hp => ih2 p (mem_setOf' cmpIFPair hp)
    simp [IntermediateForm.drop_array_item_types, dropObjRaw_of_fixed hfix,
      setOf'_idem cmpIFPair cmpIFPair_lawful]
  · intro t o ih1 ih2
    have hfix : ∀ p ∈ setOf' cmpIFPair (dropObjRaw o),
        IntermediateForm.drop_array_item_types p.2 = p.2 :=
      fun p hp => ih2 p (mem_setOf' cmpIFPair hp)
    simp [IntermediateForm.drop_array_item_types, ih1, dropObjRaw_of_fixed hfix,
      setOf'_idem cmpIFPair cmpIFPair_lawful]
  · intro s
    simp [IntermediateForm.drop_array_item_types]
  · intro s t
    simp [IntermediateForm.drop_array_item_types]
  · simp [dropList]
  · intro x t ih3 ih4
    simp only [dropList, ih3, ih4]
  · simp [dropItems]
  · intro _typ obj rest ih3 ih5
    have e1 : dropItems (IntermediateForm.TypedObject _typ obj :: rest) =
        (IntermediateForm.Object obj).drop_array_item_types :: dropItems rest := by
      simp [dropItems]
    rw [e1]
    have he : (IntermediateForm.Object obj).drop_array_item_types =
        IntermediateForm.Object (setOf' cmpIFPair (dropObjRaw obj)) := by
      simp [IntermediateForm.drop_array_item_types]
    have hno : ∀ t o, (IntermediateForm.Object obj).drop_array_item_types =
        IntermediateForm.TypedObject t o → False := by
      intro t o hc
      rw [he] at hc
      simp at hc
    rw [dropItems_not_typed hno, ih3, ih5]
  · intro x rest hnx ih3 ih5
    rw [dropItems_not_typed hnx]
    have hno : ∀ t o, x.drop_array_item_types = IntermediateForm.TypedObject t o → False := by
      cases x with
      | TypedObject t o => exact absurd rfl (hnx t o)
      | StringType s =>
        intro t o hc
        simp [IntermediateForm.drop_array_item_types] at hc
      | LabelledNode s st =>
        intro t o hc
        simp [IntermediateForm.drop_array_item_types] at hc
      | Array arr =>
        intro t o hc
        simp [IntermediateForm.drop_array_item_types] at hc
      | TypedArray ty v =>
        intro t o hc
        simp [IntermediateForm.drop_array_item_types] at hc
      | Object ob =>
        intro t o hc
        simp [IntermediateForm.drop_array_item_types] at hc
    rw [dropItems_not_typed hno, ih3, ih5]

/-- C3 (amended): `drop_array_item_types` is total by construction, and
the remaining passes are total exactly away from their panic branches:
`compress_reference`, `compress_string` and `compress_monolingual`
return a value on every input whose `Z9`- (resp. `Z6`-, `Z11`-) typed
objects carry the unwrapped key with a `StringType` value (the `okRefF`
/ `okStrF` / `okMonoF` predicates), and the recursion of
`compress_simple_classes` always terminates (fuel `sizeC y + 1`
suffices for every input). -/
theorem compress_passes_total_on_panic_free_inputs :
    (∀ x : IntermediateForm, okRefF x = true →
      (IntermediateForm.compress_reference x).isSome = true) ∧
    (∀ x : IntermediateForm, okStrF x = true →
      (IntermediateForm.compress_string x).isSome = true) ∧
    (∀ x : IntermediateForm, okMonoF x = true →
      (IntermediateForm.compress_monolingual x).isSome = true) ∧
    (∀ y : CompactValue, (cscFuel (sizeC y + 1) y).isSome = true) :=
  ⟨okRef_total, okStr_total, okMono_total, fun y => cscFuel_total _ y (Nat.lt_succ_self _)⟩

theorem compress_passes_total_on_panic_free_inputs_witness :
    okRefF (.StringType (.String "x")) = true ∧
    (IntermediateForm.compress_reference (.StringType (.String "x"))).isSome = true ∧
    okStrF (.StringType (.String "x")) = true ∧
    (IntermediateForm.compress_string (.StringType (.String "x"))).isSome = true ∧
    okMonoF (.StringType (.String "x")) = true ∧
    (IntermediateForm.compress_monolingual (.StringType (.String "x"))).isSome = true ∧
    (cscFuel (sizeC (.KeyType (.Transient [])) + 1) (.KeyType (.Transient []))).isSome = true := by
  refine ⟨by simp [okRefF], ?_, by simp [okStrF], ?_, by simp [okMonoF], ?_, ?_⟩
  · exact compress_passes_total_on_panic_free_inputs.1 _ (by simp [okRefF])
  · exact compress_passes_total_on_panic_free_inputs.2.1 _ (by simp [okStrF])
  · exact compress_passes_total_on_panic_free_inputs.2.2.1 _ (by simp [okMonoF])
  · exact compress_passes_total_on_panic_free_inputs.2.2.2 _

/-- C3 counterexample: each of the three compress passes of
intermediate_form.rs reaches a panicking branch (`unwrap` of a missing
`Z9K1`/`Z6K1`/`Z11K2` key) on a small constructible input, so the
passes are not total. -/
theorem compress_passes_panic_reachable :
    IntermediateForm.compress_reference
      (.TypedObject (.Simple (.String "Z9")) []) = none ∧
    IntermediateForm.compress_string
      (.TypedObject (.Simple (.String "Z6")) []) = none ∧
    IntermediateForm.compress_monolingual
      (.TypedObject (.Simple (.String "Z11")) []) = none :=
  ⟨rfl, rfl, rfl⟩

/-- C4 (amended): `compress_monolingual` (wherever it is defined),
`drop_array_item_types` and `compress_simple_classes` are idempotent. -/
theorem mono_drop_simple_classes_idempotent :
    (∀ x y : IntermediateForm, IntermediateForm.compress_monolingual x = some y →
      IntermediateForm.compress_monolingual y = some y) ∧
    (∀ x : IntermediateForm,
      IntermediateForm.drop_array_item_types (IntermediateForm.drop_array_item_types x) =
        IntermediateForm.drop_array_item_types x) ∧
    (∀ y : CompactValue,
      CompactValue.compress_simple_classes (CompactValue.compress_simple_classes y) =
        CompactValue.compress_simple_classes y) :=
  ⟨cm_idem, drop_idem, csc_idem⟩

theorem mono_drop_simple_classes_idempotent_witness :
    IntermediateForm.compress_monolingual
        (.TypedObject (.Simple (.String "Z11"))
          [(.String "Z11K1", .StringType (.String "en")),
           (.String "Z11K2", .StringType (.String "hi"))]) =
      some (.LabelledNode (.String "hi") ⟨.String "en"⟩) ∧
    IntermediateForm.compress_monolingual (.LabelledNode (.String "hi") ⟨.String "en"⟩) =
      some (.LabelledNode (.String "hi") ⟨.String "en"⟩) :=
  ⟨rfl, mono_drop_simple_classes_idempotent.1
    (.TypedObject (.Simple (.String "Z11"))
      [(.String "Z11K1", .StringType (.String "en")),
       (.String "Z11K2", .StringType (.String "hi"))]) _ rfl⟩

/-- C4 counterexample: `compress_reference` is not idempotent.  On a
typed array whose `Z9`-referenced type carries only a `Z1K1` argument,
one application collapses the type to `WithArgs(Z9, {})`; applying the
pass again panics (`unwrap` of the missing `Z9K1`/`Z1K1` key), so the
second application does not even return. -/
theorem compress_reference_not_idempotent :
    IntermediateForm.compress_reference
        (.TypedArray (.WithArgs (.String "Z9")
          [(.String "Z1K1", .Object [(.String "Z9K1", .StringType (.String "Z9"))])]) []) =
      some (.TypedArray (.WithArgs (.String "Z9") []) []) ∧
    IntermediateForm.compress_reference (.TypedArray (.WithArgs (.String "Z9") []) []) =
      none :=
  ⟨rfl, rfl⟩
